import Mathlib

/-!
# zstack-vyos: the configuration-tree engine, the device script, the command
dispatcher and the two parsers

A shallow embedding of four parts of the repository: the parser and the in-memory
configuration tree of `zvr/server/vyos_parser.go`, the device script of
`zvr/server/sys.go`, the command dispatcher of `zvr/server.go`, and the parser of
`zvr/vyos_parser.go`, which keeps the configuration in nested maps.

Go objects reached through pointers (`*VyosConfigNode`) live in an explicit
heap: a list of node records addressed by position.  A pointer is an address,
the nil pointer is `none`.  Every mutating method takes the heap and returns the
new heap.  Go's `nil` slices and maps are kept apart from empty ones
(`Option`), because `isValueNode`, `has` and `String` test for `nil`.  The maps of
the parser of `zvr/vyos_parser.go` are references as well and live in a heap of
their own.

A panic (`panic(...)`, a failed `utils.Assert`, a nil dereference) is a value of
`Failure`; operations on a tree return the outcome together with the tree as
the panic left it.

A Go string is taken as the sequence of its characters (valid UTF-8); where the
code counts bytes, as the buffer of `bufio.Scanner` does, a character counts with
the bytes of its encoding.  Both parsers read the words of a line with a
`bufio.Scanner` and never look at its error, so a word too long for the buffer
ends the line early: `lineTokens` are the lines as the parsers read them,
`textLines` the lines as they stand in the text.  The
package `zvr/utils` is not among the sources: `utils.Assert`, `utils.Stack` and
`utils.Retry` are modelled from the specification and marked as such.

The file has three parts: the embedding of the code together with the notions the
statements need (walks, well-formed trees, the paths a text adds), the lemmas
about them, and the claims `C1` to `C24`.  The namespace `server` holds what
belongs to the package `zvr/server`, the namespace `zvr` what belongs to the
package `zvr`.
-/

namespace server

/-! ## The Go string library, as far as the code uses it -/

/-- Worker of `strings.Split` for a one-character separator: `cur` is the piece
being read. -/
def splitAux (sep : Char) : List Char → List Char → List String
  | [], cur => [String.mk cur]
  | c :: cs, cur =>
    if c = sep then String.mk cur :: splitAux sep cs [] else splitAux sep cs (cur ++ [c])

/-- Go `strings.Split(s, sep)` for the two separators the code uses, `" "` and
`"\n"` (a separator of one character).  The result is never empty:
`strings.Split("", " ")` is `[""]`. -/
def stringsSplit (s : String) (sep : Char) : List String :=
  splitAux sep s.data []

/-- Go `strings.Join(elems, sep)`. -/
def stringsJoin : List String → String → String
  | [], _ => ""
  | [a], _ => a
  | a :: b :: rest, sep => a ++ sep ++ stringsJoin (b :: rest) sep

/-- Go `bufio.isSpace`: the white space that `bufio.ScanWords` splits on. -/
def isSpace (r : Char) : Bool :=
  r = ' ' || r = '\t' || r = '\n' || r.toNat = 0x0B || r.toNat = 0x0C || r = '\r' ||
  r.toNat = 0x85 || r.toNat = 0xA0 ||
  (0x2000 ≤ r.toNat && r.toNat ≤ 0x200A) ||
  r.toNat = 0x1680 || r.toNat = 0x2028 || r.toNat = 0x2029 || r.toNat = 0x202F ||
  r.toNat = 0x205F || r.toNat = 0x3000

/-- The number of bytes of a character in UTF-8, the encoding of a Go string. -/
def utf8Len (c : Char) : Nat :=
  if c.toNat < 0x80 then 1 else if c.toNat < 0x800 then 2 else if c.toNat < 0x10000 then 3 else 4

/-- The number of bytes of a run of characters. -/
def byteLen (cs : List Char) : Nat :=
  (cs.map utf8Len).sum

/-- Go `bufio.MaxScanTokenSize`: the largest buffer a `bufio.Scanner` made by
`bufio.NewScanner` grows to. -/
def MaxScanTokenSize : Nat := 64 * 1024

/-- Worker of `scanWords`: `cur` is the word being read and `n` its length in
bytes.  `Scan` moves the word being read to the start of its buffer and grows
the buffer up to `MaxScanTokenSize` bytes; `bufio.ScanWords` yields the word
once the buffer holds it together with the whole white-space character after
it, or, for the last word of the input, once the reader has reported the end,
which takes a buffer that is not full.  When the buffer is full before that,
`Scan` sets `ErrTooLong` and returns `false`: the loop `for scanner.Scan()`
ends, and the word and the rest of the input are lost. -/
def scanWordsAux : List Char → List Char → Nat → List String
  | [], cur, n =>
    if cur = [] then [] else if n < MaxScanTokenSize then [String.mk cur] else []
  | c :: cs, cur, n =>
    if isSpace c then
      (if cur = [] then scanWordsAux cs [] 0
       else if n + utf8Len c ≤ MaxScanTokenSize then String.mk cur :: scanWordsAux cs [] 0
       else [])
    else scanWordsAux cs (cur ++ [c]) (n + utf8Len c)

/-- The words the loop `for scanner.Scan()` collects on `s`, for a
`bufio.Scanner` made by `bufio.NewScanner` with the split function
`bufio.ScanWords`: the maximal runs of characters that are not white space, up
to the first run the scanner's buffer cannot hold.  The callers never look at
`scanner.Err()`. -/
def scanWords (s : String) : List String :=
  scanWordsAux s.data [] 0

/-- Worker of `fields`: `cur` is the word being read. -/
def fieldsAux : List Char → List Char → List String
  | [], cur => if cur = [] then [] else [String.mk cur]
  | c :: cs, cur =>
    if isSpace c then
      (if cur = [] then fieldsAux cs [] else String.mk cur :: fieldsAux cs [])
    else fieldsAux cs (cur ++ [c])

/-- The white-space-separated tokens of a line, whatever their length: the
maximal runs of characters that are not white space. -/
def fields (s : String) : List String :=
  fieldsAux s.data []

/-! ## Failures -/

/-- The ways the code panics. -/
inductive Failure where
  /-- `panic(errors.New("unable to parser the words: ..."))` of `matchToken`; carries
  the words handed to `matchToken`. -/
  | parseError (words : List String)
  /-- A failed `utils.Assert` on the node at the given address. -/
  | assertion (node : Nat)
  /-- A method called through a nil pointer. -/
  | nilDereference
  /-- `tstack.Pop()` with nothing on the stack. -/
  | emptyStack
  /-- The loop of `Parse` did not finish within its iteration bound (model only). -/
  | outOfFuel
deriving DecidableEq, Repr

/-- Equality of outcomes is decidable. -/
instance instDecidableEqOutcome {ε α : Type} [DecidableEq ε] [DecidableEq α] :
    DecidableEq (Except ε α)
  | .ok a, .ok b =>
    if h : a = b then isTrue (congrArg Except.ok h)
    else isFalse (fun h2 => h (Except.ok.inj h2))
  | .error a, .error b =>
    if h : a = b then isTrue (congrArg Except.error h)
    else isFalse (fun h2 => h (Except.error.inj h2))
  | .ok _, .error _ => isFalse (fun h => Except.noConfusion h)
  | .error _, .ok _ => isFalse (fun h => Except.noConfusion h)

/-! ## Nodes and the heap -/

/-- An address in the heap: a non-nil `*VyosConfigNode`. -/
abbrev Ptr := Nat

/-- A Go `map[string]*VyosConfigNode` that is not nil: the entries, oldest first. -/
abbrev NodeMap := List (String × Ptr)

/-- The struct `VyosConfigNode`.  `none` is Go's `nil`. -/
structure VyosConfigNode where
  name : String
  children : Option (List Ptr)
  childrenIndex : Option NodeMap
  parent : Option Ptr
deriving DecidableEq, Repr

/-- The heap of node objects; the object at address `p` is the `p`-th entry. -/
abbrev Heap := List VyosConfigNode

/-- The zero value `VyosConfigNode{}`. -/
def zeroNode : VyosConfigNode :=
  { name := "", children := none, childrenIndex := none, parent := none }

/-- The object a pointer refers to. -/
def node (h : Heap) (p : Ptr) : VyosConfigNode :=
  h.getD p zeroNode

/-- Map read `m[key]`. -/
def mapGet : NodeMap → String → Option Ptr
  | [], _ => none
  | (k, v) :: m, key => if k = key then some v else mapGet m key

/-- Map removal `delete(m, key)`. -/
def mapDelete (m : NodeMap) (key : String) : NodeMap :=
  m.filter (fun e => decide (e.1 ≠ key))

/-- Map write `m[key] = v`. -/
def mapSet (m : NodeMap) (key : String) (v : Ptr) : NodeMap :=
  mapDelete m key ++ [(key, v)]

/-- Method `getNode`: `n.childrenIndex[name]`; reading a nil map yields nil. -/
def getNode (h : Heap) (n : Ptr) (name : String) : Option Ptr :=
  match (node h n).childrenIndex with
  | none => none
  | some m => mapGet m name

/-- Method `isValueNode`. -/
def isValueNode (h : Heap) (n : Ptr) : Bool :=
  (node h n).childrenIndex.isNone && (node h n).children.isNone

/-- Method `isKeyNode`. -/
def isKeyNode (h : Heap) (n : Ptr) : Bool :=
  match (node h n).children with
  | some [c] => isValueNode h c
  | _ => false

/-- Modelled from the spec: `utils.Assert`, whose source is not among the files.
A violated precondition is fatal: the call panics when the condition is false
and does nothing otherwise.  The failure names the node the message is about. -/
def Assert (ok : Bool) (n : Ptr) : Except Failure Unit :=
  if ok then .ok () else .error (.assertion n)

/-- Method `Value`: the name of the only child, after the assertion that the
node is a key node. -/
def Value (h : Heap) (n : Ptr) : Except Failure String :=
  match Assert (isKeyNode h n) n with
  | .error e => .error e
  | .ok _ =>
    match (node h n).children with
    | some (c :: _) => .ok (node h c).name
    | _ => .error .nilDereference

/-- The node `nd` after the two updates of `deleteNode`: `delete(n.childrenIndex, name)`
(no effect on a nil map) and `n.children = nsl`, the children whose name differs. -/
def detach (h : Heap) (nd : VyosConfigNode) (name : String) : VyosConfigNode :=
  { nd with
    childrenIndex := nd.childrenIndex.map (fun m => mapDelete m name)
    children := some ((nd.children.getD []).filter (fun c => decide ((node h c).name ≠ name))) }

/-- Method `deleteNode`: drops `name` from the index and rebuilds the child list
without the children of that name. -/
def deleteNode (h : Heap) (n : Ptr) (name : String) : Heap :=
  h.set n (detach h (node h n) name)

/-- Method `deleteSelf`: `n.parent.deleteNode(n.name)`. -/
def deleteSelf (h : Heap) (n : Ptr) : Except Failure Heap :=
  match (node h n).parent with
  | none => .error .nilDereference
  | some p => .ok (deleteNode h p (node h n).name)

/-- The object `&VyosConfigNode{name: name}` of `addNode`, with `parent` set to `n`. -/
def newChild (name : String) (n : Ptr) : VyosConfigNode :=
  { name := name, children := none, childrenIndex := none, parent := some n }

/-- The node `nd` after the two updates of `addNode`: `newNode` appended to the
child list and entered in the index, a nil list or map being made first. -/
def attach (nd : VyosConfigNode) (name : String) (newNode : Ptr) : VyosConfigNode :=
  { nd with
    children := some (nd.children.getD [] ++ [newNode])
    childrenIndex := some (mapSet (nd.childrenIndex.getD []) name newNode) }

/-- Method `addNode`: the child of that name when the index has one, else a new
node appended to the child list and entered in the index.  Returns the heap and
the child. -/
def addNode (h : Heap) (n : Ptr) (name : String) : Heap × Ptr :=
  match getNode h n name with
  | some c => (h, c)
  | none => ((h ++ [newChild name n]).set n (attach (node h n) name h.length), h.length)

/-! ## The tree -/

/-- The struct `VyosConfigTree`, with the heap its nodes live in. -/
structure VyosConfigTree where
  heap : Heap
  Root : Option Ptr
  changeCommands : Option (List String)
deriving DecidableEq, Repr

namespace VyosConfigTree

/-- The zero value `&VyosConfigTree{}`: no root yet, no change log. -/
def empty : VyosConfigTree :=
  { heap := [], Root := none, changeCommands := none }

/-- The root object `init` makes: an empty child list and an empty index, neither nil. -/
def emptyRoot : VyosConfigNode :=
  { name := "", children := some [], childrenIndex := some [], parent := none }

/-- Method `init`. -/
def init (t : VyosConfigTree) : VyosConfigTree :=
  let cc := match t.changeCommands with
    | none => some []
    | some l => some l
  match t.Root with
  | some r => { heap := t.heap, Root := some r, changeCommands := cc }
  | none =>
    { heap := t.heap ++ [emptyRoot]
      Root := some t.heap.length
      changeCommands := cc }

/-- The loop of `has`: follow the index, one segment after the other. -/
def hasLoop (h : Heap) : Ptr → List String → Bool
  | _, [] => true
  | current, c :: config =>
    match getNode h current c with
    | none => false
    | some next => hasLoop h next config

/-- Method `has`. -/
def has (t : VyosConfigTree) (config : List String) : Bool :=
  match t.Root with
  | none => false
  | some r =>
    if (node t.heap r).children.isNone then false
    else hasLoop t.heap r config

/-- Method `Has`. -/
def Has (t : VyosConfigTree) (config : String) : Bool :=
  t.has (stringsSplit config ' ')

/-- The loop of `Get`: `current = current.getNode(c)` for every segment; calling
`getNode` through a nil `current` panics. -/
def getLoop (h : Heap) : Option Ptr → List String → Except Failure (Option Ptr)
  | current, [] => .ok current
  | none, _ :: _ => .error .nilDereference
  | some current, c :: config => getLoop h (getNode h current c) config

/-- Method `Get`: the node (`none` for "not found"), and the tree after `init`. -/
def Get (t : VyosConfigTree) (config : String) : Except Failure (Option Ptr) × VyosConfigTree :=
  let t := t.init
  let cs := stringsSplit config ' '
  if !t.has cs then (.ok none, t)
  else (getLoop t.heap t.Root cs, t)

/-- The change log as a list: `Commands()`, a nil slice being the empty list. -/
def Commands (t : VyosConfigTree) : List String :=
  t.changeCommands.getD []

/-- The key-path `strings.Join(cs[:len(cs)-1], " ")` that `Set` computes from `config`. -/
def keyOf (config : String) : String :=
  stringsJoin (stringsSplit config ' ').dropLast " "

/-- The value `cs[len(cs)-1]` that `Set` computes from `config`. -/
def valueOf (config : String) : String :=
  (stringsSplit config ' ').getLastD ""

/-- The loop `for _, c := range cs { current = current.addNode(c) }`. -/
def addPath : Heap → Ptr → List String → Heap × Ptr
  | h, current, [] => (h, current)
  | h, current, c :: cs => addPath (addNode h current c).1 (addNode h current c).2 cs

/-- Method `Set`. -/
def Set (t : VyosConfigTree) (config : String) : Except Failure Bool × VyosConfigTree :=
  let t := t.init
  let cs := stringsSplit config ' '
  let key := keyOf config
  let value := valueOf config
  match t.Get key with
  | (.error e, t) => (.error e, t)
  | (.ok (some keyNode), t) =>
    match Assert (isKeyNode t.heap keyNode) keyNode with
    | .error e => (.error e, t)
    | .ok _ =>
      match Value t.heap keyNode with
      | .error e => (.error e, t)
      | .ok cvalue =>
        if value ≠ cvalue then
          let h1 := deleteNode t.heap keyNode cvalue
          let h2 := (addNode h1 keyNode value).1
          (.ok true,
            { heap := h2, Root := t.Root,
              changeCommands := some (t.Commands ++ ["$DELETE " ++ key] ++ ["$SET " ++ config]) })
        else (.ok false, t)
  | (.ok none, t) =>
    match t.Root with
    | none => (.error .nilDereference, t)
    | some r =>
      (.ok true,
        { heap := (addPath t.heap r cs).1, Root := t.Root,
          changeCommands := some (t.Commands ++ ["$SET " ++ config]) })

/-- Method `Delete`. -/
def Delete (t : VyosConfigTree) (config : String) : Except Failure Bool × VyosConfigTree :=
  match t.Get config with
  | (.error e, t) => (.error e, t)
  | (.ok none, t) => (.ok false, t)
  | (.ok (some current), t) =>
    match deleteSelf t.heap current with
    | .error e => (.error e, t)
    | .ok h =>
      (.ok true,
        { heap := h, Root := t.Root,
          changeCommands := some (t.Commands ++ ["$DELETE " ++ config]) })

/-- Method `CommandsAsString`. -/
def CommandsAsString (t : VyosConfigTree) : String :=
  stringsJoin t.Commands "\n"

/-- Modelled from the spec: the line `String` makes of the path stack, a
`utils.Stack` whose source is not among the files.  `path` holds the names pushed
so far, the first pushed first, which is the order `ReverseSlice` yields
("tokens space-joined", from the top-level node down). -/
def pathLine (path : List String) : String :=
  stringsJoin path " "

/-- The closure `pathBuilder` of `String`: the lines it appends to `strs` for
`node`, `path` being the names on the path stack.  A node whose child list is
nil gives its line; any other node gives the lines of its children, in the
order of the child list.  `depth` bounds the recursion (model only). -/
def pathBuilder (h : Heap) : Nat → List String → Ptr → List String
  | 0, _, _ => []
  | depth + 1, path, n =>
    match (node h n).children with
    | none => [pathLine (path ++ [(node h n).name])]
    | some cs => (cs.map (fun cn => pathBuilder h depth (path ++ [(node h n).name]) cn)).flatten

/-- The slice `strs` that `String` joins: the lines of the children of the root,
in the order of the child list. -/
def pathLines (t : VyosConfigTree) : List String :=
  match t.Root with
  | none => []
  | some r =>
    (((node t.heap r).children.getD []).map (fun n => pathBuilder t.heap t.heap.length [] n)).flatten

/-- Method `String`. -/
def String (t : VyosConfigTree) : String :=
  match t.Root with
  | none => ""
  | some _ => stringsJoin t.pathLines "\n"

end VyosConfigTree

/-! ## The parser -/

/-- The constants `ROOT`, `ROOT_ATTRIBUTE`, `KEY_VALUE`, `CLOSE`, `IGNORE`. -/
inductive role where
  | ROOT | ROOT_ATTRIBUTE | KEY_VALUE | CLOSE | IGNORE
deriving DecidableEq, Repr

/-- Function `matchToken`: the words up to the first `"\n"` decide the role. -/
def matchToken (words : List String) : Except Failure (Nat × role × List String × String) :=
  let ws := words.takeWhile (fun w => decide (w ≠ "\n"))
  let next := ws.length
  let length := ws.length
  if length = 2 ∧ ws.getLastD "" = "\x7b" then
    .ok (next, role.ROOT, [ws.headD ""], "")
  else if length > 2 ∧ ws.getLastD "" = "\x7b" then
    .ok (next, role.ROOT_ATTRIBUTE, ws.dropLast, "")
  else if length ≥ 2 ∧ ws.getLastD "" ≠ "\x7b" ∧ ws.getLastD "" ≠ "\x7d" then
    .ok (next, role.KEY_VALUE, [ws.headD ""], stringsJoin ws.tail " ")
  else if length = 1 ∧ ws.headD "" = "\x7d" then
    .ok (next, role.CLOSE, [], "")
  else if length = 0 then
    .ok (next + 1, role.IGNORE, [], "")
  else
    .error (.parseError words)

/-- The word list `Parse` builds: the words of every line, each line closed by
a `"\n"` word. -/
def parseWords (text : String) : List String :=
  ((stringsSplit text '\n').map (fun s => scanWords s ++ ["\n"])).flatten

/-- Modelled from the spec: `utils.Stack`, whose source is not among the files:
"an explicit stack of ancestor nodes pushed on block-open and popped on
block-close".  The top of the stack is the head of the list. -/
abbrev Stack := List Ptr

/-- Modelled from the spec: `Push` of `utils.Stack`. -/
def Stack.Push (s : Stack) (p : Ptr) : Stack :=
  p :: s

/-- Modelled from the spec: `Pop` of `utils.Stack`, the top and the rest; `none`
on an empty stack, where `tstack.Pop().(*VyosConfigNode)` has no node to yield. -/
def Stack.Pop (s : Stack) : Option (Ptr × Stack) :=
  match s with
  | [] => none
  | top :: rest => some (top, rest)

/-- The variables of the loop of `Parse`. -/
structure ParseState where
  heap : Heap
  currentNode : Ptr
  tstack : Stack
deriving DecidableEq, Repr

/-- The loop over `keys` in the `ROOT_ATTRIBUTE` branch. -/
def attributeLoop : Heap → Ptr → List String → Heap × Ptr
  | h, currentNode, [] => (h, currentNode)
  | h, currentNode, key :: keys =>
    match getNode h currentNode key with
    | none => attributeLoop (addNode h currentNode key).1 (addNode h currentNode key).2 keys
    | some n => attributeLoop h n keys

/-- One round of the loop of `Parse` on `words[i:]`: the offset and the new
state. -/
def parseStep (st : ParseState) (words : List String) : Except Failure (Nat × ParseState) :=
  match matchToken words with
  | .error e => .error e
  | .ok (o, r, keys, value) =>
    match r with
    | role.ROOT =>
      let a := addNode st.heap st.currentNode (keys.headD "")
      .ok (o, { heap := a.1, currentNode := a.2, tstack := st.tstack.Push st.currentNode })
    | role.KEY_VALUE =>
      let a := addNode st.heap st.currentNode (keys.headD "")
      let b := addNode a.1 a.2 value
      .ok (o, { heap := b.1, currentNode := st.currentNode, tstack := st.tstack })
    | role.ROOT_ATTRIBUTE =>
      let a := attributeLoop st.heap st.currentNode keys
      .ok (o, { heap := a.1, currentNode := a.2, tstack := st.tstack.Push st.currentNode })
    | role.CLOSE =>
      match st.tstack.Pop with
      | none => .error .emptyStack
      | some (top, rest) => .ok (o, { heap := st.heap, currentNode := top, tstack := rest })
    | role.IGNORE => .ok (o, st)

/-- The loop `for i := 0; i < len(words); i += offset`, at most `fuel` rounds. -/
def parseLoop (words : List String) : Nat → Nat → ParseState → Except Failure ParseState
  | 0, i, st => if i < words.length then .error .outOfFuel else .ok st
  | fuel + 1, i, st =>
    if i < words.length then
      match parseStep st (words.drop i) with
      | .error e => .error e
      | .ok (offset, st) => parseLoop words fuel (i + offset) st
    else .ok st

/-- The variables before the loop of `Parse`: the tree is the root
`&VyosConfigNode{}` alone, `currentNode` is the root, the stack is empty. -/
def parseStart : ParseState :=
  { heap := [zeroNode], currentNode := 0, tstack := [] }

/-- Method `Parse`: the tree, or the panic that ended the parse. -/
def Parse (text : String) : Except Failure VyosConfigTree :=
  let words := parseWords text
  match parseLoop words words.length 0 parseStart with
  | .error e => .error e
  | .ok st => .ok { heap := st.heap, Root := some 0, changeCommands := none }

/-- Method `GetValue` of `VyosParser`, on the tree `parser.tree` that `Parse`
left: the value and `true` when `Get` finds the node, `""` and `false` when it
does not; `Value` may panic. -/
def GetValue (t : VyosConfigTree) (key : String) :
    Except Failure (String × Bool) × VyosConfigTree :=
  match t.Get key with
  | (.error e, t) => (.error e, t)
  | (.ok none, t) => (.ok ("", false), t)
  | (.ok (some c), t) =>
    match Value t.heap c with
    | .error e => (.error e, t)
    | .ok v => (.ok (v, true), t)

/-! ## The device script of `zvr/server/sys.go` -/

/-- The string `template` of `RunVyosScriptAsUserVyos` (that of `RunVyosScript`
is the same), line by line. -/
def template : String :=
  "vyatta_sbindir=/opt/vyatta/sbin\n" ++
  "SET=$\x7bvyatta_sbindir\x7d/my_set\n" ++
  "DELETE=$\x7bvyatta_sbindir\x7d/my_delete\n" ++
  "COPY=$\x7bvyatta_sbindir\x7d/my_copy\n" ++
  "MOVE=$\x7bvyatta_sbindir\x7d/my_move\n" ++
  "RENAME=$\x7bvyatta_sbindir\x7d/my_rename\n" ++
  "ACTIVATE=$\x7bvyatta_sbindir\x7d/my_activate\n" ++
  "DEACTIVATE=$\x7bvyatta_sbindir\x7d/my_activate\n" ++
  "COMMENT=$\x7bvyatta_sbindir\x7d/my_comment\n" ++
  "COMMIT=$\x7bvyatta_sbindir\x7d/my_commit\n" ++
  "DISCARD=$\x7bvyatta_sbindir\x7d/my_discard\n" ++
  "SAVE=$\x7bvyatta_sbindir\x7d/vyatta-save-config.pl\n" ++
  "API=/bin/cli-shell-api\n" ++
  "\n" ++
  "session_env=$($API getSessionEnv $PPID)\n" ++
  "echo $session_env\n" ++
  "eval $session_env\n" ++
  "$API setupSession\n" ++
  "\n" ++
  "%s\n" ++
  "$COMMIT\n" ++
  "if [ $? -ne 0 ]; then\n" ++
  "\techo \"fail to commit\"\n" ++
  "\texit 1\n" ++
  "fi\n" ++
  "\n" ++
  "function atexit() \x7b\n" ++
  "    $API teardownSession\n" ++
  "\x7d\n" ++
  "\n" ++
  "trap atexit EXIT SIGHUP SIGINT SIGTERM\n"

/-- Worker of `Sprintf`. -/
def sprintfAux : List Char → List Char → List Char
  | [], _ => []
  | [c], _ => [c]
  | c :: d :: rest, arg =>
    if c = '%' ∧ d = 's' then arg ++ rest else c :: sprintfAux (d :: rest) arg

/-- Go `fmt.Sprintf(format, arg)` for a string `arg` and a format whose only verb
is one `%s`, as the template is: the verb is replaced by `arg`. -/
def Sprintf (format arg : String) : String :=
  String.mk (sprintfAux format.data arg.data)

/-- The text `RunVyosScriptAsUserVyos(command)` writes to the temporary file and
runs as user `vyos`: `fmt.Sprintf(template, command)`. -/
def vyosScript (command : String) : String :=
  Sprintf template command

/-- The lines of the template before the line of the verb `%s`. -/
def scriptHeadLines : List String :=
  ["vyatta_sbindir=/opt/vyatta/sbin",
   "SET=$\x7bvyatta_sbindir\x7d/my_set",
   "DELETE=$\x7bvyatta_sbindir\x7d/my_delete",
   "COPY=$\x7bvyatta_sbindir\x7d/my_copy",
   "MOVE=$\x7bvyatta_sbindir\x7d/my_move",
   "RENAME=$\x7bvyatta_sbindir\x7d/my_rename",
   "ACTIVATE=$\x7bvyatta_sbindir\x7d/my_activate",
   "DEACTIVATE=$\x7bvyatta_sbindir\x7d/my_activate",
   "COMMENT=$\x7bvyatta_sbindir\x7d/my_comment",
   "COMMIT=$\x7bvyatta_sbindir\x7d/my_commit",
   "DISCARD=$\x7bvyatta_sbindir\x7d/my_discard",
   "SAVE=$\x7bvyatta_sbindir\x7d/vyatta-save-config.pl",
   "API=/bin/cli-shell-api",
   "",
   "session_env=$($API getSessionEnv $PPID)",
   "echo $session_env",
   "eval $session_env",
   "$API setupSession",
   ""]

/-- The lines of the template after the line `$COMMIT`. -/
def scriptTailLines : List String :=
  ["if [ $? -ne 0 ]; then",
   "\techo \"fail to commit\"",
   "\texit 1",
   "fi",
   "",
   "function atexit() \x7b",
   "    $API teardownSession",
   "\x7d",
   "",
   "trap atexit EXIT SIGHUP SIGINT SIGTERM",
   ""]

/-- The text of the template before the line of the verb. -/
def scriptHead : String :=
  stringsJoin scriptHeadLines "\n"

/-- The text of the template from the line `$COMMIT` on. -/
def scriptTail : String :=
  stringsJoin ("$COMMIT" :: scriptTailLines) "\n"

/-- The change log of the tree after `Set("a b")` alone. -/
def logAB : List String := ["$SET a b"]

/-! ## Paths and well-formed trees -/

/-- The node reached from `current` by following the index through the segments
of a path, `none` when a segment has no entry. -/
def walk (h : Heap) : Ptr → List String → Option Ptr
  | current, [] => some current
  | current, c :: config =>
    match getNode h current c with
    | none => none
    | some next => walk h next config

/-- The child of `n` named `name` in the child list of `n`. -/
def childNamed (h : Heap) (n : Ptr) (name : String) : Option Ptr :=
  ((node h n).children.getD []).find? (fun c => decide ((node h c).name = name))

/-- The node reached from `current` by descending through the child lists: for
every segment, to the child of that name. -/
def walkChildren (h : Heap) : Ptr → List String → Option Ptr
  | current, [] => some current
  | current, c :: config =>
    match childNamed h current c with
    | none => none
    | some next => walkChildren h next config

/-- What holds of the node at address `n` in every heap the code builds: a nil
child list comes with a nil index; the index lists the children under their
names, in the order of the child list; the children are allocated and point
back to `n`; no two children have the same name. -/
def NodeWF (h : Heap) (n : Ptr) : Prop :=
  ((node h n).children = none → (node h n).childrenIndex = none) ∧
  (node h n).childrenIndex.getD [] =
    ((node h n).children.getD []).map (fun c => ((node h c).name, c)) ∧
  (∀ c ∈ (node h n).children.getD [], c < h.length ∧ (node h c).parent = some n) ∧
  (((node h n).children.getD []).map (fun c => (node h c).name)).Nodup

/-- Every allocated node is well formed. -/
def HeapWF (h : Heap) : Prop :=
  ∀ n, n < h.length → NodeWF h n

/-- A well-formed tree: its root is allocated and has no parent, and its heap is
well formed. -/
def WF (t : VyosConfigTree) : Prop :=
  (∃ r, t.Root = some r ∧ r < t.heap.length ∧ (node t.heap r).parent = none) ∧ HeapWF t.heap

/-- The node a path string resolves to, by the index walk from the root. -/
def resolve (t : VyosConfigTree) (config : String) : Option Ptr :=
  match t.Root with
  | none => none
  | some r => walk t.heap r (stringsSplit config ' ')

/-- The lines of a configuration text, each as the words `Parse` scans on it. -/
def lineTokens (text : String) : List (List String) :=
  (stringsSplit text '\n').map scanWords

/-- The lines of a configuration text, each as its white-space-separated tokens. -/
def textLines (text : String) : List (List String) :=
  (stringsSplit text '\n').map fields

/-- Every word has at most 65533 bytes: it fits the buffer of the scanner
together with the white-space character after it, whose encoding has three
bytes at most. -/
def ShortWords (ls : List (List String)) : Prop :=
  ∀ l ∈ ls, ∀ w ∈ l, byteLen w.data + 3 ≤ MaxScanTokenSize

instance instDecidableShortWords (ls : List (List String)) : Decidable (ShortWords ls) := by
  unfold ShortWords
  infer_instance

/-- A line that matches none of the five shapes of the grammar: a single token
other than the closing brace, or two or more tokens the last of which is the
closing brace. -/
def Malformed (ws : List String) : Prop :=
  (ws.length = 1 ∧ ws ≠ ["\x7d"]) ∨ (2 ≤ ws.length ∧ ws.getLastD "" = "\x7d")

instance instDecidableMalformed (ws : List String) : Decidable (Malformed ws) := by
  unfold Malformed
  infer_instance

/-- The number of open blocks after a line, `d` being the number before it: a
closing-brace line closes one, a line of two or more tokens ending in the opening
brace opens one. -/
def depthAfter (d : Nat) (l : List String) : Nat :=
  if l = ["\x7d"] then d - 1
  else if 2 ≤ l.length ∧ l.getLastD "" = "\x7b" then d + 1
  else d

/-- No closing-brace line comes with no block open, `d` blocks being open at the
start. -/
def closesMatched : Nat → List (List String) → Bool
  | _, [] => true
  | d, l :: ls => !(decide (l = ["\x7d"]) && decide (d = 0)) && closesMatched (depthAfter d l) ls

/-- What holds of the variables of the loop of `Parse` at every round. -/
def ParseInv (st : ParseState) : Prop :=
  HeapWF st.heap ∧ st.currentNode < st.heap.length ∧ (∀ p ∈ st.tstack, p < st.heap.length) ∧
  0 < st.heap.length ∧ (node st.heap 0).parent = none

/-- The trees the code can build: what `Parse` returns, and what `Set`, `Delete`
and `Get` leave of such a tree, whatever their outcome. -/
inductive Reachable : VyosConfigTree → Prop where
  | parse (text : String) (t : VyosConfigTree) : Parse text = Except.ok t → Reachable t
  | set (t : VyosConfigTree) (c : String) : Reachable t → Reachable (t.Set c).2
  | delete (t : VyosConfigTree) (p : String) : Reachable t → Reachable (t.Delete p).2
  | get (t : VyosConfigTree) (p : String) : Reachable t → Reachable (t.Get p).2

/-- The method `Set` called on every string of a list in turn; a panic ends the
run. -/
def setAll : VyosConfigTree → List String → Except Failure VyosConfigTree
  | t, [] => .ok t
  | t, c :: cs =>
    match t.Set c with
    | (.ok _, t1) => setAll t1 cs
    | (.error e, _) => .error e

/-- Two path-with-value strings keep apart: the key-path segments of neither are
the first segments of the full path of the other. -/
def Separated (c d : String) : Prop :=
  ¬ ((stringsSplit c ' ').dropLast <+: stringsSplit d ' ') ∧
  ¬ ((stringsSplit d ' ').dropLast <+: stringsSplit c ' ')

instance instDecidableSeparated (c d : String) : Decidable (Separated c d) := by
  unfold Separated
  infer_instance

/-- What holds of a tree into which the strings of `D` have been set, each by a
fresh insertion: the tree is well formed, every path that resolves is made of
first segments of a string of `D`, and the key-path of every string of `D`
resolves to a key node holding its value. -/
def SetInv (t : VyosConfigTree) (D : List String) : Prop :=
  ∃ r, t.Root = some r ∧ r < t.heap.length ∧ (node t.heap r).parent = none ∧
    HeapWF t.heap ∧
    (∀ q x, q ≠ [] → walk t.heap r q = some x → ∃ d ∈ D, q <+: stringsSplit d ' ') ∧
    (∀ d ∈ D, ∃ n, walk t.heap r (stringsSplit d ' ').dropLast = some n ∧
      Value t.heap n = Except.ok (VyosConfigTree.valueOf d))

instance instDecidableNodeWF (h : Heap) (n : Ptr) : Decidable (NodeWF h n) := by
  unfold NodeWF
  infer_instance

instance instDecidableHeapWF (h : Heap) : Decidable (HeapWF h) := by
  unfold HeapWF
  infer_instance

/-! ## The paths the lines of a text add -/

/-- The names on the way from the root to the block that is open after the lines
read so far (`cur`), and the paths of the blocks to return to at the closing
braces still to come, the innermost first (`stack`). -/
structure PathState where
  cur : List String
  stack : List (List String)
deriving DecidableEq, Repr

/-- The open block after a line: a closing-brace line returns to the block on top
of the stack, a line of two or more tokens ending in the opening brace opens the
block its other tokens name, below the open block; any other line leaves the
open block as it is. -/
def pathStep (ps : PathState) (l : List String) : PathState :=
  if l = ["\x7d"] then
    match ps.stack with
    | [] => ps
    | top :: rest => { cur := top, stack := rest }
  else if 2 ≤ l.length ∧ l.getLastD "" = "\x7b" then
    { cur := ps.cur ++ l.dropLast, stack := ps.cur :: ps.stack }
  else ps

/-- The path from the root that a line adds to the tree, `cur` being the path of
the open block: a line that opens a block adds the path of that block, a leaf
line adds its key and, below it, its value; other lines add nothing. -/
def linePath (cur : List String) (l : List String) : Option (List String) :=
  if 2 ≤ l.length ∧ l.getLastD "" = "\x7b" then some (cur ++ l.dropLast)
  else if 2 ≤ l.length ∧ l.getLastD "" ≠ "\x7d" then
    some (cur ++ [l.headD "", stringsJoin l.tail " "])
  else none

/-- The paths the lines add, in the order of the lines. -/
def addedPaths : PathState → List (List String) → List (List String)
  | _, [] => []
  | ps, l :: ls => (linePath ps.cur l).toList ++ addedPaths (pathStep ps l) ls

/-- The path of the block that is open after the lines, read from the top of a
text. -/
def openPath (lines : List (List String)) : List String :=
  (lines.foldl pathStep { cur := [], stack := [] }).cur

/-- The paths the lines of a text add to the tree. -/
def textPaths (text : String) : List (List String) :=
  addedPaths { cur := [], stack := [] } (lineTokens text)

/-- What holds of the variables of the loop of `Parse` after the lines read so
far, `ps` being the paths of the open blocks and `D` the paths those lines added:
the open block and the blocks on the stack are the nodes at their paths; a path
resolves only when it is made of first segments of an added path; every added
path resolves; and no child list is empty without being nil. -/
def PathInv (st : ParseState) (ps : PathState) (D : List (List String)) : Prop :=
  ParseInv st ∧ walk st.heap 0 ps.cur = some st.currentNode ∧
  List.Forall₂ (fun p n => walk st.heap 0 p = some n) ps.stack st.tstack ∧
  (∀ q x, q ≠ [] → walk st.heap 0 q = some x → ∃ d ∈ D, q <+: d) ∧
  (∀ d ∈ D, ∃ x, walk st.heap 0 d = some x) ∧
  (∀ n, n < st.heap.length → (node st.heap n).children ≠ some [])

/-! ## Texts of top-level blocks -/

/-- A top-level block of a text: its name and its statements, each a key and a
value. -/
abbrev Block := String × List (String × String)

/-- The lines of a top-level block: the two-token line that opens it, a two-token
leaf line for every statement, and the closing brace. -/
def blockLines (b : Block) : List (List String) :=
  [b.1, "\x7b"] :: (b.2.map (fun e => [e.1, e.2]) ++ [["\x7d"]])

/-- The lines of a text made of top-level blocks. -/
def flatLines (blocks : List Block) : List (List String) :=
  (blocks.map blockLines).flatten

/-- The value the last statement with the key `key` gives, among the statements
of a block. -/
def lastEntry : List (String × String) → String → Option String
  | [], _ => none
  | (k, v) :: es, key =>
    match lastEntry es key with
    | some w => some w
    | none => if k = key then some v else none

/-- The paths the lines of a block add, the block standing at the top level. -/
def blockPaths (b : Block) : List (List String) :=
  [b.1] :: b.2.map (fun e => [b.1, e.1, e.2])

/-- The paths the lines of a text of top-level blocks add. -/
def flatPaths (blocks : List Block) : List (List String) :=
  (blocks.map blockPaths).flatten

/-! ## Sample inputs -/

/-- The seven-line configuration text of the parsing example. -/
def natConfigText : String :=
  "nat \x7b\n  source \x7b\n    rule 1 \x7b\n      source address 10.0.0.0/24\n    \x7d\n  \x7d\n\x7d"

/-- The tree `Parse` builds from `natConfigText`: the leaf line `source address
10.0.0.0/24` became the key `source` (address 5) with the single value child
`address 10.0.0.0/24` (address 6). -/
def natConfigTree : VyosConfigTree :=
  { heap :=
      [ { name := "", children := some [1], childrenIndex := some [("nat", 1)], parent := none },
        { name := "nat", children := some [2], childrenIndex := some [("source", 2)],
          parent := some 0 },
        { name := "source", children := some [3], childrenIndex := some [("rule", 3)],
          parent := some 1 },
        { name := "rule", children := some [4], childrenIndex := some [("1", 4)],
          parent := some 2 },
        { name := "1", children := some [5], childrenIndex := some [("source", 5)],
          parent := some 3 },
        { name := "source", children := some [6],
          childrenIndex := some [("address 10.0.0.0/24", 6)], parent := some 4 },
        { name := "address 10.0.0.0/24", children := none, childrenIndex := none,
          parent := some 5 } ]
    Root := some 0
    changeCommands := none }

/-- The tree after `Set("a b")` on the zero-valued tree. -/
def treeAB : VyosConfigTree :=
  (VyosConfigTree.empty.Set "a b").2

/-- A three-line text whose second line is the single token `foo`. -/
def malformedText : String := "a \x7b\nfoo\n\x7d"

/-- The tree after `Set("a b")` and then `Set("a c")` on the zero-valued tree. -/
def treeABthenAC : VyosConfigTree :=
  ((VyosConfigTree.empty.Set "a b").2.Set "a c").2

/-- The tree `Parse` returns on the empty text: the root alone. -/
def parsedEmpty : VyosConfigTree :=
  { heap := [zeroNode], Root := some 0, changeCommands := none }

/-- The tree after `Set("a b c")` and then `Delete("a b c")` on the tree parsed
from the empty text: the node `b` (address 2) under `a` (address 1) has lost its
only child. -/
def treeEmptied : VyosConfigTree :=
  ((parsedEmpty.Set "a b c").2.Delete "a b c").2

/-- A text in which the block `a` holds the one statement `k v`, and a later line
opens the path `a k`. -/
def reopenedText : String := "a \x7b\nk v\n\x7d\na k \x7b\nw x\n\x7d"

/-- A text with the leaf line `k v` in the block `b` inside the block `a`. -/
def nestedText : String := "a \x7b\nb \x7b\nk v\n\x7d\n\x7d"

/-- The tree `Parse` builds from `nestedText`. -/
def nestedTree : VyosConfigTree :=
  { heap :=
      [ { name := "", children := some [1], childrenIndex := some [("a", 1)], parent := none },
        { name := "a", children := some [2], childrenIndex := some [("b", 2)], parent := some 0 },
        { name := "b", children := some [3], childrenIndex := some [("k", 3)], parent := some 1 },
        { name := "k", children := some [4], childrenIndex := some [("v", 4)], parent := some 2 },
        { name := "v", children := none, childrenIndex := none, parent := some 3 } ]
    Root := some 0
    changeCommands := none }

/-- The tree `Parse` builds from `reopenedText`: the node `k` (address 2) has the
children `v` and `w`. -/
def reopenedTree : VyosConfigTree :=
  { heap :=
      [ { name := "", children := some [1], childrenIndex := some [("a", 1)], parent := none },
        { name := "a", children := some [2], childrenIndex := some [("k", 2)], parent := some 0 },
        { name := "k", children := some [3, 4], childrenIndex := some [("v", 3), ("w", 4)],
          parent := some 1 },
        { name := "v", children := none, childrenIndex := none, parent := some 2 },
        { name := "w", children := some [5], childrenIndex := some [("x", 5)], parent := some 2 },
        { name := "x", children := none, childrenIndex := none, parent := some 4 } ]
    Root := some 0
    changeCommands := none }

/-- A word of `MaxScanTokenSize` bytes. -/
def longWord : String := String.mk (List.replicate MaxScanTokenSize 'a')

/-- A one-line text: the key `k` and a value of `MaxScanTokenSize` bytes. -/
def longLeafText : String := "k " ++ longWord

/-- A text in which the block `a` holds the one statement `k v`, and an earlier
line opens the path `a k`. -/
def shadowedText : String := "a k \x7b\nw x\n\x7d\na \x7b\nk v\n\x7d"

/-- The tree `Parse` builds from `shadowedText`: the node `k` (address 2) has the
children `w` and `v`. -/
def shadowedTree : VyosConfigTree :=
  { heap :=
      [ { name := "", children := some [1], childrenIndex := some [("a", 1)], parent := none },
        { name := "a", children := some [2], childrenIndex := some [("k", 2)], parent := some 0 },
        { name := "k", children := some [3, 5], childrenIndex := some [("w", 3), ("v", 5)],
          parent := some 1 },
        { name := "w", children := some [4], childrenIndex := some [("x", 4)], parent := some 2 },
        { name := "x", children := none, childrenIndex := none, parent := some 3 },
        { name := "v", children := none, childrenIndex := none, parent := some 2 } ]
    Root := some 0
    changeCommands := none }

end server

namespace zvr

/-! ## The command dispatcher of `zvr/server.go` -/

/-- The struct `ReplyHeader`. -/
structure ReplyHeader where
  Success : Bool
  Error : String
deriving DecidableEq, Repr

/-- The constant `CALLBACK_URL`. -/
def CALLBACK_URL : String := "callbackurl"

/-- The constant `TASK_UUID`. -/
def TASK_UUID : String := "taskuuid"

/-- The constant `http.StatusOK`. -/
def StatusOK : Nat := 200

/-- The constant `http.StatusBadRequest`. -/
def StatusBadRequest : Nat := 400

/-- The constant `http.StatusNotFound`. -/
def StatusNotFound : Nat := 404

/-- The constant `http.StatusInternalServerError`. -/
def StatusInternalServerError : Nat := 500

/-- Go `http.Header`, a `map[string][]string`: the entries of the map, every key
with the values filed under it. -/
abbrev Header := List (String × List String)

/-- Go `validHeaderFieldByte`: the bytes a header field name is made of, which
are the digits, the letters and fifteen marks, the dash among them (given here by
their codes). -/
def validHeaderFieldByte (c : Char) : Bool :=
  (0x30 ≤ c.toNat && c.toNat ≤ 0x39) || (0x41 ≤ c.toNat && c.toNat ≤ 0x5A) ||
  (0x61 ≤ c.toNat && c.toNat ≤ 0x7A) ||
  [0x21, 0x23, 0x24, 0x25, 0x26, 0x27, 0x2A, 0x2B, 0x2D, 0x2E, 0x5E, 0x5F, 0x60, 0x7C, 0x7E].contains
    c.toNat

/-- The loop of Go `canonicalMIMEHeaderKey` that rewrites the letters: upper case
for the first letter and for a letter after a dash, lower case for every other
letter.  `upper` says whether the next letter is to be upper case. -/
def canonicalLetters : Bool → List Char → List Char
  | _, [] => []
  | upper, c :: cs =>
    let c2 :=
      if upper && (0x61 ≤ c.toNat && c.toNat ≤ 0x7A) then Char.ofNat (c.toNat - 32)
      else if !upper && (0x41 ≤ c.toNat && c.toNat ≤ 0x5A) then Char.ofNat (c.toNat + 32)
      else c
    c2 :: canonicalLetters (c2 = '-') cs

/-- Go `textproto.CanonicalMIMEHeaderKey`: the canonical form of a header field
name; a key that holds a byte which is no header field byte is returned as it
is. -/
def CanonicalMIMEHeaderKey (s : String) : String :=
  if s.data.all validHeaderFieldByte then String.mk (canonicalLetters true s.data) else s

/-- Go `h.Get(key)`: the first value filed under the canonical form of the key,
`""` when nothing is filed under it. -/
def Header.Get (h : Header) (key : String) : String :=
  match h.lookup (CanonicalMIMEHeaderKey key) with
  | some (v :: _) => v
  | _ => ""

/-- Go `h.Add(key, value)`: the value is appended to those filed under the
canonical form of the key. -/
def Header.Add (h : Header) (key value : String) : Header :=
  match h.lookup (CanonicalMIMEHeaderKey key) with
  | some vs =>
    h.map (fun e => if e.1 = CanonicalMIMEHeaderKey key then (e.1, vs ++ [value]) else e)
  | none => h ++ [(CanonicalMIMEHeaderKey key, [value])]

/-- The `Header` of a request that came with the given header fields, names and
values in the order of the request: the server of `net/http` files every field
as `Add` does, under the canonical form of its name. -/
def headerOf (fields : List (String × String)) : Header :=
  fields.foldl (fun h f => Header.Add h f.1 f.2) []

/-- An `*http.Request`, as far as the code reads it: `req.URL.Path` and
`req.Header`. -/
structure Request where
  Path : String
  Header : Header
deriving DecidableEq, Repr

/-- Go `req.Header.Get(key)`. -/
def Request.HeaderGet (req : Request) (key : String) : String :=
  Header.Get req.Header key

/-- An `http.ResponseWriter`, as what it has recorded of the reply: the status of
the first `WriteHeader` (`none` before it) and the body written so far. -/
structure ResponseWriter where
  status : Option Nat
  body : String
deriving DecidableEq, Repr

/-- Go `w.WriteHeader(code)`: sets the status once; a later call changes
nothing. -/
def ResponseWriter.WriteHeader (w : ResponseWriter) (code : Nat) : ResponseWriter :=
  match w.status with
  | some _ => w
  | none => { status := some code, body := w.body }

/-- Go `fmt.Fprint(w, s)`: `w.Write`, which sends the status `http.StatusOK` first
when no `WriteHeader` came before. -/
def Fprint (w : ResponseWriter) (s : String) : ResponseWriter :=
  { status := some (w.status.getD StatusOK), body := w.body ++ s }

/-- A non-nil value a handler returns (an `interface{}`), given by what
`json.Marshal` makes of it: the text, or the error. -/
structure Rsp where
  json : Except String String
deriving DecidableEq, Repr

/-- The type `CommandHandler`: what `chandler(ctx)` does on a request, either a
panic, given by its message as `%v` prints it, or the value returned (`none` for
nil).  The field `responseWriter` of the context is not exported and nothing in the
package hands it out, so a handler reads the request only. -/
abbrev CommandHandler := Request → Except String (Option Rsp)

/-- One call of `utils.HttpPostForObject` from the asynchronous branch: the
callback URL, the task identifier sent as the header `taskuuid`, and the body. -/
structure Post where
  url : String
  taskUuid : String
  rsp : Option Rsp
deriving DecidableEq, Repr

/-- What a request leaves behind: the reply, the requests handed to command
handlers, and the callback posts made, each list oldest first. -/
structure World where
  w : ResponseWriter
  runs : List Request
  posts : List Post
deriving DecidableEq, Repr

/-- What the code takes from outside the repository: `json.Marshal` on a
`ReplyHeader`, and whether the attempt number `i` of a callback post succeeds. -/
structure Env where
  marshalReply : ReplyHeader → Except String String
  postOk : Post → Nat → Bool

/-- Modelled from the spec: `utils.Retry(f, 15, 1)` around the callback post,
whose source is not among the files: the post "is retried up to a bounded count
(15 attempts, fixed interval) before being abandoned", and a failure after the
last attempt is logged only.  `left` is the number of attempts left, `i` the
number of the next one; every attempt is recorded. -/
def Retry (env : Env) (p : Post) : Nat → Nat → List Post → List Post
  | 0, _, posts => posts
  | left + 1, i, posts =>
    if env.postOk p i then posts ++ [p] else Retry env p left (i + 1) (posts ++ [p])

/-- Modelled from the spec: `utils.Assert` of the package `zvr/utils`, whose
source is not among the files: a false condition is fatal, with the message. -/
def Assert (ok : Bool) (msg : String) : Except String Unit :=
  if ok then .ok () else .error msg

/-- An `http.HandlerFunc`: it is given the request and what has happened so far,
and leaves either a panic (its message) or nothing, and what has happened. -/
abbrev HandlerFunc := Request → World → Option String × World

/-- The type `HttpInterceptor`. -/
abbrev HttpInterceptor := HandlerFunc → HandlerFunc

/-- The struct `commandHandlerWrap`. -/
structure commandHandlerWrap where
  path : String
  handler : HandlerFunc
  async : Bool

/-- The closure `inner` of `registerCommandHandler`. -/
def inner (env : Env) (chandler : CommandHandler) (async : Bool) : HandlerFunc :=
  fun req world =>
    if !async then
      match chandler req with
      | .error e => (some e, { world with runs := world.runs ++ [req] })
      | .ok none =>
        (none, { w := Fprint (world.w.WriteHeader StatusOK) "", runs := world.runs ++ [req],
                 posts := world.posts })
      | .ok (some rsp) =>
        match rsp.json with
        | .error e => (some e, { world with runs := world.runs ++ [req] })
        | .ok body =>
          (none, { w := Fprint (world.w.WriteHeader StatusOK) body, runs := world.runs ++ [req],
                   posts := world.posts })
    else
      let callbackURL := req.HeaderGet CALLBACK_URL
      let taskUuid := req.HeaderGet TASK_UUID
      match chandler req with
      | .error e => (some e, { world with runs := world.runs ++ [req] })
      | .ok rsp =>
        (none, { w := world.w, runs := world.runs ++ [req],
                 posts := Retry env { url := callbackURL, taskUuid := taskUuid, rsp := rsp }
                   15 0 world.posts })

/-- The loops `for _, ics := range interceptors` and `for _, ic := range ics` of
`registerCommandHandler`: every interceptor wraps what is there, in the order the
map yields them. -/
def applyInterceptors (interceptors : List (String × List HttpInterceptor))
    (f : HandlerFunc) : HandlerFunc :=
  interceptors.foldl (fun acc ics => ics.2.foldl (fun acc ic => ic acc) acc) f

/-- The closure `w.handler` of `registerCommandHandler`: `inner` under the
deferred `recover`. -/
def guarded (env : Env) (inner : HandlerFunc) : HandlerFunc :=
  fun req world =>
    match inner req world with
    | (none, world) => (none, world)
    | (some err, world) =>
      match env.marshalReply { Success := false, Error := err } with
      | .error e =>
        (none, { world with w := Fprint (world.w.WriteHeader StatusInternalServerError) e })
      | .ok body =>
        (none, { world with w := Fprint (world.w.WriteHeader StatusOK) body })

/-- The wrap `w` that `registerCommandHandler` files under `path`. -/
def newWrap (env : Env) (interceptors : List (String × List HttpInterceptor))
    (path : String) (chandler : CommandHandler) (async : Bool) : commandHandlerWrap :=
  { path := path
    handler := guarded env (applyInterceptors interceptors (inner env chandler async))
    async := async }

/-- Function `registerCommandHandler`, on the map `commandHandlers`: the new map,
or the panic. -/
def registerCommandHandler (env : Env) (interceptors : List (String × List HttpInterceptor))
    (commandHandlers : List (String × commandHandlerWrap)) (path : String)
    (chandler : Option CommandHandler) (async : Bool) :
    Except String (List (String × commandHandlerWrap)) :=
  match Assert (path != "") "path cannot be nil" with
  | .error e => .error e
  | .ok _ =>
    match Assert chandler.isSome "chandler cannot be nil" with
    | .error e => .error e
    | .ok _ =>
      match chandler with
      | none => .error "chandler cannot be nil"
      | some ch =>
        if (commandHandlers.lookup path).isSome then
          .error ("duplicate handler for the path[" ++ path ++ "]")
        else .ok ((path, newWrap env interceptors path ch async) :: commandHandlers)

/-- Function `dispatch`. -/
def dispatch (commandHandlers : List (String × commandHandlerWrap)) : HandlerFunc :=
  fun req world =>
    let path := req.Path
    match commandHandlers.lookup path with
    | none =>
      (none, { world with
        w := Fprint (world.w.WriteHeader StatusNotFound)
          ("no plugin registered the path[" ++ path ++ "]") })
    | some wrap =>
      if !wrap.async then wrap.handler req world
      else if req.HeaderGet CALLBACK_URL = "" then
        (none, { world with
          w := Fprint (world.w.WriteHeader StatusBadRequest)
            ("no field \x27" ++ CALLBACK_URL ++
              "\x27 found in the HTTP header but the plugin registers the path[" ++ path ++
              "] as an async command") })
      else if req.HeaderGet TASK_UUID = "" then
        (none, { world with
          w := Fprint (world.w.WriteHeader StatusBadRequest)
            ("no field \x27" ++ TASK_UUID ++
              "\x27 found in the HTTP header but the plugin registers the path[" ++ path ++
              "] as an async command") })
      else
        wrap.handler req { world with w := Fprint (world.w.WriteHeader StatusOK) "" }

/-! ## Sample inputs for the dispatcher -/

/-- Nothing has happened yet: no status, no body, no handler run, no post. -/
def freshWorld : World :=
  { w := { status := none, body := "" }, runs := [], posts := [] }

/-- A stand-in for `json.Marshal` on a `ReplyHeader` (no escaping), and callback
posts that succeed at once. -/
def sampleEnv : Env :=
  { marshalReply := fun r =>
      .ok ("\x7b\"success\":" ++ (if r.Success then "true" else "false") ++ ",\"error\":\"" ++
        r.Error ++ "\"\x7d")
    postOk := fun _ _ => true }

/-- A command handler that panics with the message `boom`. -/
def failingHandler : CommandHandler :=
  fun _ => .error "boom"

/-- A command handler that returns nil. -/
def returningHandler : CommandHandler :=
  fun _ => .ok none

/-- The map `commandHandlers` after `failingHandler` is registered as the
synchronous command `/sync` and as the asynchronous command `/setsnat`, and
`returningHandler` as the asynchronous command `/removesnat`, no interceptor being
registered. -/
def sampleHandlers : List (String × commandHandlerWrap) :=
  [("/removesnat", newWrap sampleEnv [] "/removesnat" returningHandler true),
   ("/setsnat", newWrap sampleEnv [] "/setsnat" failingHandler true),
   ("/sync", newWrap sampleEnv [] "/sync" failingHandler false)]

/-- A request to `/setsnat` with both correlation headers. -/
def requestBoth : Request :=
  { Path := "/setsnat", Header := headerOf [("callbackurl", "http://mn/cb"), ("taskuuid", "42")] }

/-- A request to `/removesnat` with both correlation headers. -/
def requestRemove : Request :=
  { Path := "/removesnat"
    Header := headerOf [("callbackurl", "http://mn/cb"), ("taskuuid", "43")] }

/-- A request to `/setsnat` without the header `taskuuid`. -/
def requestNoTask : Request :=
  { Path := "/setsnat", Header := headerOf [("callbackurl", "http://mn/cb")] }

/-- A request to `/removesnat` whose correlation headers came spelled
`CALLBACKURL` and `TaskUuid`. -/
def requestUpperCase : Request :=
  { Path := "/removesnat"
    Header := headerOf [("CALLBACKURL", "http://mn/cb"), ("TaskUuid", "43")] }

/-! ## The parser of `zvr/vyos_parser.go` -/

/-- The ways the code of `zvr/vyos_parser.go` panics. -/
inductive ParserFailure where
  /-- `panic(errors.New("unable to parser the words: ..."))` of `matchToken`; carries
  the words handed to `matchToken`. -/
  | parseError (words : List String)
  /-- An assignment to an entry of a nil map. -/
  | nilMap
  /-- A failed `utils.Assert`, with its message. -/
  | assertion (msg : String)
  /-- The slice `keys[:len(keys)-1]` of an empty `keys`. -/
  | sliceBounds
  /-- The loop of `Parse` did not finish within its iteration bound (model only). -/
  | outOfFuel
deriving DecidableEq, Repr

/-- A value of type `interface{}` as this parser holds them: a string, or a
`map[string]interface{}`, given by its address in the heap of maps (`none` is the
nil map). -/
inductive Item where
  | str (s : String)
  | map (p : Option Nat)
deriving DecidableEq, Repr

/-- The entries of a Go `map[string]interface{}` that is not nil, oldest first. -/
abbrev GoMap := List (String × Item)

/-- The heap of map objects: Go maps are references, and `current` of `Parse`
refers to a map that `parser.data` may hold as well.  The map at address `p` is
the `p`-th entry. -/
abbrev MapHeap := List GoMap

/-- Map read `m[key]` on the entries of a map; `none` is the nil `interface{}`. -/
def mapGet : GoMap → String → Option Item
  | [], _ => none
  | (k, v) :: m, key => if k = key then some v else mapGet m key

/-- Map write `m[key] = v` on the entries of a map. -/
def mapSet (m : GoMap) (key : String) (v : Item) : GoMap :=
  m.filter (fun e => decide (e.1 ≠ key)) ++ [(key, v)]

/-- Map read `m[key]` through a reference; reading the nil map yields nil. -/
def readMap (h : MapHeap) (p : Option Nat) (key : String) : Option Item :=
  match p with
  | none => none
  | some a => mapGet (h.getD a []) key

/-- Map write `m[key] = v` through a reference; writing to the nil map panics. -/
def writeMap (h : MapHeap) (p : Option Nat) (key : String) (v : Item) :
    Except ParserFailure MapHeap :=
  match p with
  | none => .error .nilMap
  | some a => .ok (h.set a (mapSet (h.getD a []) key v))

/-- The constants `ROOT`, `ROOT_ATTRIBUTE`, `KEY_VALUE`, `CLOSE`, `IGNORE`. -/
inductive role where
  | ROOT | ROOT_ATTRIBUTE | KEY_VALUE | CLOSE | IGNORE
deriving DecidableEq, Repr

/-- Function `matchToken` of this package: a leaf line has exactly two tokens. -/
def matchToken (words : List String) :
    Except ParserFailure (Nat × role × List String × String) :=
  let ws := words.takeWhile (fun w => decide (w ≠ "\n"))
  let next := ws.length
  let length := ws.length
  if length = 2 ∧ ws.getLastD "" = "\x7b" then
    .ok (next, role.ROOT, [ws.headD ""], "")
  else if length > 2 ∧ ws.getLastD "" = "\x7b" then
    .ok (next, role.ROOT_ATTRIBUTE, ws.dropLast, "")
  else if length = 2 ∧ ws.getLastD "" ≠ "\x7b" ∧ ws.getLastD "" ≠ "\x7d" then
    .ok (next, role.KEY_VALUE, [ws.headD ""], ws.getD 1 "")
  else if length = 1 ∧ ws.headD "" = "\x7d" then
    .ok (next, role.CLOSE, [], "")
  else if length = 0 then
    .ok (next + 1, role.IGNORE, [], "")
  else
    .error (.parseError words)

/-- The struct `VyosConfig`, as the reference to its map. -/
structure VyosConfig where
  data : Option Nat
deriving DecidableEq, Repr

/-- The struct `VyosParser`, with the heap its maps live in. -/
structure VyosParser where
  heap : MapHeap
  data : Option Nat
  parsed : Bool
deriving DecidableEq, Repr

/-- The loop over `keys` that `GetValue` and `GetConfig` of `VyosConfig` share:
the value reached (`none` when the loop returns not-found: `current` is no map, or
the map has no entry for the key). -/
def descend (h : MapHeap) : Item → List String → Option Item
  | current, [] => some current
  | .str _, _ :: _ => none
  | .map p, key :: keys =>
    match readMap h p key with
    | none => none
    | some next => descend h next keys

/-- Method `GetValue` of `VyosConfig`. -/
def VyosConfig.GetValue (h : MapHeap) (c : VyosConfig) (keys : List String) : String × Bool :=
  match descend h (.map c.data) keys with
  | some (.str v) => (v, true)
  | _ => ("", false)

/-- Method `GetConfig` of `VyosConfig`. -/
def VyosConfig.GetConfig (h : MapHeap) (c : VyosConfig) (keys : List String) :
    Option VyosConfig × Bool :=
  match descend h (.map c.data) keys with
  | some (.map m) => (some { data := m }, true)
  | _ => (none, false)

/-- Method `GetConfig` of `VyosParser`. -/
def VyosParser.GetConfig (parser : VyosParser) (keys : List String) :
    Except ParserFailure (Option VyosConfig × Bool) :=
  match Assert parser.parsed "you must call Parse() before GetConfig()" with
  | .error msg => .error (.assertion msg)
  | .ok _ => .ok (VyosConfig.GetConfig parser.heap { data := parser.data } keys)

/-- Method `GetValue` of `VyosParser`. -/
def VyosParser.GetValue (parser : VyosParser) (keys : List String) :
    Except ParserFailure (String × Bool) :=
  match (if keys.length = 1 then
      Assert parser.parsed "you must call Parse() before GetValue()" else .ok ()) with
  | .error msg => .error (.assertion msg)
  | .ok _ =>
    if keys.length = 0 then .error .sliceBounds
    else
      match parser.GetConfig keys.dropLast with
      | .error e => .error e
      | .ok (some c, true) => .ok (VyosConfig.GetValue parser.heap c [keys.getLastD ""])
      | .ok _ => .ok ("", false)

/-- The variables of the loop of `Parse`: the heap of maps and `current`. -/
structure ParseState where
  heap : MapHeap
  current : Option Nat
deriving DecidableEq, Repr

/-- The loop over `keys` in the `ROOT_ATTRIBUTE` branch: for every key a new map
is entered into `current` and becomes `current`. -/
def attributeLoop : MapHeap → Option Nat → List String →
    Except ParserFailure (MapHeap × Option Nat)
  | h, current, [] => .ok (h, current)
  | h, current, key :: keys =>
    match writeMap (h ++ [[]]) current key (.map (some h.length)) with
    | .error e => .error e
    | .ok h2 => attributeLoop h2 (some h.length) keys

/-- One round of the loop of `Parse` on `words[i:]`, `data` being the address of
`parser.data`: the offset and the new state.  A block opened by a two-token line
is entered into `parser.data`, wherever the line stands; a closing brace makes
`current` a new map that nothing refers to. -/
def parseStep (data : Nat) (st : ParseState) (words : List String) :
    Except ParserFailure (Nat × ParseState) :=
  match matchToken words with
  | .error e => .error e
  | .ok (o, r, keys, value) =>
    match r with
    | role.ROOT =>
      match writeMap (st.heap ++ [[]]) (some data) (keys.headD "")
          (.map (some st.heap.length)) with
      | .error e => .error e
      | .ok h2 => .ok (o, { heap := h2, current := some st.heap.length })
    | role.KEY_VALUE =>
      match writeMap st.heap st.current (keys.headD "") (.str value) with
      | .error e => .error e
      | .ok h2 => .ok (o, { heap := h2, current := st.current })
    | role.ROOT_ATTRIBUTE =>
      match attributeLoop st.heap st.current keys with
      | .error e => .error e
      | .ok a => .ok (o, { heap := a.1, current := a.2 })
    | role.CLOSE => .ok (o, { heap := st.heap ++ [[]], current := some st.heap.length })
    | role.IGNORE => .ok (o, st)

/-- The loop `for i := 0; i < len(words); i += offset`, at most `fuel` rounds. -/
def parseLoop (data : Nat) (words : List String) :
    Nat → Nat → ParseState → Except ParserFailure ParseState
  | 0, i, st => if i < words.length then .error .outOfFuel else .ok st
  | fuel + 1, i, st =>
    if i < words.length then
      match parseStep data st (words.drop i) with
      | .error e => .error e
      | .ok (offset, st) => parseLoop data words fuel (i + offset) st
    else .ok st

/-- Method `Parse`, called on a new parser (the zero value of `VyosParser`): the
parser after the call, or the panic that ended it.  The words are built as in the package
`server`; `parser.data` is the new map at address 0 and `current` starts nil. -/
def VyosParser.Parse (text : String) : Except ParserFailure VyosParser :=
  let words := server.parseWords text
  match parseLoop 0 words words.length 0 { heap := [[]], current := none } with
  | .error e => .error e
  | .ok st => .ok { heap := st.heap, data := some 0, parsed := true }

/-! ## The lines of a text, for the parser of `zvr/vyos_parser.go` -/

/-- One line read by the loop of `Parse`: the state after the round on the words
of the line. -/
def lineStep (st : ParseState) (l : List String) : Except ParserFailure ParseState :=
  match parseStep 0 st (l ++ ["\n"]) with
  | .error e => .error e
  | .ok (_, st2) => .ok st2

/-- The lines of a text read one after the other. -/
def runLines : ParseState → List (List String) → Except ParserFailure ParseState
  | st, [] => .ok st
  | st, l :: ls =>
    match lineStep st l with
    | .error e => .error e
    | .ok st2 => runLines st2 ls

/-- The heap after the statements of a block are written into the map at the
address `c`. -/
def writeEntries (h : MapHeap) (c : Nat) : List (String × String) → MapHeap
  | [] => h
  | (k, v) :: es => writeEntries (h.set c (mapSet (h.getD c []) k (.str v))) c es

/-- What holds of the heap of maps between the top-level blocks of a text, `B`
being the blocks read so far: the map `parser.data` at address 0 has an entry
exactly for the names of `B`, each a map of its own that holds the statements of
the block as strings. -/
def TopInv (h : MapHeap) (B : List server.Block) : Prop :=
  0 < h.length ∧
  (∀ b, b ∉ B.map Prod.fst → mapGet (h.getD 0 []) b = none) ∧
  (∀ be ∈ B, ∃ c, 0 < c ∧ c < h.length ∧
    mapGet (h.getD 0 []) be.1 = some (.map (some c)) ∧
    ∀ k, mapGet (h.getD c []) k = (server.lastEntry be.2 k).map Item.str)

/-! ## Sample inputs for the parser of `zvr/vyos_parser.go` -/

/-- The parser after `Parse` of `server.nestedText`: the block `b`, though it
stands inside the block `a`, is entered into `parser.data`, and the map of `a` is
empty. -/
def nestedParser : VyosParser :=
  { heap :=
      [ [("a", Item.map (some 1)), ("b", Item.map (some 2))],
        [],
        [("k", Item.str "v")],
        [],
        [] ]
    data := some 0
    parsed := true }

/-- A text of two top-level blocks, with indented statements, a blank line
between the blocks and a line end after the last. -/
def flatText : String := "a \x7b\n  k v\n  w x\n\x7d\n\nb \x7b\n  k y\n\x7d\n"

end zvr

namespace server

/-! ## Heap and map lemmas -/

theorem node_set (h : Heap) (n m : Ptr) (x : VyosConfigNode) :
    node (h.set n x) m = if m = n ∧ n < h.length then x else node h m := by
  unfold node
  rw [List.getD_eq_getElem?_getD, List.getD_eq_getElem?_getD, List.getElem?_set]
  by_cases hmn : n = m
  · subst hmn
    by_cases hl : n < h.length
    · simp [hl]
    · simp [hl, List.getElem?_eq_none (Nat.le_of_not_lt hl)]
  · have : ¬ (m = n ∧ n < h.length) := fun hh => hmn hh.1.symm
    simp [hmn, this]

theorem node_append_lt (h l : Heap) (m : Ptr) (hm : m < h.length) :
    node (h ++ l) m = node h m := by
  unfold node
  rw [List.getD_eq_getElem?_getD, List.getD_eq_getElem?_getD, List.getElem?_append_left hm]

theorem node_append_length (h : Heap) (x : VyosConfigNode) :
    node (h ++ [x]) h.length = x := by
  unfold node
  rw [List.getD_eq_getElem?_getD]
  simp

theorem node_ge (h : Heap) (m : Ptr) (hm : h.length ≤ m) : node h m = zeroNode := by
  unfold node
  rw [List.getD_eq_getElem?_getD, List.getElem?_eq_none hm]
  rfl

theorem mapGet_append (m : NodeMap) (k j : String) (v : Ptr) :
    mapGet (m ++ [(k, v)]) j =
      match mapGet m j with
      | some x => some x
      | none => if k = j then some v else none := by
  induction m with
  | nil => simp [mapGet]
  | cons e m ih =>
    obtain ⟨k1, v1⟩ := e
    by_cases h1 : k1 = j
    · simp [mapGet, h1]
    · simp [mapGet, h1, ih]

theorem mapGet_mapDelete (m : NodeMap) (k j : String) :
    mapGet (mapDelete m k) j = if j = k then none else mapGet m j := by
  induction m with
  | nil => simp [mapGet, mapDelete]
  | cons e m ih =>
    obtain ⟨k1, v1⟩ := e
    unfold mapDelete at ih ⊢
    by_cases h1 : k1 = k
    · subst h1
      by_cases h2 : j = k1
      · subst h2
        simpa [List.filter, mapGet] using ih
      · have h3 : ¬ k1 = j := fun hh => h2 hh.symm
        simpa [List.filter, mapGet, h2, h3] using ih
    · by_cases h2 : j = k
      · subst h2
        by_cases h3 : k1 = j
        · exact absurd h3 h1
        · simpa [List.filter, mapGet, h1, h3] using ih
      · by_cases h3 : k1 = j
        · simp [List.filter, mapGet, h1, h2, h3]
        · simpa [List.filter, mapGet, h1, h2, h3] using ih

theorem mapDelete_of_mapGet_none (m : NodeMap) (k : String) (hk : mapGet m k = none) :
    mapDelete m k = m := by
  induction m with
  | nil => rfl
  | cons e m ih =>
    obtain ⟨k1, v1⟩ := e
    unfold mapDelete at ih ⊢
    by_cases h1 : k1 = k
    · simp [mapGet, h1] at hk
    · simp only [mapGet, h1, if_false] at hk
      have := ih hk
      simp only [List.filter, h1, ne_eq, not_false_eq_true, decide_True, this]

theorem mapGet_map (f : Ptr → String) (l : List Ptr) (k : String) :
    mapGet (l.map (fun c => (f c, c))) k = l.find? (fun c => decide (f c = k)) := by
  induction l with
  | nil => rfl
  | cons c l ih =>
    by_cases h1 : f c = k
    · simp [mapGet, List.find?, h1]
    · simp [mapGet, List.find?, h1, ih]

theorem getNode_eq_mapGet (h : Heap) (n : Ptr) (j : String) :
    getNode h n j = mapGet ((node h n).childrenIndex.getD []) j := by
  unfold getNode
  cases (node h n).childrenIndex <;> rfl

theorem getNode_ge (h : Heap) (m : Ptr) (j : String) (hm : h.length ≤ m) :
    getNode h m j = none := by
  unfold getNode
  rw [node_ge h m hm]
  rfl

theorem addNode_found (h : Heap) (n : Ptr) (k : String) (c : Ptr)
    (hg : getNode h n k = some c) : addNode h n k = (h, c) := by
  unfold addNode
  rw [hg]

theorem addNode_new (h : Heap) (n : Ptr) (k : String) (hg : getNode h n k = none) :
    addNode h n k =
      ((h ++ [newChild k n]).set n (attach (node h n) k h.length), h.length) := by
  unfold addNode
  rw [hg]

theorem addNode_length_le (h : Heap) (n : Ptr) (k : String) :
    h.length ≤ (addNode h n k).1.length := by
  cases hg : getNode h n k with
  | some c => rw [addNode_found h n k c hg]
  | none => rw [addNode_new h n k hg]; simp

/-- The index after `addNode`: the one new edge, everything else as before. -/
theorem getNode_addNode (h : Heap) (n : Ptr) (k : String) (hn : n < h.length) (m : Ptr)
    (j : String) :
    getNode (addNode h n k).1 m j =
      if m = n ∧ j = k then some (addNode h n k).2 else getNode h m j := by
  cases hg : getNode h n k with
  | some c =>
    rw [addNode_found h n k c hg]
    by_cases hc : m = n ∧ j = k
    · rw [if_pos hc, hc.1, hc.2]; exact hg
    · rw [if_neg hc]
  | none =>
    rw [addNode_new h n k hg]
    simp only
    by_cases hmn : m = n
    · subst hmn
      have hk0 : mapGet ((node h m).childrenIndex.getD []) k = none := by
        rw [← getNode_eq_mapGet]; exact hg
      have hlen : m < (h ++ [newChild k m]).length := by
        rw [List.length_append]; exact Nat.lt_add_right _ hn
      rw [getNode_eq_mapGet, node_set, if_pos ⟨rfl, hlen⟩]
      simp only [attach, Option.getD_some, mapSet]
      rw [mapDelete_of_mapGet_none _ _ hk0, mapGet_append]
      by_cases hjk : j = k
      · subst hjk
        simp [hk0]
      · have hkj : ¬ k = j := fun hh => hjk hh.symm
        simp only [hjk, and_false, if_false, hkj]
        rw [getNode_eq_mapGet]
        cases mapGet ((node h m).childrenIndex.getD []) j <;> rfl
    · have hc : ¬ (m = n ∧ j = k) := fun hh => hmn hh.1
      rw [if_neg hc]
      unfold getNode
      rw [node_set, if_neg (fun hh => hmn hh.1)]
      rcases Nat.lt_trichotomy m h.length with hlt | heq | hgt
      · rw [node_append_lt h _ m hlt]
      · subst heq
        rw [node_append_length, node_ge h _ (Nat.le_refl _)]
        rfl
      · rw [node_ge h m (Nat.le_of_lt hgt), node_ge _ m (by simp; omega)]

/-- The index after `deleteNode`: the one edge is gone, everything else as before. -/
theorem getNode_deleteNode (h : Heap) (n : Ptr) (k : String) (m : Ptr) (j : String) :
    getNode (deleteNode h n k) m j = if m = n ∧ j = k then none else getNode h m j := by
  unfold deleteNode
  by_cases hmn : m = n
  · subst hmn
    by_cases hl : m < h.length
    · unfold getNode
      rw [node_set, if_pos ⟨rfl, hl⟩]
      simp only [detach]
      cases hidx : (node h m).childrenIndex with
      | none => simp
      | some idx =>
        simp only [Option.map_some']
        rw [mapGet_mapDelete]
        by_cases hjk : j = k
        · simp [hjk]
        · simp [hjk]
    · have hge : h.length ≤ m := Nat.le_of_not_lt hl
      rw [getNode_ge _ m j (by simpa using hge), getNode_ge h m j hge]
      simp
  · have hc : ¬ (m = n ∧ j = k) := fun hh => hmn hh.1
    rw [if_neg hc]
    unfold getNode
    rw [node_set, if_neg (fun hh => hmn hh.1)]

theorem deleteNode_length (h : Heap) (n : Ptr) (k : String) :
    (deleteNode h n k).length = h.length := by
  unfold deleteNode
  simp

theorem node_addNode_of_ne (h : Heap) (n : Ptr) (k : String) (m : Ptr) (hmn : m ≠ n)
    (hm : m < h.length) : node (addNode h n k).1 m = node h m := by
  cases hg : getNode h n k with
  | some c => rw [addNode_found h n k c hg]
  | none =>
    rw [addNode_new h n k hg]
    simp only
    rw [node_set, if_neg (fun hh => hmn hh.1), node_append_lt h _ m hm]

theorem node_addNode_self (h : Heap) (n : Ptr) (k : String) (hn : n < h.length)
    (hg : getNode h n k = none) :
    node (addNode h n k).1 n = attach (node h n) k h.length := by
  rw [addNode_new h n k hg]
  simp only
  rw [node_set, if_pos ⟨rfl, by rw [List.length_append]; exact Nat.lt_add_right _ hn⟩]

theorem node_addNode_new (h : Heap) (n : Ptr) (k : String) (hn : n < h.length)
    (hg : getNode h n k = none) :
    node (addNode h n k).1 h.length = newChild k n := by
  rw [addNode_new h n k hg]
  simp only
  rw [node_set, if_neg (fun hh => absurd hh.1 (Nat.ne_of_gt hn)), node_append_length]

theorem addNode_snd_new (h : Heap) (n : Ptr) (k : String) (hg : getNode h n k = none) :
    (addNode h n k).2 = h.length := by
  rw [addNode_new h n k hg]

theorem addNode_length_new (h : Heap) (n : Ptr) (k : String) (hg : getNode h n k = none) :
    (addNode h n k).1.length = h.length + 1 := by
  rw [addNode_new h n k hg]
  simp

theorem name_addNode (h : Heap) (n : Ptr) (k : String) (m : Ptr) (hm : m < h.length) :
    (node (addNode h n k).1 m).name = (node h m).name := by
  by_cases hmn : m = n
  · subst hmn
    cases hg : getNode h m k with
    | some c => rw [addNode_found h m k c hg]
    | none => rw [node_addNode_self h m k hm hg]; rfl
  · rw [node_addNode_of_ne h n k m hmn hm]

theorem parent_addNode (h : Heap) (n : Ptr) (k : String) (m : Ptr) (hm : m < h.length) :
    (node (addNode h n k).1 m).parent = (node h m).parent := by
  by_cases hmn : m = n
  · subst hmn
    cases hg : getNode h m k with
    | some c => rw [addNode_found h m k c hg]
    | none => rw [node_addNode_self h m k hm hg]; rfl
  · rw [node_addNode_of_ne h n k m hmn hm]

theorem node_deleteNode_of_ne (h : Heap) (n : Ptr) (k : String) (m : Ptr) (hmn : m ≠ n) :
    node (deleteNode h n k) m = node h m := by
  unfold deleteNode
  rw [node_set, if_neg (fun hh => hmn hh.1)]

theorem node_deleteNode_self (h : Heap) (n : Ptr) (k : String) (hn : n < h.length) :
    node (deleteNode h n k) n = detach h (node h n) k := by
  unfold deleteNode
  rw [node_set, if_pos ⟨rfl, hn⟩]

theorem name_deleteNode (h : Heap) (n : Ptr) (k : String) (m : Ptr) :
    (node (deleteNode h n k) m).name = (node h m).name := by
  unfold deleteNode
  rw [node_set]
  by_cases hc : m = n ∧ n < h.length
  · rw [if_pos hc, hc.1]; rfl
  · rw [if_neg hc]

theorem parent_deleteNode (h : Heap) (n : Ptr) (k : String) (m : Ptr) :
    (node (deleteNode h n k) m).parent = (node h m).parent := by
  unfold deleteNode
  rw [node_set]
  by_cases hc : m = n ∧ n < h.length
  · rw [if_pos hc, hc.1]; rfl
  · rw [if_neg hc]

/-! ## Well-formedness is kept by `addNode` and `deleteNode` -/

theorem mapGet_map_eq_none (f : Ptr → String) (l : List Ptr) (k : String)
    (hk : mapGet (l.map (fun c => (f c, c))) k = none) : k ∉ l.map f := by
  rw [mapGet_map] at hk
  intro hmem
  obtain ⟨c, hc, hfc⟩ := List.mem_map.mp hmem
  have := List.find?_eq_none.mp hk c hc
  simp [hfc] at this

/-- A node whose record is unchanged stays well formed when its children keep
their names and parents and the heap does not shrink. -/
theorem NodeWF_transfer (h h2 : Heap) (m : Ptr) (hnode : node h2 m = node h m)
    (hlen : h.length ≤ h2.length)
    (hname : ∀ c, c < h.length → (node h2 c).name = (node h c).name)
    (hparent : ∀ c, c < h.length → (node h2 c).parent = (node h c).parent)
    (hwf : NodeWF h m) : NodeWF h2 m := by
  obtain ⟨h1, h2a, h3, h4⟩ := hwf
  have hnames : ((node h m).children.getD []).map (fun c => (node h2 c).name) =
      ((node h m).children.getD []).map (fun c => (node h c).name) :=
    List.map_congr_left (fun c hc => hname c (h3 c hc).1)
  have hpairs : ((node h m).children.getD []).map (fun c => ((node h2 c).name, c)) =
      ((node h m).children.getD []).map (fun c => ((node h c).name, c)) :=
    List.map_congr_left (fun c hc => by rw [hname c (h3 c hc).1])
  refine ⟨?_, ?_, ?_, ?_⟩
  · rw [hnode]; exact h1
  · rw [hnode, hpairs]; exact h2a
  · rw [hnode]
    intro c hc
    exact ⟨Nat.lt_of_lt_of_le (h3 c hc).1 hlen, by rw [hparent c (h3 c hc).1]; exact (h3 c hc).2⟩
  · rw [hnode, hnames]; exact h4

theorem HeapWF_addNode (h : Heap) (n : Ptr) (k : String) (hwf : HeapWF h) (hn : n < h.length) :
    HeapWF (addNode h n k).1 := by
  cases hg : getNode h n k with
  | some c => rw [addNode_found h n k c hg]; exact hwf
  | none =>
    intro m hm
    rw [addNode_length_new h n k hg] at hm
    have hlen : h.length ≤ (addNode h n k).1.length := addNode_length_le h n k
    by_cases hmn : m = n
    · subst hmn
      obtain ⟨h1, h2, h3, h4⟩ := hwf m hn
      have hk0 : mapGet ((node h m).childrenIndex.getD []) k = none := by
        rw [← getNode_eq_mapGet]; exact hg
      have hnames : ((node h m).children.getD []).map
            (fun c => (node (addNode h m k).1 c).name) =
          ((node h m).children.getD []).map (fun c => (node h c).name) :=
        List.map_congr_left (fun c hc => name_addNode h m k c (h3 c hc).1)
      have hpairs : ((node h m).children.getD []).map
            (fun c => ((node (addNode h m k).1 c).name, c)) =
          ((node h m).children.getD []).map (fun c => ((node h c).name, c)) :=
        List.map_congr_left (fun c hc => by rw [name_addNode h m k c (h3 c hc).1])
      have hnew : node (addNode h m k).1 h.length = newChild k m :=
        node_addNode_new h m k hn hg
      refine ⟨?_, ?_, ?_, ?_⟩
      · rw [node_addNode_self h m k hn hg]
        intro hc
        simp [attach] at hc
      · rw [node_addNode_self h m k hn hg]
        simp only [attach, Option.getD_some, mapSet, List.map_append, List.map_cons, List.map_nil]
        rw [mapDelete_of_mapGet_none _ _ hk0, hpairs, ← h2, hnew]
        rfl
      · rw [node_addNode_self h m k hn hg]
        simp only [attach, Option.getD_some]
        intro c hc
        rcases List.mem_append.mp hc with hc1 | hc1
        · exact ⟨Nat.lt_of_lt_of_le (h3 c hc1).1 hlen,
            by rw [parent_addNode h m k c (h3 c hc1).1]; exact (h3 c hc1).2⟩
        · have hce : c = h.length := by simpa using hc1
          subst hce
          exact ⟨by rw [addNode_length_new h m k hg]; exact Nat.lt_succ_self _,
            by rw [hnew]; rfl⟩
      · rw [node_addNode_self h m k hn hg]
        simp only [attach, Option.getD_some, List.map_append, List.map_cons, List.map_nil]
        rw [hnames, hnew]
        have hnotin : k ∉ ((node h m).children.getD []).map (fun c => (node h c).name) := by
          apply mapGet_map_eq_none (fun c => (node h c).name)
          rw [← h2]; exact hk0
        rw [List.nodup_append]
        refine ⟨h4, List.nodup_singleton _, ?_⟩
        intro a ha hb
        have : a = k := by simpa [newChild] using hb
        exact hnotin (this ▸ ha)
    · by_cases hml : m < h.length
      · exact NodeWF_transfer h _ m (node_addNode_of_ne h n k m hmn hml) hlen
          (fun c hc => name_addNode h n k c hc) (fun c hc => parent_addNode h n k c hc) (hwf m hml)
      · have hme : m = h.length := by omega
        subst hme
        have hnew := node_addNode_new h n k hn hg
        refine ⟨?_, ?_, ?_, ?_⟩
        · intro _; rw [hnew]; rfl
        · rw [hnew]; rfl
        · rw [hnew]; intro c hc; simp [newChild] at hc
        · rw [hnew]; simp [newChild]

theorem HeapWF_deleteNode (h : Heap) (n : Ptr) (k : String) (hwf : HeapWF h) :
    HeapWF (deleteNode h n k) := by
  intro m hm
  rw [deleteNode_length] at hm
  by_cases hmn : m = n
  · subst hmn
    obtain ⟨h1, h2, h3, h4⟩ := hwf m hm
    have hsub : ∀ c ∈ ((node h m).children.getD []).filter
        (fun c => decide ((node h c).name ≠ k)), c ∈ (node h m).children.getD [] :=
      fun c hc => (List.mem_filter.mp hc).1
    refine ⟨?_, ?_, ?_, ?_⟩
    · rw [node_deleteNode_self h m k hm]
      intro hc
      simp [detach] at hc
    · rw [node_deleteNode_self h m k hm]
      simp only [detach, Option.getD_some]
      have hidx : ((node h m).childrenIndex.map (fun x => mapDelete x k)).getD [] =
          mapDelete ((node h m).childrenIndex.getD []) k := by
        cases (node h m).childrenIndex <;> rfl
      rw [hidx, h2]
      have : (fun c => ((node (deleteNode h m k) c).name, c)) = (fun c => ((node h c).name, c)) := by
        funext c; rw [name_deleteNode]
      rw [this]
      unfold mapDelete
      rw [List.filter_map]
      rfl
    · rw [node_deleteNode_self h m k hm]
      simp only [detach, Option.getD_some]
      intro c hc
      rw [deleteNode_length, parent_deleteNode]
      exact h3 c (hsub c hc)
    · rw [node_deleteNode_self h m k hm]
      simp only [detach, Option.getD_some]
      have : (fun c => (node (deleteNode h m k) c).name) = (fun c => (node h c).name) := by
        funext c; rw [name_deleteNode]
      rw [this]
      exact List.Nodup.sublist (List.Sublist.map _ (List.filter_sublist _)) h4
  · exact NodeWF_transfer h _ m (node_deleteNode_of_ne h n k m hmn)
      (by rw [deleteNode_length])
      (fun c _ => name_deleteNode h n k c) (fun c _ => parent_deleteNode h n k c) (hwf m hm)

/-! ## Walks -/

theorem walk_append (h : Heap) (cur : Ptr) (p q : List String) :
    walk h cur (p ++ q) = (walk h cur p).bind (fun x => walk h x q) := by
  induction p generalizing cur with
  | nil => rfl
  | cons c p ih =>
    simp only [List.cons_append, walk]
    cases getNode h cur c with
    | none => rfl
    | some n => exact ih n

theorem walk_snoc (h : Heap) (cur : Ptr) (p : List String) (k : String) :
    walk h cur (p ++ [k]) = (walk h cur p).bind (fun x => getNode h x k) := by
  rw [walk_append]
  congr 1
  funext x
  simp only [walk]
  cases getNode h x k <;> rfl

theorem hasLoop_eq (h : Heap) (cur : Ptr) (cs : List String) :
    VyosConfigTree.hasLoop h cur cs = (walk h cur cs).isSome := by
  induction cs generalizing cur with
  | nil => rfl
  | cons c cs ih =>
    simp only [VyosConfigTree.hasLoop, walk]
    cases getNode h cur c with
    | none => rfl
    | some n => exact ih n

theorem getLoop_eq (h : Heap) (cur : Ptr) (cs : List String) (x : Ptr)
    (hw : walk h cur cs = some x) :
    VyosConfigTree.getLoop h (some cur) cs = Except.ok (some x) := by
  induction cs generalizing cur with
  | nil =>
    simp only [walk, Option.some.injEq] at hw
    simp [VyosConfigTree.getLoop, hw]
  | cons c cs ih =>
    simp only [walk] at hw
    simp only [VyosConfigTree.getLoop]
    cases hg : getNode h cur c with
    | none => rw [hg] at hw; cases hw
    | some n => rw [hg] at hw; exact ih n hw

/-- An entry of the index of a well-formed node is one of its children, carries
the name it is filed under and points back to the node. -/
theorem getNode_sound (h : Heap) (n c : Ptr) (k : String) (hwf : HeapWF h) (hn : n < h.length)
    (hg : getNode h n k = some c) :
    c < h.length ∧ (node h c).parent = some n ∧ (node h c).name = k ∧
      c ∈ (node h n).children.getD [] := by
  obtain ⟨_, h2, h3, _⟩ := hwf n hn
  rw [getNode_eq_mapGet, h2, mapGet_map] at hg
  have hmem := List.mem_of_find?_eq_some hg
  have hp := List.find?_some hg
  exact ⟨(h3 c hmem).1, (h3 c hmem).2, by simpa using hp, hmem⟩

theorem walk_lt (h : Heap) (cur x : Ptr) (p : List String) (hwf : HeapWF h)
    (hcur : cur < h.length) (hw : walk h cur p = some x) : x < h.length := by
  induction p generalizing cur with
  | nil =>
    simp only [walk, Option.some.injEq] at hw
    exact hw ▸ hcur
  | cons c p ih =>
    simp only [walk] at hw
    cases hg : getNode h cur c with
    | none => rw [hg] at hw; cases hw
    | some n =>
      rw [hg] at hw
      exact ih n (getNode_sound h cur n c hwf hcur hg).1 hw

/-- No path of one segment or more leads back to a node without a parent. -/
theorem walk_ne_root (h : Heap) (r : Ptr) (q : List String) (hwf : HeapWF h)
    (hr : r < h.length) (hroot : (node h r).parent = none) (hq : q ≠ []) :
    walk h r q ≠ some r := by
  rcases List.eq_nil_or_concat q with rfl | ⟨q1, k, rfl⟩
  · exact absurd rfl hq
  · rw [List.concat_eq_append, walk_snoc]
    intro hw
    cases hq1 : walk h r q1 with
    | none => rw [hq1] at hw; cases hw
    | some a =>
      rw [hq1] at hw
      have ha := walk_lt h r a q1 hwf hr hq1
      have := (getNode_sound h a r k hwf ha hw).2.1
      rw [hroot] at this
      cases this

/-- In a well-formed heap a node is reached from the root by one path only. -/
theorem walk_unique (h : Heap) (r x : Ptr) (p q : List String) (hwf : HeapWF h)
    (hr : r < h.length) (hroot : (node h r).parent = none)
    (hp : walk h r p = some x) (hq : walk h r q = some x) : p = q := by
  induction p using List.reverseRecOn generalizing q x with
  | nil =>
    simp only [walk, Option.some.injEq] at hp
    subst hp
    by_contra hne
    exact walk_ne_root h r q hwf hr hroot (fun hh => hne hh.symm) hq
  | append_singleton p1 k ih =>
    rcases List.eq_nil_or_concat q with rfl | ⟨q1, j, rfl⟩
    · simp only [walk, Option.some.injEq] at hq
      subst hq
      exact absurd hp (walk_ne_root h r (p1 ++ [k]) hwf hr hroot (by simp))
    · rw [List.concat_eq_append] at hq ⊢
      rw [walk_snoc] at hp hq
      cases hp1 : walk h r p1 with
      | none => rw [hp1] at hp; cases hp
      | some a =>
        cases hq1 : walk h r q1 with
        | none => rw [hq1] at hq; cases hq
        | some b =>
          rw [hp1] at hp
          rw [hq1] at hq
          have ha := walk_lt h r a p1 hwf hr hp1
          have hb := walk_lt h r b q1 hwf hr hq1
          have sa := getNode_sound h a x k hwf ha hp
          have sb := getNode_sound h b x j hwf hb hq
          have hab : a = b := by
            have := sa.2.1.symm.trans sb.2.1
            exact Option.some.inj this
          have hkj : k = j := sa.2.2.1.symm.trans sb.2.2.1
          subst hab
          subst hkj
          rw [ih a q1 hp1 hq1]

/-- Two heaps whose indexes agree except on the edge `k` out of `a` agree on
every walk that does not take that edge. -/
theorem walk_congr_off_edge (h h2 : Heap) (a : Ptr) (k : String)
    (hidx : ∀ m j, ¬ (m = a ∧ j = k) → getNode h2 m j = getNode h m j)
    (cur : Ptr) (q : List String)
    (hq : ∀ q1 q2, q = q1 ++ k :: q2 → walk h cur q1 ≠ some a) :
    walk h2 cur q = walk h cur q := by
  induction q generalizing cur with
  | nil => rfl
  | cons c q ih =>
    simp only [walk]
    have hedge : ¬ (cur = a ∧ c = k) := by
      intro hh
      apply hq [] q
      · rw [hh.2]; rfl
      · rw [hh.1]; rfl
    rw [hidx cur c hedge]
    cases hg : getNode h cur c with
    | none => rfl
    | some n =>
      apply ih n
      intro q1 q2 hq12
      have := hq (c :: q1) q2 (by rw [hq12]; rfl)
      simpa only [walk, hg] using this

/-- A walk survives when the index only grows. -/
theorem walk_mono (h h2 : Heap)
    (hidx : ∀ m j x, getNode h m j = some x → getNode h2 m j = some x)
    (cur x : Ptr) (q : List String) (hw : walk h cur q = some x) : walk h2 cur q = some x := by
  induction q generalizing cur with
  | nil => exact hw
  | cons c q ih =>
    simp only [walk] at hw ⊢
    cases hg : getNode h cur c with
    | none => rw [hg] at hw; cases hw
    | some n =>
      rw [hg] at hw
      rw [hidx cur c n hg]
      exact ih n hw

/-! ## `strings.Split` -/

theorem splitAux_ne_nil (sep : Char) (cs cur : List Char) : splitAux sep cs cur ≠ [] := by
  induction cs generalizing cur with
  | nil => simp [splitAux]
  | cons c cs ih =>
    simp only [splitAux]
    split
    · simp
    · exact ih _

theorem stringsSplit_ne_nil (s : String) (sep : Char) : stringsSplit s sep ≠ [] :=
  splitAux_ne_nil sep s.data []

/-! ## `init`, `has` and `Get` -/

theorem init_of_root (t : VyosConfigTree) (r : Ptr) (hr : t.Root = some r) :
    t.init = { heap := t.heap, Root := some r, changeCommands := some t.Commands } := by
  unfold VyosConfigTree.init VyosConfigTree.Commands
  rw [hr]
  cases t.changeCommands <;> rfl

theorem init_Commands (t : VyosConfigTree) : t.init.Commands = t.Commands := by
  unfold VyosConfigTree.init VyosConfigTree.Commands
  cases t.Root <;> cases t.changeCommands <;> rfl

theorem init_init (t : VyosConfigTree) : t.init.init = t.init := by
  unfold VyosConfigTree.init
  cases t.Root <;> cases t.changeCommands <;> rfl

/-- On a tree without a root `init` makes an empty root, under which nothing
resolves. -/
theorem has_init_of_no_root (t : VyosConfigTree) (hr : t.Root = none) (cs : List String)
    (hcs : cs ≠ []) : t.init.has cs = false := by
  cases cs with
  | nil => exact absurd rfl hcs
  | cons c cs =>
    unfold VyosConfigTree.init VyosConfigTree.has
    rw [hr]
    simp only
    rw [node_append_length]
    simp only [Option.isNone_some, Bool.false_eq_true, if_false, VyosConfigTree.hasLoop]
    have : getNode (t.heap ++ [VyosConfigTree.emptyRoot]) t.heap.length c = none := by
      unfold getNode
      rw [node_append_length]
      rfl
    rw [this]
    simp

theorem has_init_of_root (t : VyosConfigTree) (r : Ptr) (hr : t.Root = some r)
    (cs : List String) : t.init.has cs = t.has cs := by
  rw [init_of_root t r hr]
  unfold VyosConfigTree.has
  rw [hr]

/-- Whatever the tree, `has` after `init` is `has` before it, for a path of at
least one segment. -/
theorem has_init (t : VyosConfigTree) (cs : List String) (hcs : cs ≠ []) :
    t.init.has cs = t.has cs := by
  cases hr : t.Root with
  | none =>
    rw [has_init_of_no_root t hr cs hcs]
    unfold VyosConfigTree.has
    rw [hr]
  | some r => exact has_init_of_root t r hr cs

/-- The method `Get` never panics: after a successful `has` the second loop meets
no nil pointer. -/
theorem Get_of_has (t : VyosConfigTree) (config : String)
    (hh : t.init.has (stringsSplit config ' ') = true) :
    ∃ r x, t.init.Root = some r ∧ walk t.init.heap r (stringsSplit config ' ') = some x ∧
      t.Get config = (Except.ok (some x), t.init) := by
  have hh2 := hh
  unfold VyosConfigTree.has at hh2
  cases hr : t.init.Root with
  | none => rw [hr] at hh2; cases hh2
  | some r =>
    rw [hr] at hh2
    simp only at hh2
    split at hh2
    · cases hh2
    · rw [hasLoop_eq] at hh2
      obtain ⟨x, hx⟩ := Option.isSome_iff_exists.mp hh2
      refine ⟨r, x, rfl, hx, ?_⟩
      unfold VyosConfigTree.Get
      simp only [hh, Bool.not_true, Bool.false_eq_true, if_false]
      rw [hr, getLoop_eq _ r _ x hx]

theorem Get_of_not_has (t : VyosConfigTree) (config : String)
    (hh : t.init.has (stringsSplit config ' ') = false) :
    t.Get config = (Except.ok none, t.init) := by
  unfold VyosConfigTree.Get
  simp [hh]

/-- In a well-formed tree `has` is the index walk from the root. -/
theorem has_eq_walk (t : VyosConfigTree) (r : Ptr) (hr : t.Root = some r)
    (hl : r < t.heap.length) (hwf : HeapWF t.heap) (cs : List String) (hcs : cs ≠ []) :
    t.has cs = (walk t.heap r cs).isSome := by
  unfold VyosConfigTree.has
  rw [hr]
  simp only
  cases hch : (node t.heap r).children with
  | none =>
    have hidx := (hwf r hl).1 hch
    cases cs with
    | nil => exact absurd rfl hcs
    | cons c cs =>
      have : getNode t.heap r c = none := by
        unfold getNode; rw [hidx]
      simp [walk, this]
  | some l =>
    simp only [Option.isNone_some, Bool.false_eq_true, if_false]
    exact hasLoop_eq _ _ _

/-- In a well-formed tree `Get` returns what the index walk from the root finds,
and leaves the tree as `init` leaves it. -/
theorem Get_eq (t : VyosConfigTree) (hwf : WF t) (config : String) :
    t.Get config = (Except.ok (resolve t config), t.init) := by
  obtain ⟨⟨r, hr, hl, _⟩, hh⟩ := hwf
  have hne := stringsSplit_ne_nil config ' '
  have hhas : t.init.has (stringsSplit config ' ') =
      (walk t.heap r (stringsSplit config ' ')).isSome := by
    rw [has_init t _ hne]
    exact has_eq_walk t r hr hl hh _ hne
  unfold resolve
  rw [hr]
  simp only
  cases hw : walk t.heap r (stringsSplit config ' ') with
  | none =>
    rw [hw] at hhas
    exact Get_of_not_has t config hhas
  | some x =>
    rw [hw] at hhas
    obtain ⟨r2, x2, hr2, hx2, hget⟩ := Get_of_has t config hhas
    rw [init_of_root t r hr] at hr2 hx2
    simp only [Option.some.injEq] at hr2
    subst hr2
    simp only at hx2
    rw [hw] at hx2
    rw [hget, ← hx2]

theorem Has_eq (t : VyosConfigTree) (hwf : WF t) (config : String) :
    t.Has config = (resolve t config).isSome := by
  obtain ⟨⟨r, hr, hl, _⟩, hh⟩ := hwf
  unfold VyosConfigTree.Has resolve
  rw [hr]
  exact has_eq_walk t r hr hl hh _ (stringsSplit_ne_nil config ' ')

/-! ## The index walk and the descent through the child lists -/

theorem getNode_eq_childNamed (h : Heap) (n : Ptr) (k : String) (hwf : HeapWF h)
    (hn : n < h.length) : getNode h n k = childNamed h n k := by
  obtain ⟨_, h2, _, _⟩ := hwf n hn
  rw [getNode_eq_mapGet, h2, mapGet_map]
  rfl

theorem walk_eq_walkChildren (h : Heap) (cur : Ptr) (p : List String) (hwf : HeapWF h)
    (hcur : cur < h.length) : walk h cur p = walkChildren h cur p := by
  induction p generalizing cur with
  | nil => rfl
  | cons c p ih =>
    simp only [walk, walkChildren]
    rw [← getNode_eq_childNamed h cur c hwf hcur]
    cases hg : getNode h cur c with
    | none => rfl
    | some n => exact ih n (getNode_sound h cur n c hwf hcur hg).1

theorem WF_treeAB : WF treeAB :=
  ⟨⟨0, by decide, by decide, by decide⟩, by decide⟩

/-! ## `addNode` along a path -/

theorem addNode_snd_lt (h : Heap) (n : Ptr) (k : String) (hwf : HeapWF h) (hn : n < h.length) :
    (addNode h n k).2 < (addNode h n k).1.length := by
  cases hg : getNode h n k with
  | some c =>
    rw [addNode_found h n k c hg]
    exact (getNode_sound h n c k hwf hn hg).1
  | none =>
    rw [addNode_length_new h n k hg, addNode_snd_new h n k hg]
    exact Nat.lt_succ_self _

theorem getNode_addNode_self (h : Heap) (n : Ptr) (k : String) (hn : n < h.length) :
    getNode (addNode h n k).1 n k = some (addNode h n k).2 := by
  rw [getNode_addNode h n k hn, if_pos ⟨rfl, rfl⟩]

theorem getNode_addNode_mono (h : Heap) (n : Ptr) (k : String) (hn : n < h.length)
    (m : Ptr) (j : String) (y : Ptr) (hg : getNode h m j = some y) :
    getNode (addNode h n k).1 m j = some y := by
  rw [getNode_addNode h n k hn]
  by_cases hc : m = n ∧ j = k
  · rw [if_pos hc]
    rw [hc.1, hc.2] at hg
    rw [addNode_found h n k y hg]
  · rw [if_neg hc]; exact hg

/-- What `addPath` leaves behind: a well-formed heap, not smaller, in which the
path resolves from `current` to the returned node, every edge there was is still
there, and the old nodes keep name and parent. -/
theorem addPath_spec (h : Heap) (cur : Ptr) (cs : List String) (hwf : HeapWF h)
    (hcur : cur < h.length) :
    HeapWF (VyosConfigTree.addPath h cur cs).1 ∧
    (VyosConfigTree.addPath h cur cs).2 < (VyosConfigTree.addPath h cur cs).1.length ∧
    h.length ≤ (VyosConfigTree.addPath h cur cs).1.length ∧
    walk (VyosConfigTree.addPath h cur cs).1 cur cs = some (VyosConfigTree.addPath h cur cs).2 ∧
    (∀ m j y, getNode h m j = some y →
      getNode (VyosConfigTree.addPath h cur cs).1 m j = some y) ∧
    (∀ m, m < h.length →
      (node (VyosConfigTree.addPath h cur cs).1 m).name = (node h m).name ∧
      (node (VyosConfigTree.addPath h cur cs).1 m).parent = (node h m).parent) := by
  induction cs generalizing h cur with
  | nil =>
    exact ⟨hwf, hcur, Nat.le_refl _, rfl, fun _ _ _ hg => hg, fun _ _ => ⟨rfl, rfl⟩⟩
  | cons c cs ih =>
    simp only [VyosConfigTree.addPath]
    have hwf1 := HeapWF_addNode h cur c hwf hcur
    have hx := addNode_snd_lt h cur c hwf hcur
    have hle := addNode_length_le h cur c
    obtain ⟨i1, i2, i3, i4, i5, i6⟩ := ih (addNode h cur c).1 (addNode h cur c).2 hwf1 hx
    refine ⟨i1, i2, Nat.le_trans hle i3, ?_, ?_, ?_⟩
    · simp only [walk]
      rw [i5 cur c _ (getNode_addNode_self h cur c hcur)]
      exact i4
    · intro m j y hg
      exact i5 m j y (getNode_addNode_mono h cur c hcur m j y hg)
    · intro m hm
      have hm1 := Nat.lt_of_lt_of_le hm hle
      exact ⟨(i6 m hm1).1.trans (name_addNode h cur c m hm),
        (i6 m hm1).2.trans (parent_addNode h cur c m hm)⟩

/-! ## The branches of `Set` -/

theorem WF_init (t : VyosConfigTree) (hwf : WF t) : WF t.init := by
  obtain ⟨⟨r, hr, hl, hp⟩, hh⟩ := hwf
  rw [init_of_root t r hr]
  exact ⟨⟨r, rfl, hl, hp⟩, hh⟩

theorem resolve_init (t : VyosConfigTree) (hwf : WF t) (c : String) :
    resolve t.init c = resolve t c := by
  obtain ⟨⟨r, hr, _, _⟩, _⟩ := hwf
  rw [init_of_root t r hr]
  unfold resolve
  rw [hr]

theorem Get_init (t : VyosConfigTree) (hwf : WF t) (c : String) :
    t.init.Get c = (Except.ok (resolve t c), t.init) := by
  rw [Get_eq t.init (WF_init t hwf) c, resolve_init t hwf c, init_init]

/-- `Set` when the key-path does not resolve: the path is added from the root and
one `$SET` is logged. -/
theorem Set_fresh (t : VyosConfigTree) (hwf : WF t) (r : Ptr) (hr : t.Root = some r)
    (c : String) (hk : resolve t (VyosConfigTree.keyOf c) = none) :
    t.Set c = (Except.ok true,
      { heap := (VyosConfigTree.addPath t.heap r (stringsSplit c ' ')).1, Root := some r,
        changeCommands := some (t.Commands ++ ["$SET " ++ c]) }) := by
  unfold VyosConfigTree.Set
  simp only
  rw [Get_init t hwf, hk]
  simp only
  rw [init_of_root t r hr]
  rfl

/-- `Set` when the key-path resolves to a node that is not a key node: the
assertion fails. -/
theorem Set_fatal (t : VyosConfigTree) (hwf : WF t) (c : String) (n : Ptr)
    (hk : resolve t (VyosConfigTree.keyOf c) = some n) (hkey : isKeyNode t.heap n = false) :
    t.Set c = (Except.error (Failure.assertion n), t.init) := by
  obtain ⟨⟨r, hr, _, _⟩, _⟩ := id hwf
  unfold VyosConfigTree.Set
  simp only
  rw [Get_init t hwf, hk]
  simp only
  have : isKeyNode t.init.heap n = false := by rw [init_of_root t r hr]; exact hkey
  rw [this]
  rfl

/-- `Set` when the key-path resolves to a key node that holds the value already. -/
theorem Set_same (t : VyosConfigTree) (hwf : WF t) (c : String) (n : Ptr)
    (hk : resolve t (VyosConfigTree.keyOf c) = some n)
    (hv : Value t.heap n = Except.ok (VyosConfigTree.valueOf c)) :
    t.Set c = (Except.ok false, t.init) := by
  obtain ⟨⟨r, hr, _, _⟩, _⟩ := id hwf
  have hkey : isKeyNode t.heap n = true := by
    unfold Value Assert at hv
    by_contra hne
    rw [if_neg hne] at hv
    cases hv
  unfold VyosConfigTree.Set
  simp only
  rw [Get_init t hwf, hk]
  simp only
  have h1 : isKeyNode t.init.heap n = true := by rw [init_of_root t r hr]; exact hkey
  have h2 : Value t.init.heap n = Except.ok (VyosConfigTree.valueOf c) := by
    rw [init_of_root t r hr]; exact hv
  rw [h1, h2]
  simp [Assert]

/-- `Set` when the key-path resolves to a key node that holds another value: the
old value child is detached, the new one attached, `$DELETE` and `$SET` are
logged. -/
theorem Set_overwrite (t : VyosConfigTree) (hwf : WF t) (r : Ptr) (hr : t.Root = some r)
    (c : String) (n : Ptr) (v : String)
    (hk : resolve t (VyosConfigTree.keyOf c) = some n)
    (hv : Value t.heap n = Except.ok v) (hne : VyosConfigTree.valueOf c ≠ v) :
    t.Set c = (Except.ok true,
      { heap := (addNode (deleteNode t.heap n v) n (VyosConfigTree.valueOf c)).1, Root := some r,
        changeCommands := some (t.Commands ++ ["$DELETE " ++ VyosConfigTree.keyOf c] ++
          ["$SET " ++ c]) }) := by
  have hkey : isKeyNode t.heap n = true := by
    unfold Value Assert at hv
    by_contra hne
    rw [if_neg hne] at hv
    cases hv
  unfold VyosConfigTree.Set
  simp only
  rw [Get_init t hwf, hk]
  simp only
  have h1 : isKeyNode t.init.heap n = true := by rw [init_of_root t r hr]; exact hkey
  have h2 : Value t.init.heap n = Except.ok v := by
    rw [init_of_root t r hr]; exact hv
  rw [h1, h2]
  simp only [Bool.not_true, Bool.false_eq_true, if_false, ne_eq, hne, not_false_eq_true, if_true]
  rw [init_of_root t r hr]
  rfl

/-! ## `strings.Split` and `strings.Join` undo each other -/

theorem splitAux_no_sep (sep : Char) (cs cur : List Char) (hcs : sep ∉ cs) :
    splitAux sep cs cur = [String.mk (cur ++ cs)] := by
  induction cs generalizing cur with
  | nil => simp [splitAux]
  | cons c cs ih =>
    have hc : ¬ c = sep := fun hh => hcs (hh ▸ List.mem_cons_self _ _)
    have hcs2 : sep ∉ cs := fun hh => hcs (List.mem_cons_of_mem _ hh)
    simp only [splitAux, hc, if_false]
    rw [ih _ hcs2]
    simp

theorem splitAux_append_sep (sep : Char) (a b cur : List Char) (ha : sep ∉ a) :
    splitAux sep (a ++ sep :: b) cur = String.mk (cur ++ a) :: splitAux sep b [] := by
  induction a generalizing cur with
  | nil => simp [splitAux]
  | cons c a ih =>
    have hc : ¬ c = sep := fun hh => ha (hh ▸ List.mem_cons_self _ _)
    have ha2 : sep ∉ a := fun hh => ha (List.mem_cons_of_mem _ hh)
    rw [List.cons_append]
    simp only [splitAux, hc, if_false]
    rw [ih _ ha2]
    simp

theorem splitAux_mem_no_sep (sep : Char) (cs cur : List Char) (hcur : sep ∉ cur) (w : String)
    (hw : w ∈ splitAux sep cs cur) : sep ∉ w.data := by
  induction cs generalizing cur with
  | nil =>
    simp only [splitAux, List.mem_singleton] at hw
    rw [hw]; exact hcur
  | cons c cs ih =>
    simp only [splitAux] at hw
    split at hw
    · rcases List.mem_cons.mp hw with h1 | h1
      · rw [h1]; exact hcur
      · exact ih [] (by simp) h1
    · rename_i hc
      apply ih (cur ++ [c]) _ hw
      intro hmem
      rcases List.mem_append.mp hmem with h1 | h1
      · exact hcur h1
      · exact hc (List.mem_singleton.mp h1).symm

/-- No piece of `strings.Split(s, sep)` contains the separator. -/
theorem stringsSplit_mem_no_sep (s : String) (sep : Char) (w : String)
    (hw : w ∈ stringsSplit s sep) : sep ∉ w.data :=
  splitAux_mem_no_sep sep s.data [] (by simp) w hw

theorem stringsJoin_cons (a : String) (l : List String) (hl : l ≠ []) :
    stringsJoin (a :: l) " " = a ++ " " ++ stringsJoin l " " := by
  cases l with
  | nil => exact absurd rfl hl
  | cons b rest => rfl

theorem data_append_space (a x : String) : (a ++ " " ++ x).data = a.data ++ ' ' :: x.data := by
  rw [String.data_append, String.data_append]
  simp

/-- Splitting the join of pieces without a space gives the pieces back. -/
theorem stringsSplit_stringsJoin (l : List String) (hl : l ≠ [])
    (hsp : ∀ w ∈ l, ' ' ∉ w.data) : stringsSplit (stringsJoin l " ") ' ' = l := by
  induction l with
  | nil => exact absurd rfl hl
  | cons a l ih =>
    cases l with
    | nil =>
      simp only [stringsJoin, stringsSplit]
      rw [splitAux_no_sep _ _ _ (hsp a (List.mem_cons_self _ _))]
      simp
    | cons b rest =>
      rw [stringsJoin_cons a (b :: rest) (by simp)]
      unfold stringsSplit
      rw [data_append_space, splitAux_append_sep _ _ _ _ (hsp a (List.mem_cons_self _ _))]
      have := ih (by simp) (fun w hw => hsp w (List.mem_cons_of_mem _ hw))
      unfold stringsSplit at this
      rw [this]
      simp

theorem stringsJoin_splitAux (cs cur : List Char) :
    stringsJoin (splitAux ' ' cs cur) " " = String.mk (cur ++ cs) := by
  induction cs generalizing cur with
  | nil => simp [splitAux, stringsJoin]
  | cons c cs ih =>
    simp only [splitAux]
    split
    · rename_i hc
      rw [stringsJoin_cons _ _ (splitAux_ne_nil _ _ _), ih []]
      apply String.ext
      rw [data_append_space, hc]
      simp
    · rw [ih]
      simp

/-- Joining the pieces of a split gives the string back. -/
theorem stringsJoin_stringsSplit (s : String) : stringsJoin (stringsSplit s ' ') " " = s := by
  unfold stringsSplit
  rw [stringsJoin_splitAux]
  simp

theorem stringsJoin_append_singleton (l : List String) (w : String) (hl : l ≠ []) :
    stringsJoin (l ++ [w]) " " = stringsJoin l " " ++ " " ++ w := by
  induction l with
  | nil => exact absurd rfl hl
  | cons a l ih =>
    cases l with
    | nil => rfl
    | cons b rest =>
      rw [List.cons_append, stringsJoin_cons a _ (by simp), ih (by simp),
        stringsJoin_cons a _ (by simp)]
      apply String.ext
      simp [String.data_append]

/-- The segments of `k + " " + w`, for a single token `w`: those of `k`, then `w`. -/
theorem stringsSplit_append_token (k w : String) (hw : ' ' ∉ w.data) :
    stringsSplit (k ++ " " ++ w) ' ' = stringsSplit k ' ' ++ [w] := by
  have hk := stringsJoin_stringsSplit k
  have hne := stringsSplit_ne_nil k ' '
  have : k ++ " " ++ w = stringsJoin (stringsSplit k ' ' ++ [w]) " " := by
    rw [stringsJoin_append_singleton _ _ hne, hk]
  rw [this]
  apply stringsSplit_stringsJoin
  · simp
  · intro x hx
    rcases List.mem_append.mp hx with h1 | h1
    · exact stringsSplit_mem_no_sep k ' ' x h1
    · rw [List.mem_singleton.mp h1]; exact hw

/-- For a path-with-value string of two tokens or more, the key-path `Set`
computes splits into all the segments but the last. -/
theorem stringsSplit_keyOf (c : String) (hlen : 2 ≤ (stringsSplit c ' ').length) :
    stringsSplit (VyosConfigTree.keyOf c) ' ' = (stringsSplit c ' ').dropLast := by
  unfold VyosConfigTree.keyOf
  apply stringsSplit_stringsJoin
  · intro hnil
    have := congrArg List.length hnil
    simp at this
    omega
  · intro w hw
    exact stringsSplit_mem_no_sep c ' ' w (List.dropLast_subset _ hw)

theorem keyOf_append_token (k w : String) (hw : ' ' ∉ w.data) :
    VyosConfigTree.keyOf (k ++ " " ++ w) = k := by
  unfold VyosConfigTree.keyOf
  rw [stringsSplit_append_token k w hw, List.dropLast_concat]
  exact stringsJoin_stringsSplit k

theorem valueOf_append_token (k w : String) (hw : ' ' ∉ w.data) :
    VyosConfigTree.valueOf (k ++ " " ++ w) = w := by
  unfold VyosConfigTree.valueOf
  rw [stringsSplit_append_token k w hw]
  simp

/-! ## Key nodes, and walks that avoid a node -/

/-- When `Value` returns, the node has one child, a value node of that name. -/
theorem Value_ok (h : Heap) (n : Ptr) (v : String) (hv : Value h n = Except.ok v) :
    ∃ c, (node h n).children = some [c] ∧ isValueNode h c = true ∧ (node h c).name = v := by
  unfold Value Assert at hv
  by_cases hkey : isKeyNode h n = true
  · rw [if_pos hkey] at hv
    simp only at hv
    unfold isKeyNode at hkey
    cases hch : (node h n).children with
    | none => rw [hch] at hkey; cases hkey
    | some l =>
      rw [hch] at hkey hv
      match l, hkey, hv with
      | [c], hkey, hv =>
        simp only at hkey hv
        exact ⟨c, rfl, hkey, Except.ok.inj hv⟩
  · rw [if_neg hkey] at hv
    cases hv

theorem Value_of_children (h : Heap) (n c : Ptr) (hch : (node h n).children = some [c])
    (hval : isValueNode h c = true) : Value h n = Except.ok (node h c).name := by
  have hkey : isKeyNode h n = true := by
    unfold isKeyNode; rw [hch]; exact hval
  unfold Value Assert
  rw [if_pos hkey, hch]

/-- Two heaps whose indexes agree at every node but `a` agree on every walk that
does not pass through `a` before its end. -/
theorem walk_congr_off_node (h h2 : Heap) (a : Ptr)
    (hidx : ∀ m j, m ≠ a → getNode h2 m j = getNode h m j)
    (cur : Ptr) (q : List String)
    (hq : ∀ q1 c q2, q = q1 ++ c :: q2 → walk h cur q1 ≠ some a) :
    walk h2 cur q = walk h cur q := by
  induction q generalizing cur with
  | nil => rfl
  | cons c q ih =>
    simp only [walk]
    have hne : cur ≠ a := by
      intro hh
      exact hq [] c q rfl (by rw [hh]; rfl)
    rw [hidx cur c hne]
    cases hg : getNode h cur c with
    | none => rfl
    | some n =>
      apply ih n
      intro q1 c2 q2 hq12
      have := hq (c :: q1) c2 q2 (by rw [hq12]; rfl)
      simpa only [walk, hg] using this

/-- In a well-formed heap the walk to a node does not meet that node earlier. -/
theorem walk_prefix_ne (h : Heap) (r a : Ptr) (p q1 q2 : List String) (c : String)
    (hwf : HeapWF h) (hr : r < h.length) (hroot : (node h r).parent = none)
    (hp : walk h r p = some a) (hsplit : p = q1 ++ c :: q2) : walk h r q1 ≠ some a := by
  intro hq1
  have := walk_unique h r a p q1 hwf hr hroot hp hq1
  rw [hsplit] at this
  have hl := congrArg List.length this
  simp at hl

/-- A tree stays well formed when its heap is replaced by a well-formed one, not
smaller, in which the old nodes keep their parents. -/
theorem WF_of_heap (t : VyosConfigTree) (hwf : WF t) (h2 : Heap) (cc : Option (List String))
    (hh2 : HeapWF h2) (hlen : t.heap.length ≤ h2.length)
    (hparent : ∀ m, m < t.heap.length → (node h2 m).parent = (node t.heap m).parent) :
    WF { heap := h2, Root := t.Root, changeCommands := cc } := by
  obtain ⟨⟨r, hr, hl, hp⟩, _⟩ := hwf
  exact ⟨⟨r, hr, Nat.lt_of_lt_of_le hl hlen, by rw [hparent r hl]; exact hp⟩, hh2⟩

/-! ## The heap after an overwrite -/

/-- The heap after `keyNode.deleteNode(cvalue); keyNode.addNode(value)` on a key
node `n` whose value child `c` is named `v`, for a new value `w`. -/
theorem overwrite_heap (h : Heap) (n c : Ptr) (v w : String) (hwf : HeapWF h)
    (hn : n < h.length) (hch : (node h n).children = some [c]) (hname : (node h c).name = v)
    (hne : w ≠ v) :
    HeapWF (addNode (deleteNode h n v) n w).1 ∧
    (addNode (deleteNode h n v) n w).1.length = h.length + 1 ∧
    (node (addNode (deleteNode h n v) n w).1 n).children = some [h.length] ∧
    node (addNode (deleteNode h n v) n w).1 h.length = newChild w n ∧
    getNode (addNode (deleteNode h n v) n w).1 n v = none ∧
    (∀ m j, m ≠ n → getNode (addNode (deleteNode h n v) n w).1 m j = getNode h m j) ∧
    (∀ m, m < h.length →
      (node (addNode (deleteNode h n v) n w).1 m).parent = (node h m).parent) := by
  have hlen1 : (deleteNode h n v).length = h.length := deleteNode_length h n v
  have hn1 : n < (deleteNode h n v).length := by rw [hlen1]; exact hn
  have hwf1 : HeapWF (deleteNode h n v) := HeapWF_deleteNode h n v hwf
  have hvw : ¬ v = w := fun hh => hne hh.symm
  have hidx : (node h n).childrenIndex.getD [] = [(v, c)] := by
    rw [(hwf n hn).2.1, hch]
    simp [hname]
  have hgw : getNode (deleteNode h n v) n w = none := by
    rw [getNode_deleteNode, if_neg (fun hh => hne hh.2), getNode_eq_mapGet, hidx]
    simp [mapGet, hvw]
  have hnode1 : node (deleteNode h n v) n = detach h (node h n) v :=
    node_deleteNode_self h n v hn
  refine ⟨HeapWF_addNode _ n w hwf1 hn1, ?_, ?_, ?_, ?_, ?_, ?_⟩
  · rw [addNode_length_new _ n w hgw, hlen1]
  · rw [node_addNode_self _ n w hn1 hgw, hnode1, hlen1]
    simp [attach, detach, hch, hname]
  · rw [← hlen1]
    exact node_addNode_new _ n w hn1 hgw
  · rw [getNode_addNode _ n w hn1, if_neg (fun hh => hvw hh.2), getNode_deleteNode,
      if_pos ⟨rfl, rfl⟩]
  · intro m j hm
    rw [getNode_addNode _ n w hn1, if_neg (fun hh => hm hh.1), getNode_deleteNode,
      if_neg (fun hh => hm hh.1)]
  · intro m hm
    rw [parent_addNode _ n w m (by rw [hlen1]; exact hm), parent_deleteNode]

/-! ## The branch of `Delete` that finds the node -/

theorem Delete_found (t : VyosConfigTree) (hwf : WF t) (r : Ptr) (hr : t.Root = some r)
    (p : String) (x a : Ptr) (hp : resolve t p = some x)
    (hpar : (node t.heap x).parent = some a) :
    t.Delete p = (Except.ok true,
      { heap := deleteNode t.heap a (node t.heap x).name, Root := some r,
        changeCommands := some (t.Commands ++ ["$DELETE " ++ p]) }) := by
  unfold VyosConfigTree.Delete
  rw [Get_eq t hwf p, hp]
  simp only
  rw [init_of_root t r hr]
  simp only [deleteSelf, hpar]
  rfl

/-- The last step of a walk of one segment or more. -/
theorem walk_last (h : Heap) (r x : Ptr) (cs : List String) (hcs : cs ≠ [])
    (hw : walk h r cs = some x) :
    ∃ p0 k a, cs = p0 ++ [k] ∧ walk h r p0 = some a ∧ getNode h a k = some x := by
  rcases List.eq_nil_or_concat cs with hnil | ⟨p0, k, hc⟩
  · exact absurd hnil hcs
  · rw [List.concat_eq_append] at hc
    subst hc
    rw [walk_snoc] at hw
    cases hp0 : walk h r p0 with
    | none => rw [hp0] at hw; cases hw
    | some a =>
      rw [hp0] at hw
      exact ⟨p0, k, a, rfl, hp0, hw⟩

/-! ## A path added below a point where it did not resolve ends in a new key node -/

/-- When `p` does not resolve from `current` (or `current` has no child list at
all), `addPath` along `p` and a last segment `v` leaves at `p` a node whose only
child is the new leaf `v`. -/
theorem addPath_fresh (h : Heap) (cur : Ptr) (p : List String) (v : String) (hwf : HeapWF h)
    (hcur : cur < h.length)
    (hP : (p ≠ [] ∧ walk h cur p = none) ∨ (node h cur).children = none) :
    ∃ n, walk (VyosConfigTree.addPath h cur (p ++ [v])).1 cur p = some n ∧
      (node (VyosConfigTree.addPath h cur (p ++ [v])).1 n).children =
        some [(VyosConfigTree.addPath h cur (p ++ [v])).2] ∧
      node (VyosConfigTree.addPath h cur (p ++ [v])).1 (VyosConfigTree.addPath h cur (p ++ [v])).2 =
        newChild v n := by
  induction p generalizing h cur with
  | nil =>
    have hch : (node h cur).children = none := by
      rcases hP with ⟨hne, _⟩ | hch
      · exact absurd rfl hne
      · exact hch
    have hidx := (hwf cur hcur).1 hch
    have hg : getNode h cur v = none := by unfold getNode; rw [hidx]
    refine ⟨cur, rfl, ?_, ?_⟩
    · simp only [List.nil_append, VyosConfigTree.addPath]
      rw [node_addNode_self h cur v hcur hg, addNode_snd_new h cur v hg]
      simp [attach, hch]
    · simp only [List.nil_append, VyosConfigTree.addPath]
      rw [addNode_snd_new h cur v hg]
      exact node_addNode_new h cur v hcur hg
  | cons c p ih =>
    have hwf1 := HeapWF_addNode h cur c hwf hcur
    have hx := addNode_snd_lt h cur c hwf hcur
    have hP1 : (p ≠ [] ∧ walk (addNode h cur c).1 (addNode h cur c).2 p = none) ∨
        (node (addNode h cur c).1 (addNode h cur c).2).children = none := by
      cases hg : getNode h cur c with
      | some y =>
        rw [addNode_found h cur c y hg]
        rcases hP with ⟨_, hw⟩ | hch
        · simp only [walk, hg] at hw
          left
          refine ⟨?_, hw⟩
          intro hnil
          rw [hnil] at hw
          cases hw
        · have hidx := (hwf cur hcur).1 hch
          unfold getNode at hg
          rw [hidx] at hg
          cases hg
      | none =>
        right
        rw [addNode_snd_new h cur c hg, node_addNode_new h cur c hcur hg]
        rfl
    obtain ⟨n, i1, i2, i3⟩ := ih (addNode h cur c).1 (addNode h cur c).2 hwf1 hx hP1
    obtain ⟨_, _, _, _, a5, _⟩ :=
      addPath_spec (addNode h cur c).1 (addNode h cur c).2 (p ++ [v]) hwf1 hx
    have hadd : VyosConfigTree.addPath h cur (c :: p ++ [v]) =
        VyosConfigTree.addPath (addNode h cur c).1 (addNode h cur c).2 (p ++ [v]) := rfl
    rw [hadd]
    refine ⟨n, ?_, i2, i3⟩
    simp only [walk]
    rw [a5 cur c _ (getNode_addNode_self h cur c hcur)]
    exact i1

/-! ## What `addPath` adds and what it leaves alone -/

/-- Every edge of the heap after `addPath` was there before, or leads to a new
node and lies on the added path. -/
theorem addPath_edges (h : Heap) (cur : Ptr) (P : List String) (hwf : HeapWF h)
    (hcur : cur < h.length) (m z : Ptr) (j : String)
    (hg : getNode (VyosConfigTree.addPath h cur P).1 m j = some z) :
    getNode h m j = some z ∨
      (h.length ≤ z ∧ ∃ pre rest, P = pre ++ j :: rest ∧
        walk (VyosConfigTree.addPath h cur P).1 cur pre = some m) := by
  induction P generalizing h cur with
  | nil => left; exact hg
  | cons c P ih =>
    have hwf1 := HeapWF_addNode h cur c hwf hcur
    have hx := addNode_snd_lt h cur c hwf hcur
    have hle := addNode_length_le h cur c
    have hadd : VyosConfigTree.addPath h cur (c :: P) =
        VyosConfigTree.addPath (addNode h cur c).1 (addNode h cur c).2 P := rfl
    rw [hadd] at hg ⊢
    obtain ⟨_, _, _, _, a5, _⟩ := addPath_spec (addNode h cur c).1 (addNode h cur c).2 P hwf1 hx
    rcases ih (addNode h cur c).1 (addNode h cur c).2 hwf1 hx hg with
      h1 | ⟨hz, pre, rest, hP, hw⟩
    · rw [getNode_addNode h cur c hcur] at h1
      by_cases hc : m = cur ∧ j = c
      · rw [if_pos hc] at h1
        cases hgc : getNode h cur c with
        | some y =>
          left
          rw [addNode_found h cur c y hgc] at h1
          rw [hc.1, hc.2, hgc]
          exact h1
        | none =>
          right
          rw [addNode_snd_new h cur c hgc] at h1
          refine ⟨Nat.le_of_eq (Option.some.inj h1), [], P, by rw [hc.2]; rfl, ?_⟩
          rw [hc.1]; rfl
      · rw [if_neg hc] at h1
        left; exact h1
    · right
      refine ⟨Nat.le_trans hle hz, c :: pre, rest, by rw [hP]; rfl, ?_⟩
      simp only [walk]
      rw [a5 cur c _ (getNode_addNode_self h cur c hcur)]
      exact hw

/-- A node that the added path does not pass through keeps its record. -/
theorem addPath_untouched (h : Heap) (cur : Ptr) (P : List String) (hwf : HeapWF h)
    (hcur : cur < h.length) (m : Ptr) (hm : m < h.length)
    (hoff : ∀ pre rest, P = pre ++ rest → rest ≠ [] → walk h cur pre ≠ some m) :
    node (VyosConfigTree.addPath h cur P).1 m = node h m := by
  induction P generalizing h cur with
  | nil => rfl
  | cons c P ih =>
    have hwf1 := HeapWF_addNode h cur c hwf hcur
    have hx := addNode_snd_lt h cur c hwf hcur
    have hle := addNode_length_le h cur c
    have hadd : VyosConfigTree.addPath h cur (c :: P) =
        VyosConfigTree.addPath (addNode h cur c).1 (addNode h cur c).2 P := rfl
    rw [hadd]
    have hne : m ≠ cur := by
      intro hh
      exact hoff [] (c :: P) rfl (by simp) (by rw [hh]; rfl)
    rw [ih (addNode h cur c).1 (addNode h cur c).2 hwf1 hx (Nat.lt_of_lt_of_le hm hle),
      node_addNode_of_ne h cur c m hne hm]
    intro pre rest hP hrest hw
    cases hg : getNode h cur c with
    | some y =>
      rw [addNode_found h cur c y hg] at hw
      apply hoff (c :: pre) rest (by rw [hP]; rfl) hrest
      simp only [walk, hg]
      exact hw
    | none =>
      rw [addNode_snd_new h cur c hg] at hw
      cases pre with
      | nil =>
        simp only [walk, Option.some.injEq] at hw
        exact Nat.ne_of_gt hm hw
      | cons j pre =>
        have hgn : getNode (addNode h cur c).1 h.length j = none := by
          unfold getNode
          rw [node_addNode_new h cur c hcur hg]
          rfl
        simp only [walk, hgn] at hw
        cases hw

/-! ## Walks in the heap after `addPath` from the root -/

theorem lt_of_getNode (h : Heap) (m z : Ptr) (j : String) (hg : getNode h m j = some z) :
    m < h.length := by
  by_contra hge
  rw [getNode_ge h m j (Nat.le_of_not_lt hge)] at hg
  cases hg

/-- A walk of the new heap that ends at an old node is a walk of the old heap. -/
theorem addPath_walk_old (h : Heap) (r : Ptr) (P : List String) (hwf : HeapWF h)
    (hr : r < h.length) (q : List String) (x : Ptr)
    (hw : walk (VyosConfigTree.addPath h r P).1 r q = some x) (hx : x < h.length) :
    walk h r q = some x := by
  induction q using List.reverseRecOn generalizing x with
  | nil => exact hw
  | append_singleton q0 j ih =>
    rw [walk_snoc] at hw ⊢
    cases hq0 : walk (VyosConfigTree.addPath h r P).1 r q0 with
    | none => rw [hq0] at hw; cases hw
    | some m =>
      rw [hq0] at hw
      change getNode _ m j = some x at hw
      rcases addPath_edges h r P hwf hr m x j hw with hold | ⟨hnew, _⟩
      · rw [ih m hq0 (lt_of_getNode h m x j hold)]
        exact hold
      · exact absurd hx (Nat.not_lt_of_le hnew)

/-- A walk of the new heap from the root is a walk of the old heap or runs along
the added path. -/
theorem addPath_walk_cases (h : Heap) (r : Ptr) (P : List String) (hwf : HeapWF h)
    (hr : r < h.length) (hroot : (node h r).parent = none) (q : List String) (x : Ptr)
    (hw : walk (VyosConfigTree.addPath h r P).1 r q = some x) :
    walk h r q = some x ∨ ∃ rest, P = q ++ rest := by
  obtain ⟨a1, _, a3, _, _, a6⟩ := addPath_spec h r P hwf hr
  rcases List.eq_nil_or_concat q with hnil | ⟨q0, j, hq⟩
  · right; exact ⟨P, by rw [hnil]; rfl⟩
  · rw [List.concat_eq_append] at hq
    subst hq
    rw [walk_snoc] at hw
    cases hq0 : walk (VyosConfigTree.addPath h r P).1 r q0 with
    | none => rw [hq0] at hw; cases hw
    | some m =>
      rw [hq0] at hw
      change getNode _ m j = some x at hw
      rcases addPath_edges h r P hwf hr m x j hw with hold | ⟨_, pre, rest, hP, hpre⟩
      · left
        rw [walk_snoc, addPath_walk_old h r P hwf hr q0 m hq0 (lt_of_getNode h m x j hold)]
        exact hold
      · right
        have hroot2 : (node (VyosConfigTree.addPath h r P).1 r).parent = none := by
          rw [(a6 r hr).2]; exact hroot
        have := walk_unique _ r m q0 pre a1 (Nat.lt_of_lt_of_le hr a3) hroot2 hq0 hpre
        refine ⟨rest, ?_⟩
        rw [hP, this]
        simp

/-- `Value` looks at the record of the node and at the record of its child only. -/
theorem Value_congr (h h2 : Heap) (n : Ptr) (v : String) (hv : Value h n = Except.ok v)
    (hn : node h2 n = node h n)
    (hc : ∀ c ∈ (node h n).children.getD [], node h2 c = node h c) :
    Value h2 n = Except.ok v := by
  obtain ⟨c, hch, hval, hname⟩ := Value_ok h n v hv
  have hc2 := hc c (by rw [hch]; simp)
  have hch2 : (node h2 n).children = some [c] := by rw [hn]; exact hch
  have hval2 : isValueNode h2 c = true := by
    unfold isValueNode at hval ⊢
    rw [hc2]; exact hval
  rw [Value_of_children h2 n c hch2 hval2, hc2, hname]

/-! ## A run of fresh insertions -/

theorem Set_init (t : VyosConfigTree) (c : String) : t.init.Set c = t.Set c := by
  unfold VyosConfigTree.Set
  rw [init_init]

theorem Separated_symm (c d : String) (hs : Separated c d) : Separated d c :=
  ⟨hs.2, hs.1⟩

/-- The child a key node holds is filed in its index under the value. -/
theorem getNode_of_Value (h : Heap) (n : Ptr) (v : String) (hwf : HeapWF h) (hn : n < h.length)
    (hv : Value h n = Except.ok v) :
    ∃ c, (node h n).children = some [c] ∧ getNode h n v = some c := by
  obtain ⟨c, hch, _, hname⟩ := Value_ok h n v hv
  refine ⟨c, hch, ?_⟩
  rw [getNode_eq_mapGet, (hwf n hn).2.1, hch]
  simp [mapGet, hname]

/-- One more fresh insertion keeps the invariant of the run. -/
theorem SetInv_step (t : VyosConfigTree) (D : List String) (c : String) (hinv : SetInv t D)
    (hlen : 2 ≤ (stringsSplit c ' ').length) (hsep : ∀ d ∈ D, Separated c d) :
    (t.Set c).1 = Except.ok true ∧ SetInv (t.Set c).2 (c :: D) := by
  obtain ⟨r, hr, hl, hroot, hh, hA, hB⟩ := hinv
  have hwf : WF t := ⟨⟨r, hr, hl, hroot⟩, hh⟩
  have hkey := stringsSplit_keyOf c hlen
  rcases List.eq_nil_or_concat (stringsSplit c ' ') with hnil | ⟨K, v, hcs⟩
  · exact absurd hnil (stringsSplit_ne_nil c ' ')
  · rw [List.concat_eq_append] at hcs
    have hdrop : (stringsSplit c ' ').dropLast = K := by rw [hcs, List.dropLast_concat]
    have hval : VyosConfigTree.valueOf c = v := by
      unfold VyosConfigTree.valueOf; rw [hcs]; simp
    have hK : K ≠ [] := by
      intro hnil
      rw [hcs, hnil] at hlen
      simp at hlen
    have hwK : walk t.heap r K = none := by
      cases hw : walk t.heap r K with
      | none => rfl
      | some x =>
        obtain ⟨d, hd, hpre⟩ := hA K x hK hw
        exact absurd (hdrop ▸ hpre) (hsep d hd).1
    have hk : resolve t (VyosConfigTree.keyOf c) = none := by
      unfold resolve
      rw [hr, hkey, hdrop]
      exact hwK
    have hset := Set_fresh t hwf r hr c hk
    obtain ⟨a1, a2, a3, a4, a5, a6⟩ := addPath_spec t.heap r (stringsSplit c ' ') hh hl
    refine ⟨by rw [hset], ?_⟩
    rw [hset]
    refine ⟨r, rfl, Nat.lt_of_lt_of_le hl a3, by rw [(a6 r hl).2]; exact hroot, a1, ?_, ?_⟩
    · intro q x hq hw
      rcases addPath_walk_cases t.heap r _ hh hl hroot q x hw with hold | ⟨rest, hrest⟩
      · obtain ⟨d, hd, hpre⟩ := hA q x hq hold
        exact ⟨d, List.mem_cons_of_mem _ hd, hpre⟩
      · exact ⟨c, List.mem_cons_self _ _, ⟨rest, hrest.symm⟩⟩
    · intro d hd
      rcases List.mem_cons.mp hd with hdc | hdD
      · subst hdc
        obtain ⟨n, f1, f2, f3⟩ := addPath_fresh t.heap r K v hh hl (Or.inl ⟨hK, hwK⟩)
        rw [← hcs] at f1 f2 f3
        refine ⟨n, by rw [hdrop]; exact f1, ?_⟩
        simp only
        rw [Value_of_children _ n _ f2 (by rw [isValueNode, f3]; rfl), f3, hval]
        rfl
      · obtain ⟨n, hwn, hvn⟩ := hB d hdD
        have hn : n < t.heap.length := walk_lt t.heap r n _ hh hl hwn
        obtain ⟨c0, hch, hgc⟩ := getNode_of_Value t.heap n _ hh hn hvn
        have hc0 : c0 < t.heap.length := (getNode_sound t.heap n c0 _ hh hn hgc).1
        have hwc0 : walk t.heap r ((stringsSplit d ' ').dropLast ++ [VyosConfigTree.valueOf d]) =
            some c0 := by
          rw [walk_snoc, hwn]; exact hgc
        have hnot : ¬ ((stringsSplit d ' ').dropLast <+: stringsSplit c ' ') := (hsep d hdD).2
        refine ⟨n, walk_mono t.heap _ a5 r n _ hwn, ?_⟩
        simp only
        apply Value_congr t.heap _ n _ hvn
        · apply addPath_untouched t.heap r _ hh hl n hn
          intro pre rest hP _ hpre
          have := walk_unique t.heap r n _ _ hh hl hroot hwn hpre
          exact hnot ⟨rest, by rw [this, hP]⟩
        · intro c1 hc1
          rw [hch] at hc1
          have hc1e : c1 = c0 := by simpa using hc1
          subst hc1e
          apply addPath_untouched t.heap r _ hh hl c1 hc0
          intro pre rest hP _ hpre
          have := walk_unique t.heap r c1 _ _ hh hl hroot hwc0 hpre
          exact hnot ⟨VyosConfigTree.valueOf d :: rest, by rw [hP, ← this]; simp⟩

/-- A run of `Set` calls on strings of two tokens or more that keep apart from one
another and from those set before: no call panics and the invariant holds of
all of them when the run is over. -/
theorem setAll_inv (cs : List String) (t : VyosConfigTree) (D : List String)
    (hinv : SetInv t D) (hlen : ∀ c ∈ cs, 2 ≤ (stringsSplit c ' ').length)
    (hpw : cs.Pairwise Separated) (hsep : ∀ c ∈ cs, ∀ d ∈ D, Separated c d) :
    ∃ t2, setAll t cs = Except.ok t2 ∧ SetInv t2 (cs.reverse ++ D) := by
  induction cs generalizing t D with
  | nil => exact ⟨t, rfl, hinv⟩
  | cons c cs ih =>
    obtain ⟨hok, hinv1⟩ := SetInv_step t D c hinv (hlen c (List.mem_cons_self _ _))
      (hsep c (List.mem_cons_self _ _))
    have hpw2 := List.pairwise_cons.mp hpw
    obtain ⟨t2, hrun, hinv2⟩ := ih (t.Set c).2 (c :: D) hinv1
      (fun c2 hc2 => hlen c2 (List.mem_cons_of_mem _ hc2)) hpw2.2
      (fun c2 hc2 d hd => by
        rcases List.mem_cons.mp hd with hdc | hdD
        · rw [hdc]; exact Separated_symm c c2 (hpw2.1 c2 hc2)
        · exact hsep c2 (List.mem_cons_of_mem _ hc2) d hdD)
    refine ⟨t2, ?_, ?_⟩
    · simp only [setAll]
      cases hs : t.Set c with
      | mk res t1 =>
        rw [hs] at hok hrun
        simp only at hok hrun
        rw [hok]
        exact hrun
    · rw [List.reverse_cons, List.append_assoc]
      exact hinv2

/-- The tree `init` makes of the zero-valued tree: nothing resolves in it. -/
theorem SetInv_empty : SetInv VyosConfigTree.empty.init [] := by
  refine ⟨0, rfl, by decide, by decide, by decide, ?_, ?_⟩
  · intro q x hq hw
    cases q with
    | nil => exact absurd rfl hq
    | cons j q =>
      have hg : getNode VyosConfigTree.empty.init.heap 0 j = none := rfl
      simp only [walk, hg] at hw
      cases hw
  · intro d hd
    exact absurd hd (List.not_mem_nil d)

/-- What the invariant of a run says of one of its strings: `Has` holds of it, and
`Get` of its key-path finds a key node whose `Value()` is its last token. -/
theorem SetInv_has_get (t : VyosConfigTree) (D : List String) (c : String)
    (hinv : SetInv t D) (hc : c ∈ D) (hlen : 2 ≤ (stringsSplit c ' ').length) :
    t.Has c = true ∧
    ∃ n, (t.Get (VyosConfigTree.keyOf c)).1 = Except.ok (some n) ∧
      Value (t.Get (VyosConfigTree.keyOf c)).2.heap n = Except.ok (VyosConfigTree.valueOf c) := by
  obtain ⟨r, hr, hl, hroot, hh, _, hB⟩ := hinv
  have hwf : WF t := ⟨⟨r, hr, hl, hroot⟩, hh⟩
  obtain ⟨n, hwn, hvn⟩ := hB c hc
  have hn : n < t.heap.length := walk_lt t.heap r n _ hh hl hwn
  obtain ⟨c0, _, hgc⟩ := getNode_of_Value t.heap n _ hh hn hvn
  have hcs : stringsSplit c ' ' = (stringsSplit c ' ').dropLast ++ [VyosConfigTree.valueOf c] := by
    rcases List.eq_nil_or_concat (stringsSplit c ' ') with hnil | ⟨K, v, hKv⟩
    · exact absurd hnil (stringsSplit_ne_nil c ' ')
    · rw [List.concat_eq_append] at hKv
      unfold VyosConfigTree.valueOf
      rw [hKv]
      simp
  refine ⟨?_, n, ?_, ?_⟩
  · rw [Has_eq t hwf]
    unfold resolve
    rw [hr]
    simp only
    rw [hcs, walk_snoc, hwn]
    simp [hgc]
  · rw [Get_eq t hwf]
    unfold resolve
    rw [hr, stringsSplit_keyOf c hlen]
    simp only
    rw [hwn]
  · rw [Get_eq t hwf, init_of_root t r hr]
    exact hvn

/-! ## The parser, line by line -/

theorem takeWhile_line (l rest : List String) (hl : ∀ w ∈ l, w ≠ "\n") :
    (l ++ "\n" :: rest).takeWhile (fun w => decide (w ≠ "\n")) = l := by
  induction l with
  | nil => simp [List.takeWhile]
  | cons a l ih =>
    have ha : a ≠ "\n" := hl a (List.mem_cons_self _ _)
    rw [List.cons_append, List.takeWhile_cons]
    simp only [ha, ne_eq, not_false_eq_true, decide_True, if_true]
    rw [ih (fun w hw => hl w (List.mem_cons_of_mem _ hw))]

theorem matchToken_blank (rest : List String) :
    matchToken ("\n" :: rest) = Except.ok (1, role.IGNORE, [], "") := by
  unfold matchToken
  simp [List.takeWhile]

theorem matchToken_malformed (l rest : List String) (hl : ∀ w ∈ l, w ≠ "\n")
    (hm : Malformed l) :
    matchToken (l ++ "\n" :: rest) = Except.error (Failure.parseError (l ++ "\n" :: rest)) := by
  unfold matchToken
  rw [takeWhile_line l rest hl]
  simp only
  rcases hm with ⟨h1, h2⟩ | ⟨h1, h2⟩
  · have h3 : ¬ l.headD "" = "\x7d" := by
      match l, h1, h2 with
      | [a], _, h2 => exact fun hh => h2 (by rw [← hh]; rfl)
    rw [if_neg (fun h => by omega), if_neg (fun h => by omega), if_neg (fun h => by omega),
      if_neg (fun h => h3 h.2), if_neg (fun h => by omega)]
  · have hb : l.getLastD "" ≠ "\x7b" := by rw [h2]; decide
    rw [if_neg (fun h => hb h.2), if_neg (fun h => hb h.2), if_neg (fun h => h.2.2 h2),
      if_neg (fun h => by omega), if_neg (fun h => by omega)]

theorem matchToken_close (rest : List String) :
    matchToken ("\x7d" :: "\n" :: rest) = Except.ok (1, role.CLOSE, [], "") := by
  unfold matchToken
  simp [List.takeWhile]

theorem matchToken_open (l rest : List String) (hl : ∀ w ∈ l, w ≠ "\n")
    (h1 : 2 ≤ l.length) (h2 : l.getLastD "" = "\x7b") :
    matchToken (l ++ "\n" :: rest) = Except.ok (l.length, role.ROOT, [l.headD ""], "") ∨
    matchToken (l ++ "\n" :: rest) = Except.ok (l.length, role.ROOT_ATTRIBUTE, l.dropLast, "") := by
  unfold matchToken
  rw [takeWhile_line l rest hl]
  simp only
  by_cases h3 : l.length = 2
  · left
    rw [if_pos ⟨h3, h2⟩]
  · right
    rw [if_neg (fun h => h3 h.1), if_pos ⟨by omega, h2⟩]

theorem matchToken_leaf (l rest : List String) (hl : ∀ w ∈ l, w ≠ "\n")
    (h1 : 2 ≤ l.length) (h2 : l.getLastD "" ≠ "\x7b") (h3 : l.getLastD "" ≠ "\x7d") :
    matchToken (l ++ "\n" :: rest) =
      Except.ok (l.length, role.KEY_VALUE, [l.headD ""], stringsJoin l.tail " ") := by
  unfold matchToken
  rw [takeWhile_line l rest hl]
  simp only
  rw [if_neg (fun h => h2 h.2), if_neg (fun h => h2 h.2), if_pos ⟨h1, h2, h3⟩]

theorem parseStep_blank (st : ParseState) (rest : List String) :
    parseStep st ("\n" :: rest) = Except.ok (1, st) := by
  unfold parseStep
  rw [matchToken_blank]

theorem parseStep_malformed (st : ParseState) (l rest : List String)
    (hl : ∀ w ∈ l, w ≠ "\n") (hm : Malformed l) :
    parseStep st (l ++ "\n" :: rest) = Except.error (Failure.parseError (l ++ "\n" :: rest)) := by
  unfold parseStep
  rw [matchToken_malformed l rest hl hm]

/-- A line that is neither blank nor malformed is read in one round, which
leaves the stack as deep as `depthAfter` says. -/
theorem parseStep_line (st : ParseState) (l rest : List String)
    (hl : ∀ w ∈ l, w ≠ "\n") (hne : l ≠ []) (hm : ¬ Malformed l)
    (hclose : l = ["\x7d"] → st.tstack ≠ []) :
    ∃ st2, parseStep st (l ++ "\n" :: rest) = Except.ok (l.length, st2) ∧
      st2.tstack.length = depthAfter st.tstack.length l := by
  unfold Malformed at hm
  rw [not_or] at hm
  by_cases hlen : l.length = 1
  · have hl1 : l = ["\x7d"] := by
      by_contra hne2
      exact hm.1 ⟨hlen, hne2⟩
    subst hl1
    cases hst : st.tstack with
    | nil => exact absurd hst (hclose rfl)
    | cons top more =>
      refine ⟨ParseState.mk st.heap top more, ?_, ?_⟩
      · unfold parseStep
        rw [show (["\x7d"] ++ "\n" :: rest) = "\x7d" :: "\n" :: rest from rfl, matchToken_close]
        simp only [hst]
        rfl
      · simp [depthAfter]
  · have h2 : 2 ≤ l.length := by
      have : l.length ≠ 0 := fun hh => hne (List.length_eq_zero.mp hh)
      omega
    have hnc : l.getLastD "" ≠ "\x7d" := fun hh => hm.2 ⟨h2, hh⟩
    have hl2 : l ≠ ["\x7d"] := fun hh => hlen (by rw [hh]; rfl)
    by_cases hb : l.getLastD "" = "\x7b"
    · rcases matchToken_open l rest hl h2 hb with hmt | hmt
      · refine ⟨ParseState.mk (addNode st.heap st.currentNode (l.headD "")).1
            (addNode st.heap st.currentNode (l.headD "")).2 (st.currentNode :: st.tstack), ?_, ?_⟩
        · unfold parseStep
          rw [hmt]
          rfl
        · unfold depthAfter
          rw [if_neg hl2, if_pos ⟨h2, hb⟩]
          rfl
      · refine ⟨ParseState.mk (attributeLoop st.heap st.currentNode l.dropLast).1
            (attributeLoop st.heap st.currentNode l.dropLast).2 (st.currentNode :: st.tstack),
            ?_, ?_⟩
        · unfold parseStep
          rw [hmt]
          rfl
        · unfold depthAfter
          rw [if_neg hl2, if_pos ⟨h2, hb⟩]
          rfl
    · refine ⟨ParseState.mk (addNode (addNode st.heap st.currentNode (l.headD "")).1
              (addNode st.heap st.currentNode (l.headD "")).2 (stringsJoin l.tail " ")).1
            st.currentNode st.tstack, ?_, ?_⟩
      · unfold parseStep
        rw [matchToken_leaf l rest hl h2 hb hnc]
        rfl
      · unfold depthAfter
        rw [if_neg hl2, if_neg (fun hh => hb hh.2)]


theorem drop_add_of_drop_eq (words a b : List String) (i : Nat)
    (h : words.drop i = a ++ b) : words.drop (i + a.length) = b := by
  have : words.drop (i + a.length) = (words.drop i).drop a.length := by
    rw [List.drop_drop, Nat.add_comm]
  rw [this, h]
  simp

theorem lt_length_of_drop_cons (words rest : List String) (a : String) (i : Nat)
    (h : words.drop i = a :: rest) : i < words.length := by
  by_contra hge
  rw [List.drop_of_length_le (Nat.le_of_not_lt hge)] at h
  cases h

theorem parseLoop_succ (words : List String) (fuel i : Nat) (st : ParseState)
    (hi : i < words.length) :
    parseLoop words (fuel + 1) i st =
      match parseStep st (words.drop i) with
      | .error e => .error e
      | .ok (offset, st2) => parseLoop words fuel (i + offset) st2 := by
  rw [parseLoop, if_pos hi]

theorem parseLoop_done (words : List String) (fuel i : Nat) (st : ParseState)
    (hi : ¬ i < words.length) : parseLoop words fuel i st = Except.ok st := by
  cases fuel <;> simp [parseLoop, hi]

/-- One round on the `"\n"` word that closes a line. -/
theorem parseLoop_newline (words rest : List String) (fuel i : Nat) (st : ParseState)
    (h : words.drop i = "\n" :: rest) :
    parseLoop words (fuel + 1) i st = parseLoop words fuel (i + 1) st := by
  rw [parseLoop_succ words fuel i st (lt_length_of_drop_cons words rest "\n" i h), h,
    parseStep_blank]

theorem parseLoop_lines (words : List String) (lines : List (List String)) :
    ∀ (fuel i : Nat) (st : ParseState),
      words.drop i = (lines.map (fun l => l ++ ["\n"])).flatten →
      (∀ l ∈ lines, ∀ w ∈ l, w ≠ "\n") →
      words.length - i ≤ fuel →
      closesMatched st.tstack.length lines = true →
      ((∃ l ∈ lines, Malformed l) →
        ∃ ws, parseLoop words fuel i st = Except.error (Failure.parseError ws)) ∧
      ((¬ ∃ l ∈ lines, Malformed l) → ∃ st2, parseLoop words fuel i st = Except.ok st2) := by
  induction lines with
  | nil =>
    intro fuel i st hdrop _ _ _
    have hlen := congrArg List.length hdrop
    simp only [List.length_drop, List.map_nil, List.flatten_nil, List.length_nil] at hlen
    have hi : ¬ i < words.length := by omega
    refine ⟨?_, fun _ => ⟨st, parseLoop_done words fuel i st hi⟩⟩
    rintro ⟨l, hl, _⟩
    exact absurd hl (List.not_mem_nil l)
  | cons l ls ih =>
    intro fuel i st hdrop hnl hfuel hcl
    have hdrop2 : words.drop i = l ++ "\n" :: (ls.map (fun l => l ++ ["\n"])).flatten := by
      rw [hdrop]; simp
    have hlen := congrArg List.length hdrop2
    simp only [List.length_drop, List.length_append, List.length_cons] at hlen
    have hnl2 : ∀ l2 ∈ ls, ∀ w ∈ l2, w ≠ "\n" := fun l2 h2 => hnl l2 (List.mem_cons_of_mem _ h2)
    have hnl1 : ∀ w ∈ l, w ≠ "\n" := hnl l (List.mem_cons_self _ _)
    simp only [closesMatched, Bool.and_eq_true, Bool.not_eq_true', Bool.and_eq_false_imp,
      decide_eq_true_eq, decide_eq_false_iff_not] at hcl
    obtain ⟨hcl1, hcl2⟩ := hcl
    by_cases hl0 : l = []
    · subst hl0
      have hd : words.drop i = "\n" :: (ls.map (fun l => l ++ ["\n"])).flatten := hdrop2
      obtain ⟨f, hf⟩ : ∃ f, fuel = f + 1 := ⟨fuel - 1, by simp at hlen; omega⟩
      subst hf
      rw [parseLoop_newline words _ f i st hd]
      have hd1 := drop_add_of_drop_eq words ["\n"] _ i hd
      have hcl3 : closesMatched st.tstack.length ls = true := by
        simpa [depthAfter] using hcl2
      obtain ⟨i1, i2⟩ := ih f (i + 1) st hd1 hnl2 (by simp at hlen; omega) hcl3
      refine ⟨?_, ?_⟩
      · rintro ⟨l2, hl2, hm2⟩
        rcases List.mem_cons.mp hl2 with h3 | h3
        · subst h3
          simp [Malformed] at hm2
        · exact i1 ⟨l2, h3, hm2⟩
      · intro hno
        exact i2 (fun ⟨l2, hl2, hm2⟩ => hno ⟨l2, List.mem_cons_of_mem _ hl2, hm2⟩)
    · have hlpos : 1 ≤ l.length := by
        have : l.length ≠ 0 := fun hh => hl0 (List.length_eq_zero.mp hh)
        omega
      have hi : i < words.length := by omega
      obtain ⟨f, hf⟩ : ∃ f, fuel = f + 1 := ⟨fuel - 1, by omega⟩
      subst hf
      by_cases hm : Malformed l
      · refine ⟨fun _ => ⟨l ++ "\n" :: (ls.map (fun l => l ++ ["\n"])).flatten, ?_⟩, ?_⟩
        · rw [parseLoop_succ words f i st hi, hdrop2, parseStep_malformed st l _ hnl1 hm]
        · intro hno
          exact absurd ⟨l, List.mem_cons_self _ _, hm⟩ hno
      · have hclose : l = ["\x7d"] → st.tstack ≠ [] := by
          intro hl
          have := hcl1 hl
          intro hnil
          apply this
          rw [hnil]; rfl
        obtain ⟨st2, hstep, hdepth⟩ := parseStep_line st l _ hnl1 hl0 hm hclose
        have hd1 := drop_add_of_drop_eq words l _ i hdrop2
        obtain ⟨f2, hf2⟩ : ∃ f2, f = f2 + 1 := ⟨f - 1, by omega⟩
        subst hf2
        have hd2 := drop_add_of_drop_eq words ["\n"] _ (i + l.length) hd1
        have hcl3 : closesMatched st2.tstack.length ls = true := by
          rw [hdepth]; exact hcl2
        have hloop : parseLoop words (f2 + 1 + 1) i st = parseLoop words f2 (i + l.length + 1) st2 := by
          rw [parseLoop_succ words (f2 + 1) i st hi, hdrop2, hstep]
          simp only
          rw [parseLoop_newline words _ f2 (i + l.length) st2 hd1]
        rw [hloop]
        obtain ⟨i1, i2⟩ := ih f2 (i + l.length + 1) st2 hd2 hnl2 (by omega) hcl3
        refine ⟨?_, ?_⟩
        · rintro ⟨l2, hl2, hm2⟩
          rcases List.mem_cons.mp hl2 with h3 | h3
          · subst h3
            exact absurd hm2 hm
          · exact i1 ⟨l2, h3, hm2⟩
        · intro hno
          exact i2 (fun ⟨l2, hl2, hm2⟩ => hno ⟨l2, List.mem_cons_of_mem _ hl2, hm2⟩)

theorem scanWordsAux_mem (cs cur : List Char) (n : Nat)
    (hcur : ∀ ch ∈ cur, isSpace ch = false)
    (w : String) (hw : w ∈ scanWordsAux cs cur n) : ∀ ch ∈ w.data, isSpace ch = false := by
  induction cs generalizing cur n with
  | nil =>
    simp only [scanWordsAux] at hw
    split at hw
    · cases hw
    · split at hw
      · rw [List.mem_singleton.mp hw]; exact hcur
      · cases hw
  | cons c cs ih =>
    simp only [scanWordsAux] at hw
    split at hw
    · split at hw
      · exact ih [] 0 (by simp) hw
      · split at hw
        · rcases List.mem_cons.mp hw with h1 | h1
          · rw [h1]; exact hcur
          · exact ih [] 0 (by simp) h1
        · cases hw
    · rename_i hc
      apply ih (cur ++ [c]) _ _ hw
      intro ch hch
      rcases List.mem_append.mp hch with h1 | h1
      · exact hcur ch h1
      · rw [List.mem_singleton.mp h1]
        simpa using hc

/-- No word of `bufio.ScanWords` is the line-end word `"\n"`. -/
theorem scanWords_ne_newline (s w : String) (hw : w ∈ scanWords s) : w ≠ "\n" := by
  intro hh
  have := scanWordsAux_mem s.data [] 0 (by simp) w hw '\n' (by rw [hh]; decide)
  exact absurd this (by decide)

theorem parseWords_eq (text : String) :
    parseWords text = ((lineTokens text).map (fun l => l ++ ["\n"])).flatten := by
  unfold parseWords lineTokens
  rw [List.map_map]
  rfl

/-- The outcome of `Parse` on a text whose closing-brace lines all have a block
to close: a `parseError` when a line is malformed, a tree otherwise. -/
theorem Parse_outcome (text : String) (hc : closesMatched 0 (lineTokens text) = true) :
    ((∃ l ∈ lineTokens text, Malformed l) →
      ∃ ws, Parse text = Except.error (Failure.parseError ws)) ∧
    ((¬ ∃ l ∈ lineTokens text, Malformed l) → ∃ t, Parse text = Except.ok t) := by
  have hlines := parseLoop_lines (parseWords text) (lineTokens text) (parseWords text).length 0
    parseStart (by rw [List.drop_zero]; exact parseWords_eq text)
    (fun l hl w hw => by
      unfold lineTokens at hl
      obtain ⟨s, _, hs⟩ := List.mem_map.mp hl
      rw [← hs] at hw
      exact scanWords_ne_newline s w hw)
    (by omega) hc
  refine ⟨?_, ?_⟩
  · intro hm
    obtain ⟨ws, hws⟩ := hlines.1 hm
    refine ⟨ws, ?_⟩
    unfold Parse
    simp only
    rw [hws]
  · intro hm
    obtain ⟨st2, hst⟩ := hlines.2 hm
    refine ⟨VyosConfigTree.mk st2.heap (some 0) none, ?_⟩
    unfold Parse
    simp only
    rw [hst]

/-! ## Every tree the code builds is well formed -/

theorem Value_of_isKeyNode (h : Heap) (n : Ptr) (hkey : isKeyNode h n = true) :
    ∃ v, Value h n = Except.ok v := by
  unfold isKeyNode at hkey
  cases hch : (node h n).children with
  | none => rw [hch] at hkey; cases hkey
  | some l =>
    rw [hch] at hkey
    match l, hkey with
    | [c], hkey => exact ⟨_, Value_of_children h n c hch hkey⟩

/-- `Set` keeps a tree well formed, whatever branch it takes. -/
theorem WF_Set (t : VyosConfigTree) (hwf : WF t) (c : String) : WF (t.Set c).2 := by
  obtain ⟨⟨r, hr, hl, hroot⟩, hh⟩ := id hwf
  cases hk : resolve t (VyosConfigTree.keyOf c) with
  | none =>
    rw [Set_fresh t hwf r hr c hk, ← hr]
    obtain ⟨a1, _, a3, _, _, a6⟩ := addPath_spec t.heap r (stringsSplit c ' ') hh hl
    exact WF_of_heap t hwf _ _ a1 a3 (fun m hm => (a6 m hm).2)
  | some n =>
    cases hkey : isKeyNode t.heap n with
    | false => rw [Set_fatal t hwf c n hk hkey]; exact WF_init t hwf
    | true =>
      obtain ⟨v, hv⟩ := Value_of_isKeyNode t.heap n hkey
      by_cases hsame : VyosConfigTree.valueOf c = v
      · rw [Set_same t hwf c n hk (by rw [hsame]; exact hv)]; exact WF_init t hwf
      · rw [Set_overwrite t hwf r hr c n v hk hv hsame, ← hr]
        obtain ⟨c0, hch, _, hname⟩ := Value_ok t.heap n v hv
        have hn : n < t.heap.length := by
          unfold resolve at hk; rw [hr] at hk
          exact walk_lt t.heap r n _ hh hl hk
        obtain ⟨o1, o2, _, _, _, _, o7⟩ :=
          overwrite_heap t.heap n c0 v (VyosConfigTree.valueOf c) hh hn hch hname hsame
        exact WF_of_heap t hwf _ _ o1 (by rw [o2]; exact Nat.le_succ _) o7

/-- `Delete` keeps a tree well formed. -/
theorem WF_Delete (t : VyosConfigTree) (hwf : WF t) (p : String) : WF (t.Delete p).2 := by
  obtain ⟨⟨r, hr, hl, hroot⟩, hh⟩ := id hwf
  cases hp : resolve t p with
  | none =>
    have : t.Delete p = (Except.ok false, t.init) := by
      unfold VyosConfigTree.Delete
      rw [Get_eq t hwf p, hp]
    rw [this]; exact WF_init t hwf
  | some x =>
    have hres : walk t.heap r (stringsSplit p ' ') = some x := by
      unfold resolve at hp; rw [hr] at hp; exact hp
    obtain ⟨p0, k, a, _, hp0, hg⟩ := walk_last t.heap r x _ (stringsSplit_ne_nil p ' ') hres
    have ha : a < t.heap.length := walk_lt t.heap r a p0 hh hl hp0
    obtain ⟨_, hpar, _, _⟩ := getNode_sound t.heap a x k hh ha hg
    rw [Delete_found t hwf r hr p x a hp hpar, ← hr]
    exact WF_of_heap t hwf _ _ (HeapWF_deleteNode t.heap a _ hh)
      (by rw [deleteNode_length]) (fun m _ => parent_deleteNode t.heap a _ m)

/-- What `attributeLoop` leaves behind: a well-formed heap, not smaller, the
returned node allocated, the old nodes keeping their parents. -/
theorem attributeLoop_spec (h : Heap) (cur : Ptr) (keys : List String) (hwf : HeapWF h)
    (hcur : cur < h.length) :
    HeapWF (attributeLoop h cur keys).1 ∧
    (attributeLoop h cur keys).2 < (attributeLoop h cur keys).1.length ∧
    h.length ≤ (attributeLoop h cur keys).1.length ∧
    (∀ m, m < h.length → (node (attributeLoop h cur keys).1 m).parent = (node h m).parent) := by
  induction keys generalizing h cur with
  | nil => exact ⟨hwf, hcur, Nat.le_refl _, fun _ _ => rfl⟩
  | cons key keys ih =>
    cases hg : getNode h cur key with
    | some n =>
      have hn := (getNode_sound h cur n key hwf hcur hg).1
      have heq : attributeLoop h cur (key :: keys) = attributeLoop h n keys := by
        simp only [attributeLoop, hg]
      rw [heq]
      exact ih h n hwf hn
    | none =>
      have heq : attributeLoop h cur (key :: keys) =
          attributeLoop (addNode h cur key).1 (addNode h cur key).2 keys := by
        simp only [attributeLoop, hg]
      rw [heq]
      have hwf1 := HeapWF_addNode h cur key hwf hcur
      have hx := addNode_snd_lt h cur key hwf hcur
      have hle := addNode_length_le h cur key
      obtain ⟨i1, i2, i3, i4⟩ := ih (addNode h cur key).1 (addNode h cur key).2 hwf1 hx
      exact ⟨i1, i2, Nat.le_trans hle i3, fun m hm =>
        (i4 m (Nat.lt_of_lt_of_le hm hle)).trans (parent_addNode h cur key m hm)⟩

theorem parseStep_inv (st st2 : ParseState) (words : List String) (o : Nat)
    (hinv : ParseInv st) (hstep : parseStep st words = Except.ok (o, st2)) : ParseInv st2 := by
  obtain ⟨hh, hcur, hstack, hpos, hroot⟩ := hinv
  unfold parseStep at hstep
  cases hm : matchToken words with
  | error e => rw [hm] at hstep; cases hstep
  | ok res =>
    obtain ⟨o1, r, keys, value⟩ := res
    rw [hm] at hstep
    cases r with
    | ROOT =>
      simp only [Except.ok.injEq, Prod.mk.injEq] at hstep
      rw [← hstep.2]
      have hle := addNode_length_le st.heap st.currentNode (keys.headD "")
      refine ⟨HeapWF_addNode _ _ _ hh hcur, addNode_snd_lt _ _ _ hh hcur, ?_,
        Nat.lt_of_lt_of_le hpos hle, ?_⟩
      · intro p hp
        rcases List.mem_cons.mp hp with h1 | h1
        · rw [h1]; exact Nat.lt_of_lt_of_le hcur hle
        · exact Nat.lt_of_lt_of_le (hstack p h1) hle
      · simp only
        rw [parent_addNode _ _ _ 0 hpos]; exact hroot
    | KEY_VALUE =>
      simp only [Except.ok.injEq, Prod.mk.injEq] at hstep
      rw [← hstep.2]
      have hwf1 := HeapWF_addNode st.heap st.currentNode (keys.headD "") hh hcur
      have hx := addNode_snd_lt st.heap st.currentNode (keys.headD "") hh hcur
      have hle1 := addNode_length_le st.heap st.currentNode (keys.headD "")
      have hle2 := addNode_length_le (addNode st.heap st.currentNode (keys.headD "")).1
        (addNode st.heap st.currentNode (keys.headD "")).2 value
      have hle := Nat.le_trans hle1 hle2
      refine ⟨HeapWF_addNode _ _ _ hwf1 hx, Nat.lt_of_lt_of_le hcur hle,
        fun p hp => Nat.lt_of_lt_of_le (hstack p hp) hle, Nat.lt_of_lt_of_le hpos hle, ?_⟩
      simp only
      rw [parent_addNode _ _ _ 0 (Nat.lt_of_lt_of_le hpos hle1), parent_addNode _ _ _ 0 hpos]
      exact hroot
    | ROOT_ATTRIBUTE =>
      simp only [Except.ok.injEq, Prod.mk.injEq] at hstep
      rw [← hstep.2]
      obtain ⟨a1, a2, a3, a4⟩ := attributeLoop_spec st.heap st.currentNode keys hh hcur
      refine ⟨a1, a2, ?_, Nat.lt_of_lt_of_le hpos a3, ?_⟩
      · intro p hp
        rcases List.mem_cons.mp hp with h1 | h1
        · rw [h1]; exact Nat.lt_of_lt_of_le hcur a3
        · exact Nat.lt_of_lt_of_le (hstack p h1) a3
      · simp only
        rw [a4 0 hpos]; exact hroot
    | CLOSE =>
      simp only at hstep
      cases hs : st.tstack with
      | nil =>
        rw [hs] at hstep
        cases hstep
      | cons top more =>
        rw [hs] at hstep
        simp only [Stack.Pop, Except.ok.injEq, Prod.mk.injEq] at hstep
        rw [← hstep.2]
        rw [hs] at hstack
        exact ⟨hh, hstack top (List.mem_cons_self _ _),
          fun p hp => hstack p (List.mem_cons_of_mem _ hp), hpos, hroot⟩
    | IGNORE =>
      simp only [Except.ok.injEq, Prod.mk.injEq] at hstep
      rw [← hstep.2]
      exact ⟨hh, hcur, hstack, hpos, hroot⟩

theorem parseLoop_inv (words : List String) (fuel i : Nat) (st st2 : ParseState)
    (hinv : ParseInv st) (hloop : parseLoop words fuel i st = Except.ok st2) : ParseInv st2 := by
  induction fuel generalizing i st with
  | zero =>
    simp only [parseLoop] at hloop
    split at hloop
    · cases hloop
    · rw [← Except.ok.inj hloop]; exact hinv
  | succ f ih =>
    by_cases hi : i < words.length
    · rw [parseLoop_succ words f i st hi] at hloop
      cases hs : parseStep st (words.drop i) with
      | error e => rw [hs] at hloop; cases hloop
      | ok res =>
        obtain ⟨o, st1⟩ := res
        rw [hs] at hloop
        exact ih (i + o) st1 (parseStep_inv st st1 _ o hinv hs) hloop
    · rw [parseLoop_done words (f + 1) i st hi] at hloop
      rw [← Except.ok.inj hloop]; exact hinv

/-- Every tree `Parse` returns is well formed. -/
theorem WF_Parse (text : String) (t : VyosConfigTree) (hp : Parse text = Except.ok t) :
    WF t := by
  unfold Parse at hp
  simp only at hp
  cases hl : parseLoop (parseWords text) (parseWords text).length 0 parseStart with
  | error e => rw [hl] at hp; cases hp
  | ok st =>
    rw [hl] at hp
    have hinv : ParseInv parseStart := ⟨by decide, by decide, by decide, by decide, by decide⟩
    obtain ⟨hh, _, _, hpos, hroot⟩ := parseLoop_inv _ _ 0 parseStart st hinv hl
    rw [← Except.ok.inj hp]
    exact ⟨⟨0, rfl, hpos, hroot⟩, hh⟩

/-- The tree `init` makes of the zero-valued tree is well formed. -/
theorem WF_empty_init : WF VyosConfigTree.empty.init :=
  ⟨⟨0, rfl, by decide, by decide⟩, by decide⟩

/-! ## Reachable trees and the mirror of the child list -/

theorem WF_Get (t : VyosConfigTree) (hwf : WF t) (p : String) : WF (t.Get p).2 := by
  rw [Get_eq t hwf p]
  exact WF_init t hwf

/-- Every tree the code can build is well formed. -/
theorem WF_of_Reachable (t : VyosConfigTree) (hr : Reachable t) : WF t := by
  induction hr with
  | parse text t hp => exact WF_Parse text t hp
  | set t c _ ih => exact WF_Set t ih c
  | delete t p _ ih => exact WF_Delete t ih p
  | get t p _ ih => exact WF_Get t ih p

theorem find?_eq_some_of_nodup (f : Ptr → String) (l : List Ptr) (c : Ptr) (k : String)
    (hnd : (l.map f).Nodup) (hc : c ∈ l) (hk : f c = k) :
    l.find? (fun x => decide (f x = k)) = some c := by
  induction l with
  | nil => cases hc
  | cons a l ih =>
    rw [List.map_cons, List.nodup_cons] at hnd
    rcases List.mem_cons.mp hc with h1 | h1
    · subst h1
      simp [List.find?, hk]
    · have hne : f a ≠ k := by
        intro hh
        apply hnd.1
        rw [hh, ← hk]
        exact List.mem_map_of_mem f h1
      simp only [List.find?, hne, decide_False]
      exact ih hnd.2 h1

/-- In a well-formed heap the index of a node holds a node under a name exactly
when that node is in the child list and has that name. -/
theorem getNode_iff_mem (h : Heap) (n c : Ptr) (k : String) (hwf : HeapWF h)
    (hn : n < h.length) :
    getNode h n k = some c ↔ (c ∈ (node h n).children.getD [] ∧ (node h c).name = k) := by
  constructor
  · intro hg
    have := getNode_sound h n c k hwf hn hg
    exact ⟨this.2.2.2, this.2.2.1⟩
  · rintro ⟨hc, hk⟩
    obtain ⟨_, h2, _, h4⟩ := hwf n hn
    rw [getNode_eq_mapGet, h2, mapGet_map]
    exact find?_eq_some_of_nodup (fun x => (node h x).name) _ c k h4 hc hk

theorem Reachable_natConfigTree : Reachable natConfigTree :=
  Reachable.parse natConfigText natConfigTree (by decide)

/-- `Value` returns exactly on a node with one child whose child list and index
are both nil. -/
theorem Value_ok_iff (h : Heap) (n : Ptr) (v : String) :
    Value h n = Except.ok v ↔
      ∃ c, (node h n).children = some [c] ∧ (node h c).children = none ∧
        (node h c).childrenIndex = none ∧ (node h c).name = v := by
  constructor
  · intro hv
    obtain ⟨c, hch, hval, hname⟩ := Value_ok h n v hv
    unfold isValueNode at hval
    simp only [Bool.and_eq_true, Option.isNone_iff_eq_none] at hval
    exact ⟨c, hch, hval.2, hval.1, hname⟩
  · rintro ⟨c, hch, h1, h2, hname⟩
    rw [Value_of_children h n c hch (by unfold isValueNode; rw [h1, h2]; rfl), hname]

/-! ## A block opened by a path of names -/

/-- The loop of the `ROOT_ATTRIBUTE` branch does what `addNode` along the keys
does: `addNode` itself returns the child that is there. -/
theorem attributeLoop_eq_addPath (h : Heap) (cur : Ptr) (keys : List String) :
    attributeLoop h cur keys = VyosConfigTree.addPath h cur keys := by
  induction keys generalizing h cur with
  | nil => rfl
  | cons key keys ih =>
    cases hg : getNode h cur key with
    | some n =>
      simp only [attributeLoop, VyosConfigTree.addPath, hg, addNode_found h cur key n hg]
      exact ih h n
    | none =>
      simp only [attributeLoop, VyosConfigTree.addPath, hg]
      exact ih _ _

theorem parseStep_close (st : ParseState) (top : Ptr) (more : Stack) (rest : List String)
    (hs : st.tstack = top :: more) :
    parseStep st ("\x7d" :: "\n" :: rest) =
      Except.ok (1, ParseState.mk st.heap top more) := by
  unfold parseStep
  rw [matchToken_close]
  simp only [hs]
  rfl

set_option maxRecDepth 100000 in
theorem template_eq : template = scriptHead ++ "\n" ++ "%s" ++ "\n" ++ scriptTail := by
  decide

theorem sprintfAux_spec (h t arg : List Char) (hh : '%' ∉ h) :
    sprintfAux (h ++ '%' :: 's' :: t) arg = h ++ arg ++ t := by
  induction h with
  | nil => simp [sprintfAux]
  | cons c h ih =>
    have hc : c ≠ '%' := fun hx => hh (hx ▸ List.mem_cons_self _ _)
    have hh2 : '%' ∉ h := fun hx => hh (List.mem_cons_of_mem _ hx)
    cases h with
    | nil =>
      simp only [List.cons_append, List.nil_append, sprintfAux, hc, false_and, if_false]
      simp [sprintfAux]
    | cons d h =>
      have := ih hh2
      simp only [List.cons_append] at this
      show sprintfAux (c :: d :: (h ++ '%' :: 's' :: t)) arg = c :: d :: (h ++ arg ++ t)
      rw [sprintfAux, if_neg (fun hx => hc hx.1), this]

set_option maxRecDepth 100000 in
theorem scriptHead_no_verb : '%' ∉ (scriptHead ++ "\n").data := by
  decide

/-- The script is the template with the command in the place of the verb. -/
theorem vyosScript_eq (command : String) :
    vyosScript command = scriptHead ++ "\n" ++ command ++ "\n" ++ scriptTail := by
  unfold vyosScript Sprintf
  have htd : template.data = (scriptHead ++ "\n").data ++ '%' :: 's' :: ("\n" ++ scriptTail).data := by
    rw [template_eq]
    simp [String.data_append]
  rw [htd, sprintfAux_spec _ _ _ scriptHead_no_verb]
  apply String.ext
  simp [String.data_append]

theorem splitAux_append_sep_full (sep : Char) (x y cur : List Char) :
    splitAux sep (x ++ sep :: y) cur = splitAux sep x cur ++ splitAux sep y [] := by
  induction x generalizing cur with
  | nil => simp [splitAux]
  | cons c x ih =>
    rw [List.cons_append]
    simp only [splitAux]
    split
    · rw [ih]; rfl
    · exact ih _

theorem stringsSplit_append_newline (a b : String) :
    stringsSplit (a ++ "\n" ++ b) '\n' = stringsSplit a '\n' ++ stringsSplit b '\n' := by
  unfold stringsSplit
  have : (a ++ "\n" ++ b).data = a.data ++ '\n' :: b.data := by
    simp [String.data_append]
  rw [this, splitAux_append_sep_full]

theorem stringsJoin_cons_newline (a : String) (l : List String) (hl : l ≠ []) :
    stringsJoin (a :: l) "\n" = a ++ "\n" ++ stringsJoin l "\n" := by
  cases l with
  | nil => exact absurd rfl hl
  | cons b rest => rfl

/-- Splitting at line ends the join of lines without a line end gives the lines
back. -/
theorem stringsSplit_stringsJoin_newline (l : List String) (hl : l ≠ [])
    (hnl : ∀ w ∈ l, '\n' ∉ w.data) : stringsSplit (stringsJoin l "\n") '\n' = l := by
  induction l with
  | nil => exact absurd rfl hl
  | cons a l ih =>
    cases l with
    | nil =>
      simp only [stringsJoin, stringsSplit]
      rw [splitAux_no_sep _ _ _ (hnl a (List.mem_cons_self _ _))]
      simp
    | cons b rest =>
      rw [stringsJoin_cons_newline a (b :: rest) (by simp), stringsSplit_append_newline,
        ih (by simp) (fun w hw => hnl w (List.mem_cons_of_mem _ hw))]
      unfold stringsSplit
      rw [splitAux_no_sep _ _ _ (hnl a (List.mem_cons_self _ _))]
      simp

/-- The lines of the script: those of the template before the verb, those of the
command, `$COMMIT`, and the rest of the template. -/
theorem vyosScript_lines (command : String) :
    stringsSplit (vyosScript command) '\n' =
      scriptHeadLines ++ stringsSplit command '\n' ++ "$COMMIT" :: scriptTailLines := by
  rw [vyosScript_eq, stringsSplit_append_newline, stringsSplit_append_newline]
  have h1 : stringsSplit scriptHead '\n' = scriptHeadLines :=
    stringsSplit_stringsJoin_newline scriptHeadLines (by decide) (by decide)
  have h2 : stringsSplit scriptTail '\n' = "$COMMIT" :: scriptTailLines :=
    stringsSplit_stringsJoin_newline _ (by decide) (by decide)
  rw [h1, h2]

end server

namespace zvr

/-! ## The dispatcher, branch by branch -/

theorem HeaderGet_absent (req : Request) (key : String)
    (h : req.Header.lookup (CanonicalMIMEHeaderKey key) = none) : req.HeaderGet key = "" := by
  simp [Request.HeaderGet, Header.Get, h]

/-- The name of a header field counts whatever the case of its letters: the
headers of `requestUpperCase` are filed under `Callbackurl` and `Taskuuid`, `Get`
finds them under `callbackurl` and `taskuuid`, and `dispatch` runs the handler. -/
theorem HeaderGet_any_case :
    requestUpperCase.Header = [("Callbackurl", ["http://mn/cb"]), ("Taskuuid", ["43"])] ∧
    requestUpperCase.HeaderGet CALLBACK_URL = "http://mn/cb" ∧
    requestUpperCase.HeaderGet TASK_UUID = "43" ∧
    (dispatch sampleHandlers requestUpperCase freshWorld).2.w.status = some StatusOK ∧
    (dispatch sampleHandlers requestUpperCase freshWorld).2.runs = [requestUpperCase] := by
  refine ⟨by decide, by decide, by decide, by decide, by decide⟩

theorem registerCommandHandler_ok (env : Env) (interceptors : List (String × List HttpInterceptor))
    (commandHandlers : List (String × commandHandlerWrap)) (path : String)
    (chandler : CommandHandler) (async : Bool) (hpath : path ≠ "")
    (hnew : commandHandlers.lookup path = none) :
    registerCommandHandler env interceptors commandHandlers path (some chandler) async
      = .ok ((path, newWrap env interceptors path chandler async) :: commandHandlers) := by
  simp [registerCommandHandler, Assert, hpath, hnew]

theorem lookup_registered (env : Env) (interceptors : List (String × List HttpInterceptor))
    (commandHandlers : List (String × commandHandlerWrap)) (path : String)
    (chandler : CommandHandler) (async : Bool) :
    ((path, newWrap env interceptors path chandler async) :: commandHandlers).lookup path
      = some (newWrap env interceptors path chandler async) := by
  simp [List.lookup]

theorem applyInterceptors_nil (f : HandlerFunc) : applyInterceptors [] f = f := rfl

theorem WriteHeader_fresh (w : ResponseWriter) (code : Nat) (h : w.status = none) :
    w.WriteHeader code = { status := some code, body := w.body } := by
  simp [ResponseWriter.WriteHeader, h]

theorem WriteHeader_written (w : ResponseWriter) (code c : Nat) (h : w.status = some c) :
    w.WriteHeader code = w := by
  simp [ResponseWriter.WriteHeader, h]

theorem Retry_posts (env : Env) (p : Post) (left i : Nat) (posts : List Post) :
    ∃ k, k ≤ left ∧ (0 < left → 0 < k) ∧
      Retry env p left i posts = posts ++ List.replicate k p := by
  induction left generalizing i posts with
  | zero => exact ⟨0, Nat.le_refl _, fun h => h, by simp [Retry]⟩
  | succ left ih =>
    by_cases hok : env.postOk p i = true
    · exact ⟨1, by omega, fun _ => by omega, by simp [Retry, hok]⟩
    · obtain ⟨k, hk, _, hr⟩ := ih (i + 1) (posts ++ [p])
      refine ⟨k + 1, by omega, fun _ => by omega, ?_⟩
      rw [Retry, if_neg hok, hr, List.append_assoc]
      rfl

/-- The asynchronous route of `dispatch` when both headers are there: the status
200 is sent with nothing, then the wrap runs. -/
theorem dispatch_async (commandHandlers : List (String × commandHandlerWrap))
    (wrap : commandHandlerWrap) (req : Request) (world : World)
    (hreg : commandHandlers.lookup req.Path = some wrap) (hasync : wrap.async = true)
    (hcb : req.HeaderGet CALLBACK_URL ≠ "") (htask : req.HeaderGet TASK_UUID ≠ "") :
    dispatch commandHandlers req world
      = wrap.handler req { world with w := Fprint (world.w.WriteHeader StatusOK) "" } := by
  simp [dispatch, hreg, hasync, hcb, htask]

theorem dispatch_sync (commandHandlers : List (String × commandHandlerWrap))
    (wrap : commandHandlerWrap) (req : Request) (world : World)
    (hreg : commandHandlers.lookup req.Path = some wrap) (hsync : wrap.async = false) :
    dispatch commandHandlers req world = wrap.handler req world := by
  simp [dispatch, hreg, hsync]

theorem inner_fails (env : Env) (chandler : CommandHandler) (async : Bool) (req : Request)
    (world : World) (e : String) (hfail : chandler req = .error e) :
    inner env chandler async req world = (some e, { world with runs := world.runs ++ [req] }) := by
  cases async <;> simp [inner, hfail]

theorem inner_async_returns (env : Env) (chandler : CommandHandler) (req : Request)
    (world : World) (rsp : Option Rsp) (hret : chandler req = .ok rsp) :
    inner env chandler true req world
      = (none, { w := world.w, runs := world.runs ++ [req],
                 posts := Retry env { url := req.HeaderGet CALLBACK_URL,
                                      taskUuid := req.HeaderGet TASK_UUID, rsp := rsp }
                   15 0 world.posts }) := by
  simp [inner, hret]

/-- The reply to `requestRemove`: status 200, no body, one callback post. -/
theorem dispatch_requestRemove :
    dispatch sampleHandlers requestRemove freshWorld
      = (none, { w := { status := some 200, body := "" }, runs := [requestRemove],
                 posts := [{ url := "http://mn/cb", taskUuid := "43", rsp := none }] }) := by
  decide

/-! ## The parser of `zvr/vyos_parser.go`, line by line -/

theorem mapGet_append_entry (m : GoMap) (k j : String) (v : Item) :
    mapGet (m ++ [(k, v)]) j =
      match mapGet m j with
      | some x => some x
      | none => if k = j then some v else none := by
  induction m with
  | nil => simp [mapGet]
  | cons e m ih =>
    obtain ⟨a, b⟩ := e
    by_cases h : a = j
    · simp [mapGet, h]
    · simp only [List.cons_append, mapGet, if_neg h]
      exact ih

theorem mapGet_filter_ne (m : GoMap) (k j : String) :
    mapGet (m.filter (fun e => decide (e.1 ≠ k))) j = if j = k then none else mapGet m j := by
  induction m with
  | nil => simp [mapGet]
  | cons e m ih =>
    obtain ⟨a, b⟩ := e
    by_cases hak : a = k
    · subst hak
      have hf : ((a, b) :: m).filter (fun e => decide (e.1 ≠ a))
          = m.filter (fun e => decide (e.1 ≠ a)) := by
        simp [List.filter]
      rw [hf, ih]
      by_cases hj : j = a
      · simp [hj]
      · have : a ≠ j := fun hh => hj hh.symm
        simp [mapGet, hj, this]
    · have hf : ((a, b) :: m).filter (fun e => decide (e.1 ≠ k))
          = (a, b) :: m.filter (fun e => decide (e.1 ≠ k)) := by
        simp [List.filter, hak]
      rw [hf]
      by_cases haj : a = j
      · subst haj
        simp [mapGet, hak]
      · simp only [mapGet, if_neg haj]
        exact ih

/-- A map read after a map write. -/
theorem mapGet_mapSet (m : GoMap) (k j : String) (v : Item) :
    mapGet (mapSet m k v) j = if j = k then some v else mapGet m j := by
  unfold mapSet
  rw [mapGet_append_entry, mapGet_filter_ne]
  by_cases h : j = k
  · subst h
    simp
  · have : k ≠ j := fun hh => h hh.symm
    simp only [if_neg h, if_neg this]
    cases mapGet m j <;> rfl

theorem getD_set (h : MapHeap) (a b : Nat) (x : GoMap) :
    (h.set a x).getD b [] = if b = a ∧ a < h.length then x else h.getD b [] := by
  rw [List.getD_eq_getElem?_getD, List.getD_eq_getElem?_getD, List.getElem?_set]
  by_cases hab : a = b
  · subst hab
    by_cases hl : a < h.length
    · simp [hl]
    · simp [hl, List.getElem?_eq_none (Nat.le_of_not_lt hl)]
  · have : ¬ (b = a ∧ a < h.length) := fun hh => hab hh.1.symm
    simp [hab, this]

theorem getD_append_lt (h l : MapHeap) (a : Nat) (ha : a < h.length) :
    (h ++ l).getD a [] = h.getD a [] := by
  rw [List.getD_eq_getElem?_getD, List.getD_eq_getElem?_getD, List.getElem?_append_left ha]

theorem getD_append_length (h : MapHeap) (x : GoMap) : (h ++ [x]).getD h.length [] = x := by
  rw [List.getD_eq_getElem?_getD]
  simp

theorem matchToken_ignore (rest : List String) :
    matchToken ("\n" :: rest) = Except.ok (1, role.IGNORE, [], "") := by
  simp [matchToken, List.takeWhile]

theorem matchToken_open2 (b : String) (rest : List String) (hb : b ≠ "\n") :
    matchToken ([b, "\x7b"] ++ "\n" :: rest) = Except.ok (2, role.ROOT, [b], "") := by
  unfold matchToken
  simp only [server.takeWhile_line [b, "\x7b"] rest (by
    intro w hw
    rcases List.mem_cons.mp hw with h | h
    · rw [h]; exact hb
    · rw [List.mem_singleton.mp h]; decide)]
  rfl

theorem matchToken_leaf2 (k v : String) (rest : List String) (hk : k ≠ "\n") (hv : v ≠ "\n")
    (h1 : v ≠ "\x7b") (h2 : v ≠ "\x7d") :
    matchToken ([k, v] ++ "\n" :: rest) = Except.ok (2, role.KEY_VALUE, [k], v) := by
  unfold matchToken
  simp only [server.takeWhile_line [k, v] rest (by
    intro w hw
    rcases List.mem_cons.mp hw with h | h
    · rw [h]; exact hk
    · rw [List.mem_singleton.mp h]; exact hv)]
  have hl : [k, v].getLastD "" = v := rfl
  rw [if_neg (fun hh => h1 (hl ▸ hh.2)), if_neg (fun hh => by simp at hh),
    if_pos ⟨rfl, hl ▸ h1, hl ▸ h2⟩]
  rfl

theorem matchToken_closing (rest : List String) :
    matchToken (["\x7d"] ++ "\n" :: rest) = Except.ok (1, role.CLOSE, [], "") := by
  unfold matchToken
  simp only [server.takeWhile_line ["\x7d"] rest (by
    intro w hw
    rw [List.mem_singleton.mp hw]; decide)]
  rfl

theorem lineStep_blank (st : ParseState) : lineStep st [] = Except.ok st := by
  unfold lineStep parseStep
  rw [List.nil_append, matchToken_ignore]

theorem lineStep_open2 (st : ParseState) (b : String) (hb : b ≠ "\n") :
    lineStep st [b, "\x7b"] = Except.ok
      { heap := (st.heap ++ [[]]).set 0
          (mapSet ((st.heap ++ [[]]).getD 0 []) b (Item.map (some st.heap.length)))
        current := some st.heap.length } := by
  unfold lineStep parseStep
  rw [matchToken_open2 b [] hb]
  rfl

theorem lineStep_leaf2 (st : ParseState) (c : Nat) (k v : String) (hc : st.current = some c)
    (hk : k ≠ "\n") (hv : v ≠ "\n") (h1 : v ≠ "\x7b") (h2 : v ≠ "\x7d") :
    lineStep st [k, v] = Except.ok
      { heap := st.heap.set c (mapSet (st.heap.getD c []) k (Item.str v))
        current := some c } := by
  unfold lineStep parseStep
  rw [matchToken_leaf2 k v [] hk hv h1 h2]
  simp only [List.headD_cons, writeMap, hc]

theorem lineStep_close (st : ParseState) :
    lineStep st ["\x7d"] = Except.ok
      { heap := st.heap ++ [[]], current := some st.heap.length } := by
  unfold lineStep parseStep
  rw [matchToken_closing []]

/-- The outcome of `matchToken`, when it returns, depends on the words of the
line alone. -/
theorem matchToken_rest (l rest : List String) (hl : ∀ w ∈ l, w ≠ "\n")
    (res : Nat × role × List String × String)
    (h : matchToken (l ++ ["\n"]) = Except.ok res) :
    matchToken (l ++ "\n" :: rest) = Except.ok res := by
  unfold matchToken at h ⊢
  simp only [server.takeWhile_line l rest hl]
  simp only [server.takeWhile_line l [] hl] at h
  by_cases c1 : l.length = 2 ∧ l.getLastD "" = "\x7b"
  · rw [if_pos c1] at h ⊢; exact h
  · rw [if_neg c1] at h ⊢
    by_cases c2 : l.length > 2 ∧ l.getLastD "" = "\x7b"
    · rw [if_pos c2] at h ⊢; exact h
    · rw [if_neg c2] at h ⊢
      by_cases c3 : l.length = 2 ∧ l.getLastD "" ≠ "\x7b" ∧ l.getLastD "" ≠ "\x7d"
      · rw [if_pos c3] at h ⊢; exact h
      · rw [if_neg c3] at h ⊢
        by_cases c4 : l.length = 1 ∧ l.headD "" = "\x7d"
        · rw [if_pos c4] at h ⊢; exact h
        · rw [if_neg c4] at h ⊢
          by_cases c5 : l.length = 0
          · rw [if_pos c5] at h ⊢; exact h
          · rw [if_neg c5] at h; cases h

/-- The offset `matchToken` returns is the length of the line, and 1 on a blank
line. -/
theorem matchToken_offset (l : List String) (hl : ∀ w ∈ l, w ≠ "\n")
    (res : Nat × role × List String × String)
    (h : matchToken (l ++ ["\n"]) = Except.ok res) :
    res.1 = (if l = [] then 1 else l.length) := by
  unfold matchToken at h
  simp only [server.takeWhile_line l [] hl] at h
  by_cases hl0 : l = []
  · subst hl0
    rw [if_pos rfl]
    simp at h
    rw [← h]
  · rw [if_neg hl0]
    have hpos : l.length ≠ 0 := fun hh => hl0 (List.length_eq_zero.mp hh)
    by_cases c1 : l.length = 2 ∧ l.getLastD "" = "\x7b"
    · rw [if_pos c1] at h; cases h; rfl
    · rw [if_neg c1] at h
      by_cases c2 : l.length > 2 ∧ l.getLastD "" = "\x7b"
      · rw [if_pos c2] at h; cases h; rfl
      · rw [if_neg c2] at h
        by_cases c3 : l.length = 2 ∧ l.getLastD "" ≠ "\x7b" ∧ l.getLastD "" ≠ "\x7d"
        · rw [if_pos c3] at h; cases h; rfl
        · rw [if_neg c3] at h
          by_cases c4 : l.length = 1 ∧ l.headD "" = "\x7d"
          · rw [if_pos c4] at h; cases h; rfl
          · rw [if_neg c4, if_neg hpos] at h; cases h

theorem matchToken_line (l rest : List String) (hl : ∀ w ∈ l, w ≠ "\n")
    (res : Nat × role × List String × String)
    (h : matchToken (l ++ ["\n"]) = Except.ok res) :
    matchToken (l ++ "\n" :: rest) = Except.ok res ∧
      res.1 = (if l = [] then 1 else l.length) :=
  ⟨matchToken_rest l rest hl res h, matchToken_offset l hl res h⟩

theorem parseStep_of_lineStep (st st2 : ParseState) (l rest : List String) (hl : ∀ w ∈ l, w ≠ "\n")
    (h : lineStep st l = Except.ok st2) :
    parseStep 0 st (l ++ "\n" :: rest) =
      Except.ok ((if l = [] then 1 else l.length), st2) := by
  unfold lineStep at h
  cases hp : parseStep 0 st (l ++ ["\n"]) with
  | error e => rw [hp] at h; cases h
  | ok res =>
    obtain ⟨o, st3⟩ := res
    rw [hp] at h
    simp only [Except.ok.injEq] at h
    subst h
    unfold parseStep at hp ⊢
    cases hm : matchToken (l ++ ["\n"]) with
    | error e => rw [hm] at hp; cases hp
    | ok r =>
      obtain ⟨hm2, ho⟩ := matchToken_line l rest hl r hm
      rw [hm] at hp
      rw [hm2]
      obtain ⟨o1, rl, keys, value⟩ := r
      simp only at ho
      subst ho
      cases rl with
      | ROOT =>
        simp only at hp ⊢
        cases hw : writeMap (st.heap ++ [[]]) (some 0) (keys.headD "")
            (Item.map (some st.heap.length)) with
        | error e => rw [hw] at hp; cases hp
        | ok h2 =>
          rw [hw] at hp
          simp only [Except.ok.injEq, Prod.mk.injEq] at hp
          rw [← hp.2]
      | KEY_VALUE =>
        simp only at hp ⊢
        cases hw : writeMap st.heap st.current (keys.headD "") (Item.str value) with
        | error e => rw [hw] at hp; cases hp
        | ok h2 =>
          rw [hw] at hp
          simp only [Except.ok.injEq, Prod.mk.injEq] at hp
          rw [← hp.2]
      | ROOT_ATTRIBUTE =>
        simp only at hp ⊢
        cases hw : attributeLoop st.heap st.current keys with
        | error e => rw [hw] at hp; cases hp
        | ok a =>
          rw [hw] at hp
          simp only [Except.ok.injEq, Prod.mk.injEq] at hp
          rw [← hp.2]
      | CLOSE =>
        simp only [Except.ok.injEq, Prod.mk.injEq] at hp ⊢
        exact ⟨trivial, hp.2⟩
      | IGNORE =>
        simp only [Except.ok.injEq, Prod.mk.injEq] at hp ⊢
        exact ⟨trivial, hp.2⟩

theorem runLines_cons_ok (st st1 : ParseState) (l : List String) (ls : List (List String))
    (h : lineStep st l = Except.ok st1) : runLines st (l :: ls) = runLines st1 ls := by
  simp only [runLines, h]

theorem runLines_append (a b : List (List String)) :
    ∀ (st st1 : ParseState), runLines st a = Except.ok st1 →
      runLines st (a ++ b) = runLines st1 b := by
  induction a with
  | nil =>
    intro st st1 h
    simp only [runLines, Except.ok.injEq] at h
    rw [List.nil_append, h]
  | cons l ls ih =>
    intro st st1 h
    cases hs : lineStep st l with
    | error e => simp only [runLines, hs] at h; cases h
    | ok st2 =>
      rw [runLines_cons_ok st st2 l ls hs] at h
      rw [List.cons_append, runLines_cons_ok st st2 l _ hs]
      exact ih st2 st1 h

/-- Blank lines change nothing. -/
theorem runLines_filter (lines : List (List String)) :
    ∀ st : ParseState,
      runLines st lines = runLines st (lines.filter (fun l => decide (l ≠ []))) := by
  induction lines with
  | nil => intro st; rfl
  | cons l ls ih =>
    intro st
    by_cases hl : l = []
    · subst hl
      have hf : ([] :: ls).filter (fun l => decide (l ≠ [])) = ls.filter (fun l => decide (l ≠ [])) := by
        simp [List.filter]
      rw [hf, runLines_cons_ok st st [] ls (lineStep_blank st)]
      exact ih st
    · have hf : (l :: ls).filter (fun l => decide (l ≠ []))
          = l :: ls.filter (fun l => decide (l ≠ [])) := by
        simp [List.filter, hl]
      rw [hf]
      cases hs : lineStep st l with
      | error e => simp only [runLines, hs]
      | ok st2 =>
        rw [runLines_cons_ok st st2 l ls hs, runLines_cons_ok st st2 l _ hs]
        exact ih st2

theorem parseLoop_round (data : Nat) (words : List String) (fuel i : Nat) (st : ParseState)
    (hi : i < words.length) :
    parseLoop data words (fuel + 1) i st =
      match parseStep data st (words.drop i) with
      | .error e => .error e
      | .ok (offset, st2) => parseLoop data words fuel (i + offset) st2 := by
  rw [parseLoop, if_pos hi]

theorem parseLoop_end (data : Nat) (words : List String) (fuel i : Nat) (st : ParseState)
    (hi : ¬ i < words.length) : parseLoop data words fuel i st = Except.ok st := by
  cases fuel <;> simp [parseLoop, hi]

theorem parseStep_newline (st : ParseState) (rest : List String) :
    parseStep 0 st ("\n" :: rest) = Except.ok (1, st) := by
  unfold parseStep
  rw [matchToken_ignore]

/-- The loop of `Parse` reads the lines one after the other: when they can all be
read, the loop returns the state after the last, given rounds enough. -/
theorem parseLoop_of_runLines (words : List String) (lines : List (List String)) :
    ∀ (fuel i : Nat) (st st2 : ParseState),
      words.drop i = (lines.map (fun l => l ++ ["\n"])).flatten →
      (∀ l ∈ lines, ∀ w ∈ l, w ≠ "\n") →
      words.length - i ≤ fuel →
      runLines st lines = Except.ok st2 →
      parseLoop 0 words fuel i st = Except.ok st2 := by
  induction lines with
  | nil =>
    intro fuel i st st2 hdrop _ _ hrun
    have hlen := congrArg List.length hdrop
    simp only [List.length_drop, List.map_nil, List.flatten_nil, List.length_nil] at hlen
    have hi : ¬ i < words.length := by omega
    rw [parseLoop_end 0 words fuel i st hi]
    simpa [runLines] using hrun
  | cons l ls ih =>
    intro fuel i st st2 hdrop hnl hfuel hrun
    have hdrop2 : words.drop i = l ++ "\n" :: (ls.map (fun l => l ++ ["\n"])).flatten := by
      rw [hdrop]; simp
    have hlen := congrArg List.length hdrop2
    simp only [List.length_drop, List.length_append, List.length_cons] at hlen
    have hnl2 : ∀ l2 ∈ ls, ∀ w ∈ l2, w ≠ "\n" := fun l2 h2 => hnl l2 (List.mem_cons_of_mem _ h2)
    have hnl1 : ∀ w ∈ l, w ≠ "\n" := hnl l (List.mem_cons_self _ _)
    have hi : i < words.length := by omega
    cases hs : lineStep st l with
    | error e => simp only [runLines, hs] at hrun; cases hrun
    | ok st1 =>
      rw [runLines_cons_ok st st1 l ls hs] at hrun
      have hstep := parseStep_of_lineStep st st1 l (ls.map (fun l => l ++ ["\n"])).flatten hnl1 hs
      obtain ⟨f, hf⟩ : ∃ f, fuel = f + 1 := ⟨fuel - 1, by omega⟩
      subst hf
      rw [parseLoop_round 0 words f i st hi, hdrop2, hstep]
      simp only
      by_cases hl0 : l = []
      · subst hl0
        rw [if_pos rfl]
        have hd1 := server.drop_add_of_drop_eq words ["\n"] _ i hdrop2
        exact ih f (i + 1) st1 st2 hd1 hnl2 (by omega) hrun
      · rw [if_neg hl0]
        have hpos : 1 ≤ l.length := by
          have : l.length ≠ 0 := fun hh => hl0 (List.length_eq_zero.mp hh)
          omega
        have hd1 := server.drop_add_of_drop_eq words l _ i hdrop2
        have hi1 : i + l.length < words.length :=
          server.lt_length_of_drop_cons words _ "\n" _ hd1
        obtain ⟨f2, hf2⟩ : ∃ f2, f = f2 + 1 := ⟨f - 1, by omega⟩
        subst hf2
        rw [parseLoop_round 0 words f2 (i + l.length) st1 hi1, hd1, parseStep_newline]
        simp only
        have hd2 := server.drop_add_of_drop_eq words ["\n"] _ (i + l.length) hd1
        exact ih f2 (i + l.length + 1) st1 st2 hd2 hnl2 (by omega) hrun

/-- `Parse` returns the parser with the heap the lines leave, when the lines of
the text that are not blank can all be read. -/
theorem Parse_of_runLines (text : String) (st2 : ParseState)
    (hrun : runLines { heap := [[]], current := none }
      ((server.lineTokens text).filter (fun l => decide (l ≠ []))) = Except.ok st2) :
    VyosParser.Parse text = Except.ok { heap := st2.heap, data := some 0, parsed := true } := by
  rw [← runLines_filter] at hrun
  have hloop := parseLoop_of_runLines (server.parseWords text) (server.lineTokens text)
    (server.parseWords text).length 0 _ st2
    (by rw [List.drop_zero]; exact server.parseWords_eq text)
    (fun l hl w hw => by
      unfold server.lineTokens at hl
      obtain ⟨s, _, hs⟩ := List.mem_map.mp hl
      rw [← hs] at hw
      exact server.scanWords_ne_newline s w hw)
    (by omega) hrun
  unfold VyosParser.Parse
  simp only
  rw [hloop]

theorem writeEntries_length (h : MapHeap) (c : Nat) (es : List (String × String)) :
    (writeEntries h c es).length = h.length := by
  induction es generalizing h with
  | nil => rfl
  | cons e es ih =>
    obtain ⟨k, v⟩ := e
    simp only [writeEntries]
    rw [ih, List.length_set]

theorem writeEntries_other (h : MapHeap) (c a : Nat) (es : List (String × String))
    (ha : a ≠ c) : (writeEntries h c es).getD a [] = h.getD a [] := by
  induction es generalizing h with
  | nil => rfl
  | cons e es ih =>
    obtain ⟨k, v⟩ := e
    simp only [writeEntries]
    rw [ih, getD_set, if_neg (fun hh => ha hh.1)]

theorem writeEntries_get (h : MapHeap) (c : Nat) (es : List (String × String))
    (hc : c < h.length) (k : String) :
    mapGet ((writeEntries h c es).getD c []) k =
      match server.lastEntry es k with
      | some v => some (Item.str v)
      | none => mapGet (h.getD c []) k := by
  induction es generalizing h with
  | nil => rfl
  | cons e es ih =>
    obtain ⟨k0, v0⟩ := e
    simp only [writeEntries, server.lastEntry]
    rw [ih _ (by rw [List.length_set]; exact hc)]
    cases server.lastEntry es k with
    | some w => rfl
    | none =>
      simp only
      rw [getD_set, if_pos ⟨rfl, hc⟩, mapGet_mapSet]
      by_cases hk : k = k0
      · subst hk
        simp
      · have : k0 ≠ k := fun hh => hk hh.symm
        rw [if_neg hk, if_neg this]

/-- The statements of a block, read with `current` at the address `c`. -/
theorem entries_run (es : List (String × String)) (c : Nat) :
    ∀ (st : ParseState), st.current = some c →
      (∀ e ∈ es, e.1 ≠ "\n" ∧ e.2 ≠ "\n" ∧ e.2 ≠ "\x7b" ∧ e.2 ≠ "\x7d") →
      runLines st (es.map (fun e => [e.1, e.2])) =
        Except.ok { heap := writeEntries st.heap c es, current := some c } := by
  induction es with
  | nil =>
    intro st hc _
    simp only [List.map_nil, runLines, writeEntries]
    rw [← hc]
  | cons e es ih =>
    intro st hc hes
    obtain ⟨k, v⟩ := e
    obtain ⟨h1, h2, h3, h4⟩ := hes (k, v) (List.mem_cons_self _ _)
    rw [List.map_cons, runLines_cons_ok st _ [k, v] _ (lineStep_leaf2 st c k v hc h1 h2 h3 h4)]
    rw [ih _ rfl (fun e he => hes e (List.mem_cons_of_mem _ he))]
    rfl

/-- A top-level block read between blocks: its name is entered into
`parser.data` with a new map, which receives the statements. -/
theorem block_run (st : ParseState) (B : List server.Block) (b : String)
    (es : List (String × String)) (hinv : TopInv st.heap B) (hnew : b ∉ B.map Prod.fst)
    (hb : b ≠ "\n")
    (hes : ∀ e ∈ es, e.1 ≠ "\n" ∧ e.2 ≠ "\n" ∧ e.2 ≠ "\x7b" ∧ e.2 ≠ "\x7d") :
    ∃ st2, runLines st (server.blockLines (b, es)) = Except.ok st2 ∧
      TopInv st2.heap (B ++ [(b, es)]) := by
  obtain ⟨hpos, hnone, hblocks⟩ := hinv
  let h1 : MapHeap := (st.heap ++ [[]]).set 0
    (mapSet ((st.heap ++ [[]]).getD 0 []) b (Item.map (some st.heap.length)))
  have hlen1 : h1.length = st.heap.length + 1 := by
    show ((st.heap ++ [[]]).set 0 _).length = _
    rw [List.length_set, List.length_append]
    rfl
  have h10 : h1.getD 0 [] = mapSet (st.heap.getD 0 []) b (Item.map (some st.heap.length)) := by
    show ((st.heap ++ [[]]).set 0 _).getD 0 [] = _
    rw [getD_set, if_pos ⟨rfl, by rw [List.length_append]; omega⟩,
      getD_append_lt _ _ 0 hpos]
  have h1a : ∀ a, 0 < a → a < st.heap.length → h1.getD a [] = st.heap.getD a [] := by
    intro a ha0 hal
    show ((st.heap ++ [[]]).set 0 _).getD a [] = _
    rw [getD_set, if_neg (fun hh => by omega), getD_append_lt _ _ a hal]
  have h1c : h1.getD st.heap.length [] = [] := by
    show ((st.heap ++ [[]]).set 0 _).getD st.heap.length [] = _
    rw [getD_set, if_neg (fun hh => by omega), getD_append_length]
  let h2 : MapHeap := writeEntries h1 st.heap.length es
  have hlen2 : h2.length = st.heap.length + 1 := by
    show (writeEntries h1 _ es).length = _
    rw [writeEntries_length, hlen1]
  have hrun : runLines st (server.blockLines (b, es)) =
      Except.ok { heap := h2 ++ [[]], current := some h2.length } := by
    unfold server.blockLines
    rw [runLines_cons_ok st { heap := h1, current := some st.heap.length } _ _
      (lineStep_open2 st b hb)]
    rw [runLines_append _ _ _ _ (entries_run es st.heap.length _ rfl hes)]
    rw [runLines_cons_ok _ _ _ _ (lineStep_close _)]
    rfl
  refine ⟨_, hrun, ?_⟩
  have g0 : (h2 ++ [[]]).getD 0 [] = mapSet (st.heap.getD 0 []) b
      (Item.map (some st.heap.length)) := by
    rw [getD_append_lt _ _ 0 (by rw [hlen2]; omega)]
    show (writeEntries h1 _ es).getD 0 [] = _
    rw [writeEntries_other h1 _ 0 es (by omega), h10]
  refine ⟨by rw [List.length_append, hlen2]; omega, ?_, ?_⟩
  · intro b2 hb2
    rw [g0, mapGet_mapSet]
    have hne : b2 ≠ b := by
      intro hh
      apply hb2
      rw [hh]
      simp
    rw [if_neg hne]
    apply hnone
    intro hh
    apply hb2
    rw [List.map_append]
    exact List.mem_append_left _ hh
  · intro be hbe
    rcases List.mem_append.mp hbe with hold | hnewb
    · obtain ⟨c, hc0, hcl, htop, hent⟩ := hblocks be hold
      refine ⟨c, hc0, by rw [List.length_append, hlen2]; omega, ?_, ?_⟩
      · rw [g0, mapGet_mapSet]
        have hne : be.1 ≠ b := by
          intro hh
          apply hnew
          rw [← hh]
          exact List.mem_map_of_mem Prod.fst hold
        rw [if_neg hne]
        exact htop
      · intro k
        rw [getD_append_lt _ _ c (by rw [hlen2]; omega)]
        show mapGet ((writeEntries h1 _ es).getD c []) k = _
        rw [writeEntries_other h1 _ c es (by omega), h1a c hc0 hcl]
        exact hent k
    · rw [List.mem_singleton.mp hnewb]
      refine ⟨st.heap.length, hpos, by rw [List.length_append, hlen2]; omega, ?_, ?_⟩
      · rw [g0, mapGet_mapSet, if_pos rfl]
      · intro k
        rw [getD_append_lt _ _ _ (by rw [hlen2]; omega)]
        show mapGet ((writeEntries h1 _ es).getD st.heap.length []) k = _
        rw [writeEntries_get h1 _ es (by rw [hlen1]; omega) k, h1c]
        cases server.lastEntry es k <;> rfl

/-- The blocks of a text read one after the other. -/
theorem blocks_run (blocks : List server.Block) :
    ∀ (st : ParseState) (B : List server.Block), TopInv st.heap B →
      ((B ++ blocks).map Prod.fst).Nodup →
      (∀ be ∈ blocks, be.1 ≠ "\n" ∧
        ∀ e ∈ be.2, e.1 ≠ "\n" ∧ e.2 ≠ "\n" ∧ e.2 ≠ "\x7b" ∧ e.2 ≠ "\x7d") →
      ∃ st2, runLines st (server.flatLines blocks) = Except.ok st2 ∧
        TopInv st2.heap (B ++ blocks) := by
  induction blocks with
  | nil =>
    intro st B hinv _ _
    exact ⟨st, rfl, by rw [List.append_nil]; exact hinv⟩
  | cons be bs ih =>
    intro st B hinv hnd htok
    obtain ⟨b, es⟩ := be
    have hnew : b ∉ B.map Prod.fst := by
      intro hh
      rw [List.map_append, List.map_cons] at hnd
      have := (List.nodup_append.mp hnd).2.2
      exact this hh (List.mem_cons_self _ _)
    obtain ⟨hb, hes⟩ := htok (b, es) (List.mem_cons_self _ _)
    obtain ⟨st1, hrun1, hinv1⟩ := block_run st B b es hinv hnew hb hes
    obtain ⟨st2, hrun2, hinv2⟩ := ih st1 (B ++ [(b, es)]) hinv1
      (by rw [List.append_assoc]; exact hnd)
      (fun be2 hbe2 => htok be2 (List.mem_cons_of_mem _ hbe2))
    refine ⟨st2, ?_, by rw [List.append_assoc] at hinv2; exact hinv2⟩
    unfold server.flatLines
    rw [List.map_cons, List.flatten_cons, runLines_append _ _ _ _ hrun1]
    exact hrun2

theorem TopInv_start : TopInv [[]] [] := by
  refine ⟨by simp, ?_, ?_⟩
  · intro b _
    rfl
  · intro be hbe
    cases hbe

/-- What `parser.data` holds under a name, between the blocks: nothing, or the
map of the block of that name. -/
theorem top_read (h : MapHeap) (B : List server.Block) (hinv : TopInv h B) (b : String) :
    readMap h (some 0) b = none ∨
    ∃ be ∈ B, be.1 = b ∧ ∃ c, readMap h (some 0) b = some (Item.map (some c)) ∧
      ∀ k, readMap h (some c) k = (server.lastEntry be.2 k).map Item.str := by
  obtain ⟨_, hnone, hblocks⟩ := hinv
  by_cases hb : b ∈ B.map Prod.fst
  · right
    obtain ⟨be, hbe, hname⟩ := List.mem_map.mp hb
    obtain ⟨c, _, _, htop, hent⟩ := hblocks be hbe
    exact ⟨be, hbe, hname, c, by rw [← hname]; exact htop, hent⟩
  · exact Or.inl (hnone b hb)

theorem GetValue_nil (p : VyosParser) :
    p.GetValue [] = Except.error ParserFailure.sliceBounds := rfl

theorem Assert_true (msg : String) : Assert true msg = Except.ok () := rfl

/-- `GetValue` with one key, between the blocks: `parser.data` holds maps only. -/
theorem GetValue_one (h : MapHeap) (B : List server.Block) (hinv : TopInv h B) (k1 : String) :
    VyosParser.GetValue { heap := h, data := some 0, parsed := true } [k1]
      = Except.ok ("", false) := by
  have hval : VyosConfig.GetValue h { data := some 0 } [k1] = ("", false) := by
    unfold VyosConfig.GetValue
    simp only [descend]
    rcases top_read h B hinv k1 with h0 | ⟨_, _, _, c, hc, _⟩
    · rw [h0]
    · rw [hc]
  simp only [VyosParser.GetValue, VyosParser.GetConfig, VyosConfig.GetConfig, Assert_true,
    List.length_singleton, if_true, List.dropLast, descend]
  exact congrArg Except.ok hval

/-- `GetValue` with two keys, between the blocks. -/
theorem GetValue_two (h : MapHeap) (B : List server.Block) (hinv : TopInv h B) (b k v : String) :
    VyosParser.GetValue { heap := h, data := some 0, parsed := true } [b, k]
      = Except.ok (v, true) ↔
      ∃ be ∈ B, be.1 = b ∧ server.lastEntry be.2 k = some v := by
  have hunf : VyosParser.GetValue { heap := h, data := some 0, parsed := true } [b, k] =
      match readMap h (some 0) b with
      | some (Item.map m) => Except.ok (VyosConfig.GetValue h { data := m } [k])
      | _ => Except.ok ("", false) := by
    simp only [VyosParser.GetValue, VyosParser.GetConfig, VyosConfig.GetConfig, Assert_true,
      List.length_cons, List.length_nil, List.dropLast, descend]
    cases hr : readMap h (some 0) b with
    | none => rfl
    | some x =>
      cases x with
      | str s => rfl
      | map m => rfl
  rw [hunf]
  rcases top_read h B hinv b with h0 | ⟨be, hbe, hname, c, hc, hent⟩
  · rw [h0]
    constructor
    · intro hh; cases hh
    · rintro ⟨be, hbe, hname, _⟩
      exfalso
      obtain ⟨_, _, hblocks⟩ := hinv
      obtain ⟨c, _, _, htop, _⟩ := hblocks be hbe
      rw [hname] at htop
      have : readMap h (some 0) b = some (Item.map (some c)) := htop
      rw [h0] at this
      cases this
  · rw [hc]
    simp only
    have hval : VyosConfig.GetValue h { data := some c } [k] =
        match server.lastEntry be.2 k with
        | some w => (w, true)
        | none => ("", false) := by
      unfold VyosConfig.GetValue
      simp only [descend]
      rw [hent k]
      cases server.lastEntry be.2 k <;> rfl
    rw [hval]
    constructor
    · intro hh
      cases hle : server.lastEntry be.2 k with
      | none => rw [hle] at hh; cases hh
      | some w =>
        rw [hle] at hh
        simp only [Except.ok.injEq, Prod.mk.injEq, and_true] at hh
        exact ⟨be, hbe, hname, by rw [← hh]; exact hle⟩
    · rintro ⟨be2, hbe2, hname2, hle2⟩
      obtain ⟨_, _, hblocks⟩ := hinv
      obtain ⟨c2, _, _, htop2, hent2⟩ := hblocks be2 hbe2
      rw [hname2] at htop2
      have hcc : some (Item.map (some c2)) = some (Item.map (some c)) := by
        rw [← hc]; exact htop2.symm
      simp only [Option.some.injEq, Item.map.injEq] at hcc
      subst hcc
      have h1 := hent2 k
      have h2 : mapGet (h.getD c2 []) k = (server.lastEntry be.2 k).map Item.str := hent k
      rw [h1, hle2] at h2
      cases hle : server.lastEntry be.2 k with
      | none => rw [hle] at h2; cases h2
      | some w =>
        rw [hle] at h2
        simp only [Option.map_some', Option.some.injEq, Item.str.injEq] at h2
        rw [h2]

/-- Below the statements of a block there is nothing: a walk of two keys or more
from `parser.data` ends at a string or fails. -/
theorem descend_flat (h : MapHeap) (B : List server.Block) (hinv : TopInv h B)
    (b k : String) (more : List String) :
    descend h (Item.map (some 0)) (b :: k :: more) = none ∨
      ∃ w, descend h (Item.map (some 0)) (b :: k :: more) = some (Item.str w) := by
  simp only [descend]
  rcases top_read h B hinv b with h0 | ⟨be, _, _, c, hc, hent⟩
  · rw [h0]; exact Or.inl rfl
  · rw [hc]
    simp only [descend]
    rw [hent k]
    cases server.lastEntry be.2 k with
    | none => exact Or.inl rfl
    | some w =>
      cases more with
      | nil => exact Or.inr ⟨w, rfl⟩
      | cons j rest => exact Or.inl rfl

/-- `GetValue` with three keys or more, between the blocks, finds nothing. -/
theorem GetValue_more (h : MapHeap) (B : List server.Block) (hinv : TopInv h B)
    (b k j : String) (rest : List String) :
    VyosParser.GetValue { heap := h, data := some 0, parsed := true } (b :: k :: j :: rest)
      = Except.ok ("", false) := by
  have hd : (b :: k :: j :: rest).dropLast = b :: k :: (j :: rest).dropLast := rfl
  have hcfg : VyosConfig.GetConfig h { data := some 0 } (b :: k :: (j :: rest).dropLast)
      = (none, false) := by
    unfold VyosConfig.GetConfig
    rcases descend_flat h B hinv b k (j :: rest).dropLast with h0 | ⟨w, hw⟩
    · rw [h0]
    · rw [hw]
  simp only [VyosParser.GetValue, VyosParser.GetConfig, Assert_true, List.length_cons]
  rw [if_neg (by omega), if_neg (by omega), hd, hcfg]

/-- What `GetValue` finds on the parser after a text of top-level blocks. -/
theorem GetValue_blocks (h : MapHeap) (B : List server.Block) (hinv : TopInv h B)
    (keys : List String) (v : String) :
    VyosParser.GetValue { heap := h, data := some 0, parsed := true } keys = Except.ok (v, true) ↔
      ∃ be ∈ B, ∃ k, keys = [be.1, k] ∧ server.lastEntry be.2 k = some v := by
  match keys with
  | [] =>
    rw [GetValue_nil]
    constructor
    · intro hh; cases hh
    · rintro ⟨_, _, _, hk, _⟩; cases hk
  | [k1] =>
    rw [GetValue_one h B hinv k1]
    constructor
    · intro hh; cases hh
    · rintro ⟨_, _, _, hk, _⟩; cases hk
  | [b, k] =>
    rw [GetValue_two h B hinv b k v]
    constructor
    · rintro ⟨be, hbe, hname, hle⟩
      exact ⟨be, hbe, k, by rw [hname], hle⟩
    · rintro ⟨be, hbe, k2, hk, hle⟩
      simp only [List.cons.injEq, and_true] at hk
      exact ⟨be, hbe, hk.1.symm, by rw [hk.2]; exact hle⟩
  | b :: k :: j :: rest =>
    rw [GetValue_more h B hinv b k j rest]
    constructor
    · intro hh; cases hh
    · rintro ⟨_, _, _, hk, _⟩
      simp at hk

/-- The two parsers on `flatText`, for the key path `b k`. -/
theorem flatText_b_k :
    (VyosParser.Parse flatText).map (fun p => p.GetValue ["b", "k"])
      = Except.ok (Except.ok ("y", true)) ∧
    (server.Parse flatText).map (fun t => (server.GetValue t "b k").1)
      = Except.ok (Except.ok ("y", true)) := by
  refine ⟨by decide, by decide⟩

end zvr

namespace server

/-! ## The loop of `Parse` ends, and when `Set` is fatal -/

/-- Every offset `matchToken` returns is at least 1. -/
theorem matchToken_offset_pos (words : List String) (o : Nat) (r : role) (keys : List String)
    (value : String) (h : matchToken words = Except.ok (o, r, keys, value)) : 1 ≤ o := by
  unfold matchToken at h
  simp only at h
  split_ifs at h with h1 h2 h3 h4 h5
  all_goals simp only [Except.ok.injEq, Prod.mk.injEq] at h
  · omega
  · omega
  · omega
  · omega
  · omega

/-- A round of the loop moves the index on. -/
theorem parseStep_offset_pos (st st2 : ParseState) (words : List String) (o : Nat)
    (h : parseStep st words = Except.ok (o, st2)) : 1 ≤ o := by
  unfold parseStep at h
  cases hm : matchToken words with
  | error e => rw [hm] at h; cases h
  | ok res =>
    obtain ⟨o1, r, keys, value⟩ := res
    have hpos := matchToken_offset_pos words o1 r keys value hm
    rw [hm] at h
    cases r with
    | ROOT => simp only [Except.ok.injEq, Prod.mk.injEq] at h; omega
    | KEY_VALUE => simp only [Except.ok.injEq, Prod.mk.injEq] at h; omega
    | ROOT_ATTRIBUTE => simp only [Except.ok.injEq, Prod.mk.injEq] at h; omega
    | CLOSE =>
      simp only at h
      cases hs : st.tstack.Pop with
      | none => rw [hs] at h; cases h
      | some tr =>
        rw [hs] at h
        simp only [Except.ok.injEq, Prod.mk.injEq] at h; omega
    | IGNORE => simp only [Except.ok.injEq, Prod.mk.injEq] at h; omega

/-- The panics of a round of the loop: that of `matchToken`, and `Pop` on an empty
stack. -/
theorem parseStep_error (st : ParseState) (words : List String) (e : Failure)
    (h : parseStep st words = Except.error e) :
    (∃ ws, e = Failure.parseError ws) ∨ e = Failure.emptyStack := by
  unfold parseStep at h
  cases hm : matchToken words with
  | error e2 =>
    rw [hm] at h
    unfold matchToken at hm
    simp only at hm
    split_ifs at hm
    cases hm
    cases h
    exact Or.inl ⟨_, rfl⟩
  | ok res =>
    obtain ⟨o1, r, keys, value⟩ := res
    rw [hm] at h
    cases r with
    | ROOT => cases h
    | KEY_VALUE => cases h
    | ROOT_ATTRIBUTE => cases h
    | CLOSE =>
      simp only at h
      cases hs : st.tstack.Pop with
      | none => rw [hs] at h; cases h; exact Or.inr rfl
      | some tr => rw [hs] at h; cases h
    | IGNORE => cases h

/-- A round of the loop never fails for want of rounds. -/
theorem parseStep_ne_outOfFuel (st : ParseState) (words : List String) :
    parseStep st words ≠ Except.error Failure.outOfFuel := by
  intro h
  rcases parseStep_error st words _ h with ⟨ws, hws⟩ | h2
  · cases hws
  · cases h2

/-- The ways the loop of `Parse` can fail. -/
theorem parseLoop_error (words : List String) (fuel i : Nat) (st : ParseState) (e : Failure)
    (h : parseLoop words fuel i st = Except.error e) :
    e = Failure.outOfFuel ∨ (∃ ws, e = Failure.parseError ws) ∨ e = Failure.emptyStack := by
  induction fuel generalizing i st with
  | zero =>
    unfold parseLoop at h
    split_ifs at h
    cases h
    exact Or.inl rfl
  | succ f ih =>
    by_cases hi : i < words.length
    · rw [parseLoop_succ words f i st hi] at h
      cases hs : parseStep st (words.drop i) with
      | error e2 =>
        rw [hs] at h
        cases h
        exact Or.inr (parseStep_error st _ _ hs)
      | ok res =>
        obtain ⟨o, st2⟩ := res
        rw [hs] at h
        exact ih (i + o) st2 h
    · rw [parseLoop_done words (f + 1) i st hi] at h
      cases h

/-- The loop of `Parse` needs no more rounds than there are words left: with
that many or more, the outcome is the same, and it is not the want of rounds. -/
theorem parseLoop_fuel (words : List String) :
    ∀ (n i : Nat) (st : ParseState) (fuel : Nat), words.length - i ≤ n → n ≤ fuel →
      parseLoop words fuel i st = parseLoop words n i st ∧
      parseLoop words n i st ≠ Except.error Failure.outOfFuel := by
  intro n
  induction n with
  | zero =>
    intro i st fuel hn _
    have hi : ¬ i < words.length := by omega
    rw [parseLoop_done words fuel i st hi, parseLoop_done words 0 i st hi]
    exact ⟨rfl, fun h => by cases h⟩
  | succ n ih =>
    intro i st fuel hn hf
    obtain ⟨f, hf2⟩ : ∃ f, fuel = f + 1 := ⟨fuel - 1, by omega⟩
    subst hf2
    by_cases hi : i < words.length
    · rw [parseLoop_succ words f i st hi, parseLoop_succ words n i st hi]
      cases hs : parseStep st (words.drop i) with
      | error e =>
        refine ⟨rfl, ?_⟩
        intro h
        simp only [Except.error.injEq] at h
        rw [h] at hs
        exact parseStep_ne_outOfFuel st _ hs
      | ok res =>
        obtain ⟨o, st2⟩ := res
        have hpos := parseStep_offset_pos st st2 _ o hs
        exact ih (i + o) st2 f (by omega) (by omega)
    · rw [parseLoop_done words (f + 1) i st hi, parseLoop_done words (n + 1) i st hi]
      exact ⟨rfl, fun h => by cases h⟩

/-- On a well-formed tree `Set(c)` is fatal exactly when the key-path of `c`
resolves to a node for which `isKeyNode` is false; the tree is then as `init`
leaves it. -/
theorem Set_fatal_iff (t : VyosConfigTree) (hwf : WF t) (c : String) :
    ((∃ e, (t.Set c).1 = Except.error e) ↔
      ∃ n, resolve t (VyosConfigTree.keyOf c) = some n ∧ isKeyNode t.heap n = false) ∧
    ((∃ e, (t.Set c).1 = Except.error e) → (t.Set c).2 = t.init) ∧
    ((¬ ∃ e, (t.Set c).1 = Except.error e) → ∃ b, (t.Set c).1 = Except.ok b) := by
  obtain ⟨⟨r, hr, hl, hroot⟩, hh⟩ := id hwf
  cases hk : resolve t (VyosConfigTree.keyOf c) with
  | none =>
    rw [Set_fresh t hwf r hr c hk]
    refine ⟨⟨?_, ?_⟩, ?_, fun _ => ⟨true, rfl⟩⟩
    · rintro ⟨e, he⟩; cases he
    · rintro ⟨n, hn, _⟩; cases hn
    · rintro ⟨e, he⟩; cases he
  | some n =>
    cases hkey : isKeyNode t.heap n with
    | false =>
      rw [Set_fatal t hwf c n hk hkey]
      exact ⟨⟨fun _ => ⟨n, rfl, hkey⟩, fun _ => ⟨_, rfl⟩⟩, fun _ => rfl,
        fun hno => absurd ⟨_, rfl⟩ hno⟩
    | true =>
      obtain ⟨v, hv⟩ := Value_of_isKeyNode t.heap n hkey
      by_cases hsame : VyosConfigTree.valueOf c = v
      · rw [Set_same t hwf c n hk (by rw [hsame]; exact hv)]
        refine ⟨⟨?_, ?_⟩, ?_, fun _ => ⟨false, rfl⟩⟩
        · rintro ⟨e, he⟩; cases he
        · rintro ⟨m, hm, hm2⟩
          cases hm
          rw [hkey] at hm2; cases hm2
        · rintro ⟨e, he⟩; cases he
      · rw [Set_overwrite t hwf r hr c n v hk hv hsame]
        refine ⟨⟨?_, ?_⟩, ?_, fun _ => ⟨true, rfl⟩⟩
        · rintro ⟨e, he⟩; cases he
        · rintro ⟨m, hm, hm2⟩
          cases hm
          rw [hkey] at hm2; cases hm2
        · rintro ⟨e, he⟩; cases he

/-! ## The paths that resolve in a parsed tree -/

theorem addNode_children_ne (h : Heap) (n : Ptr) (k : String) (hn : n < h.length)
    (hC : ∀ m, m < h.length → (node h m).children ≠ some []) :
    ∀ m, m < (addNode h n k).1.length → (node (addNode h n k).1 m).children ≠ some [] := by
  intro m hm
  cases hg : getNode h n k with
  | some c =>
    rw [addNode_found h n k c hg] at hm ⊢
    exact hC m hm
  | none =>
    rw [addNode_length_new h n k hg] at hm
    by_cases hmn : m = n
    · subst hmn
      rw [node_addNode_self h m k hn hg]
      simp [attach]
    · by_cases hml : m < h.length
      · rw [node_addNode_of_ne h n k m hmn hml]
        exact hC m hml
      · have hmeq : m = h.length := by omega
        subst hmeq
        rw [node_addNode_new h n k hn hg]
        simp [newChild]

theorem addPath_children_ne (h : Heap) (cur : Ptr) (P : List String) (hwf : HeapWF h)
    (hcur : cur < h.length) (hC : ∀ m, m < h.length → (node h m).children ≠ some []) :
    ∀ m, m < (VyosConfigTree.addPath h cur P).1.length →
      (node (VyosConfigTree.addPath h cur P).1 m).children ≠ some [] := by
  induction P generalizing h cur with
  | nil => exact hC
  | cons c cs ih =>
    have hadd : VyosConfigTree.addPath h cur (c :: cs) =
        VyosConfigTree.addPath (addNode h cur c).1 (addNode h cur c).2 cs := rfl
    rw [hadd]
    exact ih (addNode h cur c).1 (addNode h cur c).2 (HeapWF_addNode h cur c hwf hcur)
      (addNode_snd_lt h cur c hwf hcur) (addNode_children_ne h cur c hcur hC)

/-- A walk from the root in the heap after `addPath` from the node at the path
`cp` either was there before or runs along the added path. -/
theorem addPath_walk_from (h : Heap) (cur : Ptr) (cp P : List String) (hwf : HeapWF h)
    (h0 : 0 < h.length) (hroot : (node h 0).parent = none) (hcur : walk h 0 cp = some cur)
    (q : List String) (x : Ptr)
    (hw : walk (VyosConfigTree.addPath h cur P).1 0 q = some x) :
    walk h 0 q = some x ∨ (h.length ≤ x ∧ q <+: cp ++ P) := by
  have hcl : cur < h.length := walk_lt h 0 cur cp hwf h0 hcur
  obtain ⟨a1, _, a3, _, a5, a6⟩ := addPath_spec h cur P hwf hcl
  have h02 : 0 < (VyosConfigTree.addPath h cur P).1.length := Nat.lt_of_lt_of_le h0 a3
  have hroot2 : (node (VyosConfigTree.addPath h cur P).1 0).parent = none := by
    rw [(a6 0 h0).2]; exact hroot
  have hcur2 : walk (VyosConfigTree.addPath h cur P).1 0 cp = some cur :=
    walk_mono h _ a5 0 cur cp hcur
  induction q using List.reverseRecOn generalizing x with
  | nil =>
    left
    simp only [walk] at hw ⊢
    exact hw
  | append_singleton q j ih =>
    rw [walk_snoc] at hw
    cases hq : walk (VyosConfigTree.addPath h cur P).1 0 q with
    | none => rw [hq] at hw; cases hw
    | some m =>
      rw [hq] at hw
      have hg : getNode (VyosConfigTree.addPath h cur P).1 m j = some x := hw
      rcases addPath_edges h cur P hwf hcl m x j hg with hold | ⟨hx, pre, rest, hP, hpre⟩
      · have hm : m < h.length := lt_of_getNode h m x j hold
        rcases ih m hq with h1 | ⟨h1, _⟩
        · left
          rw [walk_snoc, h1]
          exact hold
        · exact absurd hm (Nat.not_lt.mpr h1)
      · right
        refine ⟨hx, ?_⟩
        have hwm : walk (VyosConfigTree.addPath h cur P).1 0 (cp ++ pre) = some m := by
          rw [walk_append, hcur2]
          exact hpre
        have hqeq : q = cp ++ pre :=
          walk_unique _ 0 m q (cp ++ pre) a1 h02 hroot2 hq hwm
        rw [hqeq, hP]
        exact ⟨rest, by simp⟩

/-- The step of the invariant on paths: `addPath` from the open block. -/
theorem addPath_paths (h : Heap) (cur : Ptr) (cp P : List String) (D : List (List String))
    (hwf : HeapWF h) (h0 : 0 < h.length) (hroot : (node h 0).parent = none)
    (hcur : walk h 0 cp = some cur)
    (hA : ∀ q x, q ≠ [] → walk h 0 q = some x → ∃ d ∈ D, q <+: d)
    (hB : ∀ d ∈ D, ∃ x, walk h 0 d = some x)
    (hC : ∀ n, n < h.length → (node h n).children ≠ some []) :
    (∀ q x, walk h 0 q = some x → walk (VyosConfigTree.addPath h cur P).1 0 q = some x) ∧
    walk (VyosConfigTree.addPath h cur P).1 0 (cp ++ P) = some (VyosConfigTree.addPath h cur P).2 ∧
    (∀ q x, q ≠ [] → walk (VyosConfigTree.addPath h cur P).1 0 q = some x →
      ∃ d ∈ D ++ [cp ++ P], q <+: d) ∧
    (∀ d ∈ D ++ [cp ++ P], ∃ x, walk (VyosConfigTree.addPath h cur P).1 0 d = some x) ∧
    (∀ n, n < (VyosConfigTree.addPath h cur P).1.length →
      (node (VyosConfigTree.addPath h cur P).1 n).children ≠ some []) := by
  have hcl : cur < h.length := walk_lt h 0 cur cp hwf h0 hcur
  obtain ⟨_, _, _, a4, a5, _⟩ := addPath_spec h cur P hwf hcl
  have hmono : ∀ q x, walk h 0 q = some x →
      walk (VyosConfigTree.addPath h cur P).1 0 q = some x :=
    fun q x hw => walk_mono h _ a5 0 x q hw
  have hnew : walk (VyosConfigTree.addPath h cur P).1 0 (cp ++ P) =
      some (VyosConfigTree.addPath h cur P).2 := by
    rw [walk_append, hmono cp cur hcur]
    exact a4
  refine ⟨hmono, hnew, ?_, ?_, addPath_children_ne h cur P hwf hcl hC⟩
  · intro q x hq hw
    rcases addPath_walk_from h cur cp P hwf h0 hroot hcur q x hw with h1 | ⟨_, h1⟩
    · obtain ⟨d, hd, hpre⟩ := hA q x hq h1
      exact ⟨d, List.mem_append_left _ hd, hpre⟩
    · exact ⟨cp ++ P, List.mem_append_right _ (List.mem_singleton.mpr rfl), h1⟩
  · intro d hd
    rcases List.mem_append.mp hd with h1 | h1
    · obtain ⟨x, hx⟩ := hB d h1
      exact ⟨x, hmono d x hx⟩
    · rw [List.mem_singleton.mp h1]
      exact ⟨_, hnew⟩

theorem addPath_pair (h : Heap) (cur : Ptr) (k v : String) :
    VyosConfigTree.addPath h cur [k, v] = addNode (addNode h cur k).1 (addNode h cur k).2 v := rfl

theorem addPath_single (h : Heap) (cur : Ptr) (k : String) :
    VyosConfigTree.addPath h cur [k] = addNode h cur k := rfl

/-- A round of the loop on a line that opens a block. -/
theorem parseStep_open_eq (st : ParseState) (l rest : List String) (hl : ∀ w ∈ l, w ≠ "\n")
    (h1 : 2 ≤ l.length) (h2 : l.getLastD "" = "\x7b") :
    parseStep st (l ++ "\n" :: rest) = Except.ok (l.length,
      ParseState.mk (VyosConfigTree.addPath st.heap st.currentNode l.dropLast).1
        (VyosConfigTree.addPath st.heap st.currentNode l.dropLast).2
        (st.currentNode :: st.tstack)) := by
  by_cases hlen : l.length = 2
  · have hmt : matchToken (l ++ "\n" :: rest) =
        Except.ok (l.length, role.ROOT, [l.headD ""], "") := by
      unfold matchToken
      simp only [takeWhile_line l rest hl]
      rw [if_pos ⟨hlen, h2⟩]
    have hd : l.dropLast = [l.headD ""] := by
      match l, hlen with
      | [a, b], _ => rfl
    unfold parseStep
    rw [hmt, hd]
    rfl
  · have hmt : matchToken (l ++ "\n" :: rest) =
        Except.ok (l.length, role.ROOT_ATTRIBUTE, l.dropLast, "") := by
      unfold matchToken
      simp only [takeWhile_line l rest hl]
      rw [if_neg (fun hh => hlen hh.1), if_pos ⟨by omega, h2⟩]
    unfold parseStep
    rw [hmt]
    simp only
    rw [attributeLoop_eq_addPath]
    rfl

/-- A round of the loop on a leaf line. -/
theorem parseStep_leaf_eq (st : ParseState) (l rest : List String) (hl : ∀ w ∈ l, w ≠ "\n")
    (h1 : 2 ≤ l.length) (h2 : l.getLastD "" ≠ "\x7b") (h3 : l.getLastD "" ≠ "\x7d") :
    parseStep st (l ++ "\n" :: rest) = Except.ok (l.length,
      ParseState.mk
        (VyosConfigTree.addPath st.heap st.currentNode [l.headD "", stringsJoin l.tail " "]).1
        st.currentNode st.tstack) := by
  unfold parseStep
  rw [matchToken_leaf l rest hl h1 h2 h3]
  rfl

/-- A round of the loop on a closing brace with nothing on the stack. -/
theorem parseStep_close_empty (st : ParseState) (rest : List String) (hs : st.tstack = []) :
    parseStep st ("\x7d" :: "\n" :: rest) = Except.error Failure.emptyStack := by
  unfold parseStep
  rw [matchToken_close, hs]
  rfl

/-- A line is blank, malformed, the closing brace, a line that opens a block, or
a leaf line. -/
theorem line_cases (l : List String) :
    l = [] ∨ Malformed l ∨ l = ["\x7d"] ∨ (2 ≤ l.length ∧ l.getLastD "" = "\x7b") ∨
      (2 ≤ l.length ∧ l.getLastD "" ≠ "\x7b" ∧ l.getLastD "" ≠ "\x7d") := by
  by_cases h0 : l = []
  · exact Or.inl h0
  · right
    have hpos : 1 ≤ l.length := by
      have : l.length ≠ 0 := fun hh => h0 (List.length_eq_zero.mp hh)
      omega
    by_cases h1 : l.length = 1
    · by_cases hc : l = ["\x7d"]
      · exact Or.inr (Or.inl hc)
      · exact Or.inl (Or.inl ⟨h1, hc⟩)
    · have h2 : 2 ≤ l.length := by omega
      by_cases hb : l.getLastD "" = "\x7b"
      · exact Or.inr (Or.inr (Or.inl ⟨h2, hb⟩))
      · by_cases hcl : l.getLastD "" = "\x7d"
        · exact Or.inl (Or.inr ⟨h2, hcl⟩)
        · exact Or.inr (Or.inr (Or.inr ⟨h2, hb, hcl⟩))

theorem pathStep_blank (ps : PathState) : pathStep ps [] = ps := by
  simp [pathStep]

theorem pathStep_open (ps : PathState) (l : List String) (h1 : 2 ≤ l.length)
    (h2 : l.getLastD "" = "\x7b") :
    pathStep ps l = { cur := ps.cur ++ l.dropLast, stack := ps.cur :: ps.stack } := by
  have hne : l ≠ ["\x7d"] := fun hh => by rw [hh] at h1; simp at h1
  unfold pathStep
  rw [if_neg hne, if_pos ⟨h1, h2⟩]

theorem pathStep_leaf (ps : PathState) (l : List String) (h1 : 2 ≤ l.length)
    (h2 : l.getLastD "" ≠ "\x7b") : pathStep ps l = ps := by
  have hne : l ≠ ["\x7d"] := fun hh => by rw [hh] at h1; simp at h1
  unfold pathStep
  rw [if_neg hne, if_neg (fun hh => h2 hh.2)]

theorem linePath_open (cur l : List String) (h1 : 2 ≤ l.length) (h2 : l.getLastD "" = "\x7b") :
    linePath cur l = some (cur ++ l.dropLast) := by
  unfold linePath
  rw [if_pos ⟨h1, h2⟩]

theorem linePath_leaf (cur l : List String) (h1 : 2 ≤ l.length) (h2 : l.getLastD "" ≠ "\x7b")
    (h3 : l.getLastD "" ≠ "\x7d") :
    linePath cur l = some (cur ++ [l.headD "", stringsJoin l.tail " "]) := by
  unfold linePath
  rw [if_neg (fun hh => h2 hh.2), if_pos ⟨h1, h3⟩]

theorem linePath_short (cur l : List String) (h1 : l.length < 2) : linePath cur l = none := by
  unfold linePath
  rw [if_neg (fun hh => by omega), if_neg (fun hh => by omega)]

/-- A round of the loop of `Parse` on a line keeps the invariant on paths, and
moves the index by the length of the line (by 1 on a blank line). -/
theorem parseStep_paths (st st2 : ParseState) (ps : PathState) (D : List (List String))
    (l rest : List String) (o : Nat) (hinv : PathInv st ps D) (hl : ∀ w ∈ l, w ≠ "\n")
    (hstep : parseStep st (l ++ "\n" :: rest) = Except.ok (o, st2)) :
    o = (if l = [] then 1 else l.length) ∧
    PathInv st2 (pathStep ps l) (D ++ (linePath ps.cur l).toList) := by
  have hpinv : ParseInv st2 := parseStep_inv st st2 _ o hinv.1 hstep
  obtain ⟨⟨hh, hcurl, hstack, hpos, hroot⟩, hcur, hst, hA, hB, hC⟩ := hinv
  rcases line_cases l with h0 | hm | hc | ⟨h1, h2⟩ | ⟨h1, h2, h3⟩
  · subst h0
    rw [List.nil_append, parseStep_blank] at hstep
    simp only [Except.ok.injEq, Prod.mk.injEq] at hstep
    rw [← hstep.1, ← hstep.2, pathStep_blank, linePath_short _ _ (by simp)]
    simp only [if_true, Option.toList, List.append_nil]
    exact ⟨trivial, ⟨hh, hcurl, hstack, hpos, hroot⟩, hcur, hst, hA, hB, hC⟩
  · rw [parseStep_malformed st l rest hl hm] at hstep
    cases hstep
  · subst hc
    have hlp : linePath ps.cur ["\x7d"] = none := linePath_short _ _ (by simp)
    rw [hlp]
    simp only [Option.toList, List.append_nil]
    cases hts : st.tstack with
    | nil =>
      have := parseStep_close_empty st rest hts
      rw [show ["\x7d"] ++ "\n" :: rest = "\x7d" :: "\n" :: rest from rfl, this] at hstep
      cases hstep
    | cons top more =>
      rw [show ["\x7d"] ++ "\n" :: rest = "\x7d" :: "\n" :: rest from rfl,
        parseStep_close st top more rest hts] at hstep
      simp only [Except.ok.injEq, Prod.mk.injEq] at hstep
      rw [hts] at hst
      cases hps : ps.stack with
      | nil => rw [hps] at hst; cases hst
      | cons p ps2 =>
        rw [hps] at hst
        rw [List.forall₂_cons] at hst
        have hpe : pathStep ps ["\x7d"] = { cur := p, stack := ps2 } := by
          unfold pathStep
          rw [if_pos rfl, hps]
        rw [hpe, ← hstep.1, ← hstep.2]
        refine ⟨by simp, ?_, hst.1, hst.2, hA, hB, hC⟩
        rw [← hstep.2] at hpinv
        exact hpinv
  · rw [parseStep_open_eq st l rest hl h1 h2] at hstep
    simp only [Except.ok.injEq, Prod.mk.injEq] at hstep
    have hne : l ≠ [] := fun hh => by rw [hh] at h1; simp at h1
    obtain ⟨b1, b2, b3, b4, b5⟩ :=
      addPath_paths st.heap st.currentNode ps.cur l.dropLast D hh hpos hroot hcur hA hB hC
    rw [pathStep_open ps l h1 h2, linePath_open ps.cur l h1 h2, ← hstep.1, ← hstep.2]
    refine ⟨by rw [if_neg hne], ?_, b2, ?_, b3, b4, b5⟩
    · rw [← hstep.2] at hpinv
      exact hpinv
    · exact List.Forall₂.cons (b1 _ _ hcur) (hst.imp (fun _ _ hw => b1 _ _ hw))
  · rw [parseStep_leaf_eq st l rest hl h1 h2 h3] at hstep
    simp only [Except.ok.injEq, Prod.mk.injEq] at hstep
    have hne : l ≠ [] := fun hh => by rw [hh] at h1; simp at h1
    obtain ⟨b1, b2, b3, b4, b5⟩ :=
      addPath_paths st.heap st.currentNode ps.cur [l.headD "", stringsJoin l.tail " "] D
        hh hpos hroot hcur hA hB hC
    rw [pathStep_leaf ps l h1 h2, linePath_leaf ps.cur l h1 h2 h3, ← hstep.1, ← hstep.2]
    refine ⟨by rw [if_neg hne], ?_, b1 _ _ hcur, hst.imp (fun _ _ hw => b1 _ _ hw), b3, b4, b5⟩
    rw [← hstep.2] at hpinv
    exact hpinv

/-- The loop of `Parse` over the lines of a text keeps the invariant on paths. -/
theorem parseLoop_paths (words : List String) (lines : List (List String)) :
    ∀ (fuel i : Nat) (st st2 : ParseState) (ps : PathState) (D : List (List String)),
      words.drop i = (lines.map (fun l => l ++ ["\n"])).flatten →
      (∀ l ∈ lines, ∀ w ∈ l, w ≠ "\n") →
      PathInv st ps D →
      parseLoop words fuel i st = Except.ok st2 →
      PathInv st2 (lines.foldl pathStep ps) (D ++ addedPaths ps lines) := by
  induction lines with
  | nil =>
    intro fuel i st st2 ps D hdrop _ hinv hloop
    have hlen := congrArg List.length hdrop
    simp only [List.length_drop, List.map_nil, List.flatten_nil, List.length_nil] at hlen
    have hi : ¬ i < words.length := by omega
    rw [parseLoop_done words fuel i st hi] at hloop
    simp only [Except.ok.injEq] at hloop
    rw [← hloop]
    simpa [addedPaths] using hinv
  | cons l ls ih =>
    intro fuel i st st2 ps D hdrop hnl hinv hloop
    have hdrop2 : words.drop i = l ++ "\n" :: (ls.map (fun l => l ++ ["\n"])).flatten := by
      rw [hdrop]; simp
    have hlen := congrArg List.length hdrop2
    simp only [List.length_drop, List.length_append, List.length_cons] at hlen
    have hnl2 : ∀ l2 ∈ ls, ∀ w ∈ l2, w ≠ "\n" := fun l2 h2 => hnl l2 (List.mem_cons_of_mem _ h2)
    have hnl1 : ∀ w ∈ l, w ≠ "\n" := hnl l (List.mem_cons_self _ _)
    have hi : i < words.length := by omega
    cases fuel with
    | zero =>
      unfold parseLoop at hloop
      rw [if_pos hi] at hloop
      cases hloop
    | succ f =>
      rw [parseLoop_succ words f i st hi, hdrop2] at hloop
      cases hs : parseStep st (l ++ "\n" :: (ls.map (fun l => l ++ ["\n"])).flatten) with
      | error e => rw [hs] at hloop; cases hloop
      | ok res =>
        obtain ⟨o, st1⟩ := res
        rw [hs] at hloop
        simp only at hloop
        obtain ⟨ho, hinv1⟩ := parseStep_paths st st1 ps D l _ o hinv hnl1 hs
        have hres : PathInv st2 (ls.foldl pathStep (pathStep ps l))
            (D ++ (linePath ps.cur l).toList ++ addedPaths (pathStep ps l) ls) := by
          by_cases hl0 : l = []
          · subst hl0
            rw [if_pos rfl] at ho
            subst ho
            have hd1 := drop_add_of_drop_eq words ["\n"] _ i hdrop2
            exact ih f (i + 1) st1 st2 _ _ hd1 hnl2 hinv1 hloop
          · rw [if_neg hl0] at ho
            subst ho
            have hd1 := drop_add_of_drop_eq words l _ i hdrop2
            have hi1 : i + l.length < words.length :=
              lt_length_of_drop_cons words _ "\n" _ hd1
            cases f with
            | zero =>
              unfold parseLoop at hloop
              rw [if_pos hi1] at hloop
              cases hloop
            | succ f2 =>
              rw [parseLoop_newline words _ f2 (i + l.length) st1 hd1] at hloop
              have hd2 := drop_add_of_drop_eq words ["\n"] _ (i + l.length) hd1
              exact ih f2 (i + l.length + 1) st1 st2 _ _ hd2 hnl2 hinv1 hloop
        simpa [addedPaths, List.append_assoc] using hres

theorem PathInv_start : PathInv parseStart { cur := [], stack := [] } [] := by
  refine ⟨⟨by decide, by decide, by decide, by decide, by decide⟩, rfl, List.Forall₂.nil,
    ?_, ?_, ?_⟩
  · intro q x hq hw
    match q, hq with
    | c :: cs, _ =>
      simp [walk, getNode, node, parseStart, zeroNode] at hw
  · intro d hd
    cases hd
  · intro n hn
    have : n = 0 := by
      simp [parseStart] at hn
      exact hn
    subst this
    simp [node, parseStart, zeroNode]

/-- The paths that resolve in the tree `Parse` returns: every path the lines of
the text add resolves, a path that resolves is made of first segments of an added
path, and no child list is empty without being nil. -/
theorem Parse_paths (text : String) (t : VyosConfigTree) (hp : Parse text = Except.ok t) :
    t.Root = some 0 ∧
    (∀ q x, q ≠ [] → walk t.heap 0 q = some x → ∃ d ∈ textPaths text, q <+: d) ∧
    (∀ d ∈ textPaths text, ∃ x, walk t.heap 0 d = some x) ∧
    (∀ n, n < t.heap.length → (node t.heap n).children ≠ some []) := by
  unfold Parse at hp
  simp only at hp
  cases hl : parseLoop (parseWords text) (parseWords text).length 0 parseStart with
  | error e => rw [hl] at hp; cases hp
  | ok st =>
    rw [hl] at hp
    have hinv := parseLoop_paths (parseWords text) (lineTokens text) _ 0 parseStart st
      { cur := [], stack := [] } []
      (by rw [List.drop_zero]; exact parseWords_eq text)
      (fun l hl w hw => by
        unfold lineTokens at hl
        obtain ⟨s, _, hs⟩ := List.mem_map.mp hl
        rw [← hs] at hw
        exact scanWords_ne_newline s w hw)
      PathInv_start hl
    obtain ⟨_, _, _, hA, hB, hC⟩ := hinv
    rw [← Except.ok.inj hp]
    rw [List.nil_append] at hA hB
    exact ⟨rfl, hA, hB, hC⟩

theorem prefix_snoc_eq (q : List String) (w v : String) (h : q ++ [w] <+: q ++ [v]) : w = v := by
  obtain ⟨r, hr⟩ := h
  have hlen := congrArg List.length hr
  simp only [List.length_append, List.length_cons, List.length_nil] at hlen
  have hr0 : r = [] := List.length_eq_zero.mp (by omega)
  subst hr0
  rw [List.append_nil] at hr
  have := List.append_cancel_left hr
  simpa using this

theorem not_prefix_longer (q r d : List String) (hr : r ≠ []) (h : q ++ r <+: d) : d ≠ q := by
  intro hd
  subst hd
  have := h.length_le
  simp only [List.length_append] at this
  have : r.length = 0 := by omega
  exact hr (List.length_eq_zero.mp this)

theorem eq_singleton_of_all_named (h : Heap) (L : List Ptr) (x : Ptr) (v : String)
    (hnd : (L.map (fun c => (node h c).name)).Nodup) (hx : x ∈ L)
    (hall : ∀ c ∈ L, (node h c).name = v) : L = [x] := by
  match L, hnd, hx, hall with
  | [a], _, hx, _ =>
    rw [List.mem_singleton] at hx
    rw [hx]
  | a :: b :: rest, hnd, _, hall =>
    exfalso
    simp only [List.map_cons, List.nodup_cons, List.mem_cons, not_or] at hnd
    apply hnd.1.1
    rw [hall a (List.mem_cons_self _ _), hall b (List.mem_cons_of_mem _ (List.mem_cons_self _ _))]

/-- A node has no index entry once its index is nil. -/
theorem getNode_of_index_none (h : Heap) (c : Ptr) (j : String)
    (hi : (node h c).childrenIndex = none) : getNode h c j = none := by
  unfold getNode
  rw [hi]

/-- In a heap whose resolving paths are those of `D`: when `q ++ [v]` is in `D`
and every path of `D` that continues `q` is `q` itself or `q ++ [v]`, the node at
`q` is a key node with the value `v`. -/
theorem keyNode_of_paths (h : Heap) (D : List (List String)) (q : List String) (v : String)
    (hwf : HeapWF h) (h0 : 0 < h.length)
    (hA : ∀ q x, q ≠ [] → walk h 0 q = some x → ∃ d ∈ D, q <+: d)
    (hB : ∀ d ∈ D, ∃ x, walk h 0 d = some x)
    (hC : ∀ n, n < h.length → (node h n).children ≠ some [])
    (hin : q ++ [v] ∈ D) (honly : ∀ d ∈ D, q <+: d → d = q ∨ d = q ++ [v]) :
    ∃ n, walk h 0 q = some n ∧ Value h n = Except.ok v := by
  obtain ⟨x, hx⟩ := hB _ hin
  rw [walk_snoc] at hx
  cases hq : walk h 0 q with
  | none => rw [hq] at hx; cases hx
  | some n =>
    rw [hq] at hx
    have hg : getNode h n v = some x := hx
    have hn : n < h.length := walk_lt h 0 n q hwf h0 hq
    obtain ⟨hxl, _, hxname, hxmem⟩ := getNode_sound h n x v hwf hn hg
    refine ⟨n, rfl, ?_⟩
    -- every child of `n` is named `v`
    have hall : ∀ c ∈ (node h n).children.getD [], (node h c).name = v := by
      intro c hc
      have hgc : getNode h n (node h c).name = some c :=
        (getNode_iff_mem h n c _ hwf hn).mpr ⟨hc, rfl⟩
      have hwc : walk h 0 (q ++ [(node h c).name]) = some c := by
        rw [walk_snoc, hq]; exact hgc
      obtain ⟨d, hd, hpre⟩ := hA _ c (by simp) hwc
      have hqd : q <+: d := (List.prefix_append q _).trans hpre
      rcases honly d hd hqd with h1 | h1
      · exact absurd h1 (not_prefix_longer q _ d (by simp) hpre)
      · rw [h1] at hpre
        exact prefix_snoc_eq q _ v hpre
    have hL : (node h n).children.getD [] = [x] :=
      eq_singleton_of_all_named h _ x v (hwf n hn).2.2.2 hxmem hall
    have hch : (node h n).children = some [x] := by
      cases hc : (node h n).children with
      | none => rw [hc] at hL; cases hL
      | some L => rw [hc] at hL; exact congrArg some hL
    -- `x` has no children
    have hxc : (node h x).children = none := by
      cases hc : (node h x).children with
      | none => rfl
      | some L2 =>
        exfalso
        match L2, hc with
        | [], hc => exact hC x hxl hc
        | c2 :: more, hc =>
          have hmem : c2 ∈ (node h x).children.getD [] := by rw [hc]; exact List.mem_cons_self _ _
          have hg2 : getNode h x (node h c2).name = some c2 :=
            (getNode_iff_mem h x c2 _ hwf hxl).mpr ⟨hmem, rfl⟩
          have hw2 : walk h 0 (q ++ [v, (node h c2).name]) = some c2 := by
            rw [show q ++ [v, (node h c2).name] = (q ++ [v]) ++ [(node h c2).name] by simp,
              walk_snoc, walk_snoc, hq]
            show (getNode h n v).bind (fun y => getNode h y (node h c2).name) = some c2
            rw [hg]
            exact hg2
          obtain ⟨d, hd, hpre⟩ := hA _ c2 (by simp) hw2
          have hqd : q <+: d := (List.prefix_append q _).trans hpre
          have hlen := hpre.length_le
          simp only [List.length_append, List.length_cons, List.length_nil] at hlen
          rcases honly d hd hqd with h1 | h1
          · rw [h1] at hlen; omega
          · rw [h1] at hlen
            simp only [List.length_append, List.length_cons, List.length_nil] at hlen
            omega
    have hxi : (node h x).childrenIndex = none := (hwf x hxl).1 hxc
    rw [Value_of_children h n x hch (by unfold isValueNode; rw [hxc, hxi]; rfl), hxname]

/-- The converse: the path of a key node and its value are in `D`, and no path of
`D` continues the path of the key node in another way. -/
theorem paths_of_keyNode (h : Heap) (D : List (List String)) (q : List String) (v : String)
    (n : Ptr) (hwf : HeapWF h) (h0 : 0 < h.length)
    (hA : ∀ q x, q ≠ [] → walk h 0 q = some x → ∃ d ∈ D, q <+: d)
    (hB : ∀ d ∈ D, ∃ x, walk h 0 d = some x)
    (hw : walk h 0 q = some n) (hv : Value h n = Except.ok v) :
    q ++ [v] ∈ D ∧ ∀ d ∈ D, q <+: d → d = q ∨ d = q ++ [v] := by
  have hn : n < h.length := walk_lt h 0 n q hwf h0 hw
  obtain ⟨c, hch, hcc, hci, hcname⟩ := (Value_ok_iff h n v).mp hv
  obtain ⟨c1, hch1, hg⟩ := getNode_of_Value h n v hwf hn hv
  have hc1 : c1 = c := by
    rw [hch] at hch1
    simpa using hch1.symm
  subst hc1
  -- a path of `D` that continues `q` stops at `c1`
  have hstop : ∀ d ∈ D, ∀ rest, d = q ++ rest → rest = [] ∨ rest = [v] := by
    intro d hd rest hrest
    obtain ⟨y, hy⟩ := hB d hd
    rw [hrest, walk_append, hw] at hy
    have hy2 : walk h n rest = some y := hy
    match rest, hy2 with
    | [], _ => exact Or.inl rfl
    | j :: rest2, hy =>
      right
      simp only [walk] at hy
      cases hgj : getNode h n j with
      | none => rw [hgj] at hy; cases hy
      | some c2 =>
        rw [hgj] at hy
        simp only at hy
        obtain ⟨_, _, hname2, hmem2⟩ := getNode_sound h n c2 j hwf hn hgj
        rw [hch] at hmem2
        simp only [Option.getD_some, List.mem_singleton] at hmem2
        subst hmem2
        have hj : j = v := by rw [← hname2, hcname]
        subst hj
        match rest2, hy with
        | [], _ => rfl
        | j2 :: rest3, hy =>
          simp only [walk] at hy
          rw [getNode_of_index_none h c2 j2 hci] at hy
          cases hy
  have hwv : walk h 0 (q ++ [v]) = some c1 := by
    rw [walk_snoc, hw]; exact hg
  obtain ⟨d0, hd0, r0, hr0⟩ := hA _ c1 (by simp) hwv
  have hd0eq : d0 = q ++ [v] := by
    rcases hstop d0 hd0 ([v] ++ r0) (by rw [← hr0]; simp) with h1 | h1
    · cases h1
    · have : r0 = [] := by simpa using h1
      rw [← hr0, this]; simp
  refine ⟨hd0eq ▸ hd0, ?_⟩
  intro d hd hpre
  obtain ⟨rest, hrest⟩ := hpre
  rcases hstop d hd rest hrest.symm with h1 | h1
  · left; rw [← hrest, h1]; simp
  · right; rw [← hrest, h1]

/-- What `GetValue` finds on a well-formed tree: the value of the key node the
path resolves to. -/
theorem GetValue_found_iff (t : VyosConfigTree) (hwf : WF t) (key v : String) :
    (GetValue t key).1 = Except.ok (v, true) ↔
      ∃ n, resolve t key = some n ∧ Value t.heap n = Except.ok v := by
  unfold GetValue
  rw [Get_eq t hwf key]
  cases hr : resolve t key with
  | none => simp
  | some n =>
    simp only
    have hheap : t.init.heap = t.heap := by
      obtain ⟨⟨r, hroot, _, _⟩, _⟩ := hwf
      rw [init_of_root t r hroot]
    rw [hheap]
    cases hv : Value t.heap n with
    | error e =>
      constructor
      · intro hh; cases hh
      · rintro ⟨m, hm, hm2⟩
        cases hm
        rw [hv] at hm2; cases hm2
    | ok w =>
      constructor
      · intro hh
        simp only [Except.ok.injEq, Prod.mk.injEq, and_true] at hh
        exact ⟨n, rfl, by rw [hv, hh]⟩
      · rintro ⟨m, hm, hm2⟩
        cases hm
        rw [hv] at hm2
        cases hm2
        rfl

/-- What `GetValue` finds on the tree parsed from a text, by the paths the lines
of the text add: a value `v` for the path `q` exactly when a line adds `q` with
`v` below it and no line adds a path that continues `q` in another way. -/
theorem GetValue_parsed (text : String) (t : VyosConfigTree) (hp : Parse text = Except.ok t)
    (key v : String) :
    (GetValue t key).1 = Except.ok (v, true) ↔
      (stringsSplit key ' ' ++ [v] ∈ textPaths text ∧
        ∀ d ∈ textPaths text, stringsSplit key ' ' <+: d →
          d = stringsSplit key ' ' ∨ d = stringsSplit key ' ' ++ [v]) := by
  have hwf := WF_Parse text t hp
  obtain ⟨hroot, hA, hB, hC⟩ := Parse_paths text t hp
  obtain ⟨⟨r, hr, hl, _⟩, hh⟩ := id hwf
  rw [hroot] at hr
  cases hr
  rw [GetValue_found_iff t hwf]
  unfold resolve
  rw [hroot]
  simp only
  constructor
  · rintro ⟨n, hw, hv⟩
    exact paths_of_keyNode t.heap _ _ v n hh hl hA hB hw hv
  · rintro ⟨hin, honly⟩
    exact keyNode_of_paths t.heap _ _ v hh hl hA hB hC hin honly

/-- No word of `bufio.ScanWords` holds a blank. -/
theorem scanWords_no_space (s w : String) (hw : w ∈ scanWords s) : ' ' ∉ w.data := by
  intro hh
  have := scanWordsAux_mem s.data [] 0 (by simp) w hw ' ' hh
  exact absurd this (by decide)

theorem lineTokens_no_space (text : String) (l : List String) (hl : l ∈ lineTokens text)
    (w : String) (hw : w ∈ l) : ' ' ∉ w.data := by
  unfold lineTokens at hl
  obtain ⟨s, _, hs⟩ := List.mem_map.mp hl
  rw [← hs] at hw
  exact scanWords_no_space s w hw

theorem pathStep_tokens (S : String → Prop) (ps : PathState) (l : List String)
    (hcur : ∀ w ∈ ps.cur, S w) (hstack : ∀ p ∈ ps.stack, ∀ w ∈ p, S w) (hl : ∀ w ∈ l, S w) :
    (∀ w ∈ (pathStep ps l).cur, S w) ∧ (∀ p ∈ (pathStep ps l).stack, ∀ w ∈ p, S w) := by
  unfold pathStep
  split_ifs with h1 h2
  · cases hs : ps.stack with
    | nil => exact ⟨hcur, hstack⟩
    | cons top rest =>
      simp only
      rw [hs] at hstack
      exact ⟨hstack top (List.mem_cons_self _ _),
        fun p hp => hstack p (List.mem_cons_of_mem _ hp)⟩
  · refine ⟨?_, ?_⟩
    · intro w hw
      rcases List.mem_append.mp hw with h | h
      · exact hcur w h
      · exact hl w (List.mem_of_mem_dropLast h)
    · intro p hp
      rcases List.mem_cons.mp hp with h | h
      · rw [h]; exact hcur
      · exact hstack p h
  · exact ⟨hcur, hstack⟩

theorem foldl_pathStep_tokens (S : String → Prop) (lines : List (List String)) :
    ∀ (ps : PathState), (∀ w ∈ ps.cur, S w) → (∀ p ∈ ps.stack, ∀ w ∈ p, S w) →
      (∀ l ∈ lines, ∀ w ∈ l, S w) →
      (∀ w ∈ (lines.foldl pathStep ps).cur, S w) := by
  induction lines with
  | nil => intro ps hcur _ _; exact hcur
  | cons l ls ih =>
    intro ps hcur hstack hl
    obtain ⟨h1, h2⟩ := pathStep_tokens S ps l hcur hstack (hl l (List.mem_cons_self _ _))
    exact ih (pathStep ps l) h1 h2 (fun l2 hl2 => hl l2 (List.mem_cons_of_mem _ hl2))

/-- The names on the path of the open block are tokens of the lines read. -/
theorem openPath_tokens (S : String → Prop) (lines : List (List String))
    (hl : ∀ l ∈ lines, ∀ w ∈ l, S w) : ∀ w ∈ openPath lines, S w :=
  foldl_pathStep_tokens S lines _ (fun _ h => by cases h) (fun _ h => by cases h) hl

theorem addedPaths_append (a b : List (List String)) :
    ∀ ps : PathState,
      addedPaths ps (a ++ b) = addedPaths ps a ++ addedPaths (a.foldl pathStep ps) b := by
  induction a with
  | nil => intro ps; rfl
  | cons l ls ih =>
    intro ps
    have hc : (l :: ls) ++ b = l :: (ls ++ b) := rfl
    rw [hc]
    simp only [addedPaths, List.foldl_cons, ih, List.append_assoc]

/-- The path a leaf line of two tokens adds is among the paths of the text. -/
theorem leaf_mem_textPaths (text : String) (pre post : List (List String)) (k v : String)
    (hline : lineTokens text = pre ++ [k, v] :: post) (h1 : v ≠ "\x7b") (h2 : v ≠ "\x7d") :
    openPath pre ++ [k, v] ∈ textPaths text := by
  unfold textPaths
  rw [hline, addedPaths_append]
  apply List.mem_append_right
  simp only [addedPaths]
  apply List.mem_append_left
  have : linePath (pre.foldl pathStep { cur := [], stack := [] }).cur [k, v]
      = some (openPath pre ++ [k, v]) := by
    rw [linePath_leaf _ [k, v] (by simp) h1 h2]
    rfl
  rw [this]
  simp

/-! ## Texts of top-level blocks: what both parsers make of them -/

theorem mem_blockLines (b : Block) (l : List String) :
    l ∈ blockLines b ↔ l = [b.1, "\x7b"] ∨ (∃ e ∈ b.2, l = [e.1, e.2]) ∨ l = ["\x7d"] := by
  unfold blockLines
  simp only [List.mem_cons, List.mem_append, List.mem_map, List.mem_singleton, List.not_mem_nil,
    or_false]
  constructor
  · rintro (h | ⟨e, he, h⟩ | h)
    · exact Or.inl h
    · exact Or.inr (Or.inl ⟨e, he, h.symm⟩)
    · exact Or.inr (Or.inr h)
  · rintro (h | ⟨e, he, h⟩ | h)
    · exact Or.inl h
    · exact Or.inr (Or.inl ⟨e, he, h.symm⟩)
    · exact Or.inr (Or.inr h)

theorem mem_flatLines (blocks : List Block) (l : List String) :
    l ∈ flatLines blocks ↔ ∃ be ∈ blocks, l ∈ blockLines be := by
  unfold flatLines
  simp only [List.mem_flatten, List.mem_map]
  constructor
  · rintro ⟨ls, ⟨be, hbe, rfl⟩, hl⟩
    exact ⟨be, hbe, hl⟩
  · rintro ⟨be, hbe, hl⟩
    exact ⟨_, ⟨be, hbe, rfl⟩, hl⟩

theorem mem_flatPaths (blocks : List Block) (d : List String) :
    d ∈ flatPaths blocks ↔
      ∃ be ∈ blocks, d = [be.1] ∨ ∃ e ∈ be.2, d = [be.1, e.1, e.2] := by
  unfold flatPaths blockPaths
  simp only [List.mem_flatten, List.mem_map]
  constructor
  · rintro ⟨ls, ⟨be, hbe, rfl⟩, hl⟩
    refine ⟨be, hbe, ?_⟩
    rcases List.mem_cons.mp hl with h | h
    · exact Or.inl h
    · obtain ⟨e, he, h2⟩ := List.mem_map.mp h
      exact Or.inr ⟨e, he, h2.symm⟩
  · rintro ⟨be, hbe, h | ⟨e, he, h⟩⟩
    · exact ⟨_, ⟨be, hbe, rfl⟩, by rw [h]; exact List.mem_cons_self _ _⟩
    · exact ⟨_, ⟨be, hbe, rfl⟩, by
        rw [h]; exact List.mem_cons_of_mem _ (List.mem_map.mpr ⟨e, he, rfl⟩)⟩

/-- With no key twice, the value of the last statement with a key is the value of
the statement with that key. -/
theorem lastEntry_iff_mem (es : List (String × String)) (hnd : (es.map Prod.fst).Nodup)
    (k v : String) : lastEntry es k = some v ↔ (k, v) ∈ es := by
  induction es generalizing v with
  | nil => simp [lastEntry]
  | cons e es ih =>
    obtain ⟨k0, v0⟩ := e
    rw [List.map_cons, List.nodup_cons] at hnd
    simp only [lastEntry, List.mem_cons, Prod.mk.injEq]
    cases hle : lastEntry es k with
    | some w =>
      have hmem : (k, w) ∈ es := (ih hnd.2 w).mp hle
      have hne : k ≠ k0 := by
        intro hh
        apply hnd.1
        rw [← hh]
        exact List.mem_map.mpr ⟨(k, w), hmem, rfl⟩
      simp only [Option.some.injEq]
      constructor
      · intro hw; right; rw [← hw]; exact hmem
      · rintro (⟨h1, _⟩ | h2)
        · exact absurd h1 hne
        · have := (ih hnd.2 v).mpr h2
          rw [hle] at this
          exact Option.some.inj this
    | none =>
      simp only
      constructor
      · intro hh
        split_ifs at hh with hk
        simp only [Option.some.injEq] at hh
        exact Or.inl ⟨hk.symm, hh.symm⟩
      · rintro (⟨h1, h2⟩ | h2)
        · rw [if_pos h1.symm, h2]
        · have := (ih hnd.2 v).mpr h2
          rw [hle] at this
          cases this

theorem eq_of_fst_eq {α : Type} (l : List (String × α)) (hnd : (l.map Prod.fst).Nodup)
    (a b : String × α) (ha : a ∈ l) (hb : b ∈ l) (h : a.1 = b.1) : a = b :=
  List.inj_on_of_nodup_map hnd ha hb h

/-- The paths of a text of top-level blocks that make `GetValue` find `v` at `q`
are those of a statement: `q` is the name of a block and a key of it. -/
theorem flatPaths_key (blocks : List Block) (hnames : (blocks.map Prod.fst).Nodup)
    (hkeys : ∀ be ∈ blocks, (be.2.map Prod.fst).Nodup) (q : List String) (hq : q ≠ [])
    (v : String) :
    (q ++ [v] ∈ flatPaths blocks ∧
      ∀ d ∈ flatPaths blocks, q <+: d → d = q ∨ d = q ++ [v]) ↔
    ∃ be ∈ blocks, ∃ k, q = [be.1, k] ∧ lastEntry be.2 k = some v := by
  constructor
  · rintro ⟨hin, _⟩
    obtain ⟨be, hbe, h1 | ⟨e, he, h1⟩⟩ := (mem_flatPaths blocks _).mp hin
    · exfalso
      have hlen := congrArg List.length h1
      simp only [List.length_append, List.length_cons, List.length_nil] at hlen
      exact hq (List.length_eq_zero.mp (by omega))
    · have hq2 : q = [be.1, e.1] ∧ v = e.2 := by
        have h2 : q ++ [v] = [be.1, e.1] ++ [e.2] := h1
        have hlen := congrArg List.length h2
        simp only [List.length_append, List.length_cons, List.length_nil] at hlen
        have hql : q.length = [be.1, e.1].length := by simp; omega
        obtain ⟨ha, hb⟩ := List.append_inj h2 hql
        exact ⟨ha, by simpa using hb⟩
      refine ⟨be, hbe, e.1, hq2.1, ?_⟩
      rw [lastEntry_iff_mem be.2 (hkeys be hbe), hq2.2]
      exact he
  · rintro ⟨be, hbe, k, hqk, hle⟩
    have hmem : (k, v) ∈ be.2 := (lastEntry_iff_mem be.2 (hkeys be hbe) k v).mp hle
    subst hqk
    refine ⟨(mem_flatPaths blocks _).mpr ⟨be, hbe, Or.inr ⟨(k, v), hmem, rfl⟩⟩, ?_⟩
    intro d hd hpre
    obtain ⟨be2, hbe2, h1 | ⟨e, he, h1⟩⟩ := (mem_flatPaths blocks _).mp hd
    · exfalso
      have := hpre.length_le
      rw [h1] at this
      simp at this
    · right
      rw [h1] at hpre
      obtain ⟨r, hr⟩ := hpre
      simp only [List.cons_append, List.nil_append, List.cons.injEq] at hr
      obtain ⟨hb, hk, _⟩ := hr
      have hbe_eq : be = be2 := eq_of_fst_eq blocks hnames be be2 hbe hbe2 hb
      subst hbe_eq
      have he_eq : (k, v) = e := eq_of_fst_eq be.2 (hkeys be hbe) (k, v) e hmem he hk
      rw [h1, ← he_eq]
      rfl

theorem closesMatched_append (a b : List (List String)) :
    ∀ d, closesMatched d (a ++ b) = (closesMatched d a && closesMatched (a.foldl depthAfter d) b) := by
  induction a with
  | nil => intro d; simp [closesMatched]
  | cons l ls ih =>
    intro d
    have hc : (l :: ls) ++ b = l :: (ls ++ b) := rfl
    rw [hc]
    simp only [closesMatched, List.foldl_cons, ih, Bool.and_assoc]

theorem depthAfter_leaf (d : Nat) (k v : String) (hv : v ≠ "\x7b") : depthAfter d [k, v] = d := by
  unfold depthAfter
  rw [if_neg (by simp), if_neg (fun hh => hv hh.2)]

theorem entries_depth (es : List (String × String)) (hv : ∀ e ∈ es, e.2 ≠ "\x7b") (d : Nat) :
    closesMatched d (es.map (fun e => [e.1, e.2])) = true ∧
      (es.map (fun e => [e.1, e.2])).foldl depthAfter d = d := by
  induction es with
  | nil => exact ⟨rfl, rfl⟩
  | cons e es ih =>
    obtain ⟨h1, h2⟩ := ih (fun e he => hv e (List.mem_cons_of_mem _ he))
    have hd := depthAfter_leaf d e.1 e.2 (hv e (List.mem_cons_self _ _))
    simp only [List.map_cons, closesMatched, List.foldl_cons, hd, h1, h2]
    simp

theorem block_depth (b : Block) (hv : ∀ e ∈ b.2, e.2 ≠ "\x7b") (d : Nat) :
    closesMatched d (blockLines b) = true ∧ (blockLines b).foldl depthAfter d = d := by
  obtain ⟨h1, h2⟩ := entries_depth b.2 hv (d + 1)
  have hopen : depthAfter d [b.1, "\x7b"] = d + 1 := by
    unfold depthAfter
    rw [if_neg (by simp), if_pos ⟨by simp, rfl⟩]
  have hclose : depthAfter (d + 1) ["\x7d"] = d := by
    unfold depthAfter
    rw [if_pos rfl]
    rfl
  unfold blockLines
  constructor
  · simp only [closesMatched, hopen, closesMatched_append, h1, h2]
    simp
  · simp only [List.foldl_cons, hopen, List.foldl_append, h2, List.foldl_nil, hclose]

theorem flat_depth (blocks : List Block) (hv : ∀ be ∈ blocks, ∀ e ∈ be.2, e.2 ≠ "\x7b")
    (d : Nat) :
    closesMatched d (flatLines blocks) = true ∧ (flatLines blocks).foldl depthAfter d = d := by
  induction blocks with
  | nil => exact ⟨rfl, rfl⟩
  | cons be bs ih =>
    obtain ⟨h1, h2⟩ := ih (fun be2 h2 => hv be2 (List.mem_cons_of_mem _ h2))
    obtain ⟨h3, h4⟩ := block_depth be (hv be (List.mem_cons_self _ _)) d
    unfold flatLines at h1 h2 ⊢
    simp only [List.map_cons, List.flatten_cons, closesMatched_append, List.foldl_append,
      h3, h4, h1, h2]
    simp

theorem closesMatched_filter (lines : List (List String)) :
    ∀ d, closesMatched d lines = closesMatched d (lines.filter (fun l => decide (l ≠ []))) := by
  induction lines with
  | nil => intro d; rfl
  | cons l ls ih =>
    intro d
    by_cases hl : l = []
    · subst hl
      have hf : ([] :: ls).filter (fun l => decide (l ≠ [])) =
          ls.filter (fun l => decide (l ≠ [])) := by simp [List.filter]
      have hd : depthAfter d [] = d := by simp [depthAfter]
      rw [hf, ← ih d]
      simp [closesMatched, hd]
    · have hf : (l :: ls).filter (fun l => decide (l ≠ [])) =
          l :: ls.filter (fun l => decide (l ≠ [])) := by simp [List.filter, hl]
      rw [hf]
      simp only [closesMatched, ih]

/-- `Parse` accepts a text whose lines, the blank ones apart, are those of
top-level blocks. -/
theorem Parse_flat (text : String) (blocks : List Block)
    (hlines : (lineTokens text).filter (fun l => decide (l ≠ [])) = flatLines blocks)
    (hvals : ∀ be ∈ blocks, ∀ e ∈ be.2, e.2 ≠ "\x7b" ∧ e.2 ≠ "\x7d") :
    ∃ t, Parse text = Except.ok t := by
  have hc : closesMatched 0 (lineTokens text) = true := by
    rw [closesMatched_filter, hlines]
    exact (flat_depth blocks (fun be hbe e he => (hvals be hbe e he).1) 0).1
  apply (Parse_outcome text hc).2
  rintro ⟨l, hl, hm⟩
  by_cases hl0 : l = []
  · subst hl0
    rcases hm with ⟨h1, _⟩ | ⟨h1, _⟩
    · simp at h1
    · simp at h1
  · have hmem : l ∈ flatLines blocks := by
      rw [← hlines]
      exact List.mem_filter.mpr ⟨hl, by simpa using hl0⟩
    obtain ⟨be, hbe, hb⟩ := (mem_flatLines blocks l).mp hmem
    rcases (mem_blockLines be l).mp hb with h1 | ⟨e, he, h1⟩ | h1
    · subst h1
      rcases hm with ⟨h2, _⟩ | ⟨_, h2⟩
      · simp at h2
      · simp at h2
    · subst h1
      rcases hm with ⟨h2, _⟩ | ⟨_, h2⟩
      · simp at h2
      · exact (hvals be hbe e he).2 h2
    · subst h1
      rcases hm with ⟨_, h2⟩ | ⟨h2, _⟩
      · exact h2 rfl
      · simp at h2

theorem addedPaths_filter (lines : List (List String)) :
    ∀ ps : PathState,
      addedPaths ps lines = addedPaths ps (lines.filter (fun l => decide (l ≠ []))) := by
  induction lines with
  | nil => intro ps; rfl
  | cons l ls ih =>
    intro ps
    by_cases hl : l = []
    · subst hl
      have hf : ([] :: ls).filter (fun l => decide (l ≠ [])) =
          ls.filter (fun l => decide (l ≠ [])) := by simp [List.filter]
      rw [hf, ← ih ps]
      simp only [addedPaths, pathStep_blank, linePath_short ps.cur [] (by simp), Option.toList,
        List.nil_append]
    · have hf : (l :: ls).filter (fun l => decide (l ≠ [])) =
          l :: ls.filter (fun l => decide (l ≠ [])) := by simp [List.filter, hl]
      rw [hf]
      simp only [addedPaths, ih]

theorem entries_paths (b : String) (es : List (String × String))
    (hv : ∀ e ∈ es, e.2 ≠ "\x7b" ∧ e.2 ≠ "\x7d") (stack : List (List String)) :
    addedPaths { cur := [b], stack := stack } (es.map (fun e => [e.1, e.2]))
      = es.map (fun e => [b, e.1, e.2]) ∧
    (es.map (fun e => [e.1, e.2])).foldl pathStep { cur := [b], stack := stack }
      = { cur := [b], stack := stack } := by
  induction es with
  | nil => exact ⟨rfl, rfl⟩
  | cons e es ih =>
    obtain ⟨h1, h2⟩ := ih (fun e he => hv e (List.mem_cons_of_mem _ he))
    obtain ⟨hv1, hv2⟩ := hv e (List.mem_cons_self _ _)
    have hstep : pathStep { cur := [b], stack := stack } [e.1, e.2]
        = { cur := [b], stack := stack } := pathStep_leaf _ _ (by simp) hv1
    have hpath : linePath [b] [e.1, e.2] = some [b, e.1, e.2] := by
      rw [linePath_leaf [b] [e.1, e.2] (by simp) hv1 hv2]
      rfl
    constructor
    · simp only [List.map_cons, addedPaths, hstep, hpath, h1, Option.toList]
      rfl
    · simp only [List.map_cons, List.foldl_cons, hstep, h2]

theorem block_paths (b : Block) (hv : ∀ e ∈ b.2, e.2 ≠ "\x7b" ∧ e.2 ≠ "\x7d") :
    addedPaths { cur := [], stack := [] } (blockLines b) = blockPaths b ∧
    (blockLines b).foldl pathStep { cur := [], stack := [] } = { cur := [], stack := [] } := by
  obtain ⟨h1, h2⟩ := entries_paths b.1 b.2 hv [[]]
  have hopen : pathStep { cur := [], stack := [] } [b.1, "\x7b"]
      = { cur := [b.1], stack := [[]] } := by
    rw [pathStep_open _ [b.1, "\x7b"] (by simp) rfl]
    rfl
  have hpath : linePath [] [b.1, "\x7b"] = some [b.1] := by
    rw [linePath_open [] [b.1, "\x7b"] (by simp) rfl]
    rfl
  have hclose : pathStep { cur := [b.1], stack := [[]] } ["\x7d"]
      = { cur := [], stack := [] } := by
    unfold pathStep
    rw [if_pos rfl]
  have hcp : linePath [b.1] ["\x7d"] = none := linePath_short _ _ (by simp)
  unfold blockLines blockPaths
  constructor
  · simp only [addedPaths, hopen, hpath, addedPaths_append, h1, h2, hcp, Option.toList,
      List.append_nil]
    rfl
  · simp only [List.foldl_cons, hopen, List.foldl_append, h2, List.foldl_nil, hclose]

theorem flat_paths (blocks : List Block)
    (hv : ∀ be ∈ blocks, ∀ e ∈ be.2, e.2 ≠ "\x7b" ∧ e.2 ≠ "\x7d") :
    addedPaths { cur := [], stack := [] } (flatLines blocks) = flatPaths blocks ∧
    (flatLines blocks).foldl pathStep { cur := [], stack := [] }
      = { cur := [], stack := [] } := by
  induction blocks with
  | nil => exact ⟨rfl, rfl⟩
  | cons be bs ih =>
    obtain ⟨h1, h2⟩ := ih (fun be2 h2 => hv be2 (List.mem_cons_of_mem _ h2))
    obtain ⟨h3, h4⟩ := block_paths be (hv be (List.mem_cons_self _ _))
    unfold flatLines at h1 h2 ⊢
    unfold flatPaths at h1 ⊢
    simp only [List.map_cons, List.flatten_cons, addedPaths_append, List.foldl_append,
      h3, h4, h1, h2]
    exact ⟨trivial, trivial⟩

/-- The paths the lines of a text of top-level blocks add. -/
theorem textPaths_flat (text : String) (blocks : List Block)
    (hlines : (lineTokens text).filter (fun l => decide (l ≠ [])) = flatLines blocks)
    (hvals : ∀ be ∈ blocks, ∀ e ∈ be.2, e.2 ≠ "\x7b" ∧ e.2 ≠ "\x7d") :
    textPaths text = flatPaths blocks := by
  unfold textPaths
  rw [addedPaths_filter, hlines]
  exact (flat_paths blocks hvals).1

/-- What `GetValue` finds on the tree parsed from a text of top-level blocks with
no name twice and no key twice in a block. -/
theorem GetValue_flat (text : String) (blocks : List Block) (t : VyosConfigTree)
    (hp : Parse text = Except.ok t)
    (hlines : (lineTokens text).filter (fun l => decide (l ≠ [])) = flatLines blocks)
    (hnames : (blocks.map Prod.fst).Nodup)
    (hkeys : ∀ be ∈ blocks, (be.2.map Prod.fst).Nodup)
    (hvals : ∀ be ∈ blocks, ∀ e ∈ be.2, e.2 ≠ "\x7b" ∧ e.2 ≠ "\x7d") (key v : String) :
    (GetValue t key).1 = Except.ok (v, true) ↔
      ∃ be ∈ blocks, ∃ k, stringsSplit key ' ' = [be.1, k] ∧ lastEntry be.2 k = some v := by
  rw [GetValue_parsed text t hp key v, textPaths_flat text blocks hlines hvals]
  exact flatPaths_key blocks hnames hkeys _ (stringsSplit_ne_nil key ' ') v

theorem flat_tokens (text : String) (blocks : List Block)
    (hlines : (lineTokens text).filter (fun l => decide (l ≠ [])) = flatLines blocks) :
    ∀ be ∈ blocks, be.1 ≠ "\n" ∧ ∀ e ∈ be.2, e.1 ≠ "\n" ∧ e.2 ≠ "\n" := by
  have htok : ∀ l ∈ flatLines blocks, ∀ w ∈ l, w ≠ "\n" := by
    intro l hl w hw
    rw [← hlines] at hl
    have hl2 := (List.mem_filter.mp hl).1
    unfold lineTokens at hl2
    obtain ⟨s, _, hs⟩ := List.mem_map.mp hl2
    rw [← hs] at hw
    exact scanWords_ne_newline s w hw
  intro be hbe
  refine ⟨?_, ?_⟩
  · exact htok [be.1, "\x7b"]
      ((mem_flatLines blocks _).mpr ⟨be, hbe, (mem_blockLines be _).mpr (Or.inl rfl)⟩)
      be.1 (List.mem_cons_self _ _)
  · intro e he
    have hl : [e.1, e.2] ∈ flatLines blocks :=
      (mem_flatLines blocks _).mpr
        ⟨be, hbe, (mem_blockLines be _).mpr (Or.inr (Or.inl ⟨e, he, rfl⟩))⟩
    exact ⟨htok _ hl e.1 (List.mem_cons_self _ _),
      htok _ hl e.2 (List.mem_cons_of_mem _ (List.mem_cons_self _ _))⟩

/-! ## Words the buffer of the scanner cannot hold -/

theorem isSpace_utf8Len (c : Char) (hc : isSpace c = true) : utf8Len c ≤ 3 := by
  have h : c.toNat < 0x10000 := by
    unfold isSpace at hc
    simp only [Bool.or_eq_true, decide_eq_true_eq, Bool.and_eq_true] at hc
    rcases hc with ((((((((((((((h | h) | h) | h) | h) | h) | h) | h) | h) | h) | h) | h) | h) | h) | h)
    all_goals first
      | omega
      | (rw [h]; decide)
  unfold utf8Len
  split_ifs <;> omega

theorem byteLen_append_singleton (cur : List Char) (c : Char) :
    byteLen (cur ++ [c]) = byteLen cur + utf8Len c := by
  simp [byteLen]

theorem scanWordsAux_eq_fieldsAux (cs cur : List Char)
    (hshort : ∀ w ∈ fieldsAux cs cur, byteLen w.data + 3 ≤ MaxScanTokenSize) :
    scanWordsAux cs cur (byteLen cur) = fieldsAux cs cur := by
  induction cs generalizing cur with
  | nil =>
    simp only [scanWordsAux, fieldsAux] at hshort ⊢
    by_cases hcur : cur = []
    · rw [if_pos hcur, if_pos hcur]
    · rw [if_neg hcur] at hshort
      rw [if_neg hcur, if_neg hcur]
      have h1 : byteLen cur + 3 ≤ MaxScanTokenSize :=
        hshort (String.mk cur) (List.mem_singleton.mpr rfl)
      rw [if_pos (by omega)]
  | cons c cs ih =>
    simp only [scanWordsAux, fieldsAux] at hshort ⊢
    by_cases hc : isSpace c = true
    · rw [if_pos hc] at hshort
      rw [if_pos hc, if_pos hc]
      by_cases hcur : cur = []
      · rw [if_pos hcur] at hshort
        rw [if_pos hcur, if_pos hcur]
        exact ih [] hshort
      · rw [if_neg hcur] at hshort
        rw [if_neg hcur, if_neg hcur]
        have h1 : byteLen cur + 3 ≤ MaxScanTokenSize :=
          hshort (String.mk cur) (List.mem_cons_self _ _)
        have h2 := isSpace_utf8Len c hc
        have h3 : byteLen cur + utf8Len c ≤ MaxScanTokenSize := by omega
        rw [if_pos h3]
        congr 1
        exact ih [] (fun w hw => hshort w (List.mem_cons_of_mem _ hw))
    · rw [if_neg hc] at hshort
      rw [if_neg hc, if_neg hc, ← byteLen_append_singleton]
      exact ih (cur ++ [c]) hshort

/-- On a line none of whose words has more than 65533 bytes the scanner
delivers every word. -/
theorem scanWords_eq_fields (s : String)
    (hshort : ∀ w ∈ fields s, byteLen w.data + 3 ≤ MaxScanTokenSize) : scanWords s = fields s :=
  scanWordsAux_eq_fieldsAux s.data [] hshort

/-- On a text none of whose words has more than 65533 bytes `Parse` scans every
token of every line. -/
theorem lineTokens_eq_textLines (text : String) (hshort : ShortWords (textLines text)) :
    lineTokens text = textLines text := by
  unfold lineTokens textLines
  apply List.map_congr_left
  intro s hs
  apply scanWords_eq_fields
  intro w hw
  exact hshort (fields s) (List.mem_map.mpr ⟨s, hs, rfl⟩) w hw

/-- A run of letters that fills the buffer is lost. -/
theorem scanWordsAux_replicate (m : Nat) (cur : List Char) (n : Nat)
    (h : MaxScanTokenSize ≤ n + m) : scanWordsAux (List.replicate m 'a') cur n = [] := by
  induction m generalizing cur n with
  | zero =>
    simp only [List.replicate, scanWordsAux]
    by_cases hcur : cur = []
    · rw [if_pos hcur]
    · rw [if_neg hcur, if_neg (by omega)]
  | succ m ih =>
    simp only [List.replicate, scanWordsAux]
    rw [if_neg (by decide)]
    apply ih
    have : utf8Len 'a' = 1 := by decide
    omega

theorem fieldsAux_replicate (m : Nat) (cur : List Char) (h : cur ++ List.replicate m 'a' ≠ []) :
    fieldsAux (List.replicate m 'a') cur = [String.mk (cur ++ List.replicate m 'a')] := by
  induction m generalizing cur with
  | zero =>
    simp only [List.replicate, fieldsAux, List.append_nil] at h ⊢
    rw [if_neg h]
  | succ m ih =>
    simp only [List.replicate, fieldsAux]
    rw [if_neg (by decide)]
    have hc : cur ++ 'a' :: List.replicate m 'a' = (cur ++ ['a']) ++ List.replicate m 'a' := by
      simp
    rw [hc]
    exact ih (cur ++ ['a']) (by simp)

theorem byteLen_replicate (m : Nat) : byteLen (List.replicate m 'a') = m := by
  induction m with
  | zero => rfl
  | succ m ih =>
    have h : byteLen (List.replicate (m + 1) 'a')
        = utf8Len 'a' + byteLen (List.replicate m 'a') := by
      simp [byteLen, List.replicate]
    rw [h, ih]
    have : utf8Len 'a' = 1 := by decide
    omega

theorem byteLen_longWord : byteLen longWord.data = 65536 :=
  byteLen_replicate MaxScanTokenSize

theorem scanWords_longWord : scanWords longWord = [] :=
  scanWordsAux_replicate MaxScanTokenSize [] 0 (by omega)

theorem fields_longWord : fields longWord = [longWord] :=
  fieldsAux_replicate MaxScanTokenSize [] (by decide)

theorem stringsSplit_longLeafText : stringsSplit longLeafText '\n' = [longLeafText] := by
  unfold stringsSplit
  rw [splitAux_no_sep]
  · rfl
  · show '\n' ∉ ("k " ++ longWord).data
    rw [String.data_append]
    intro h
    rcases List.mem_append.mp h with h1 | h1
    · exact absurd h1 (by decide)
    · exact absurd (List.eq_of_mem_replicate h1) (by decide)

theorem stringsSplit_longWord : stringsSplit longWord '\n' = [longWord] := by
  unfold stringsSplit
  rw [splitAux_no_sep]
  · rfl
  · intro h
    exact absurd (List.eq_of_mem_replicate h) (by decide)

theorem scanWordsAux_key (r : List Char) :
    scanWordsAux ("k ".data ++ r) [] 0 = "k" :: scanWordsAux r [] 0 := by
  show scanWordsAux ('k' :: ' ' :: r) [] 0 = "k" :: scanWordsAux r [] 0
  simp only [scanWordsAux]
  rw [if_neg (by decide), if_pos (by decide), if_neg (by decide), if_pos (by decide)]
  rfl

theorem fieldsAux_key (r : List Char) :
    fieldsAux ("k ".data ++ r) [] = "k" :: fieldsAux r [] := by
  show fieldsAux ('k' :: ' ' :: r) [] = "k" :: fieldsAux r []
  simp only [fieldsAux]
  rw [if_neg (by decide), if_pos (by decide), if_neg (by decide)]
  rfl

theorem scanWords_longLeafText : scanWords longLeafText = ["k"] := by
  show scanWordsAux ("k " ++ longWord).data [] 0 = ["k"]
  rw [String.data_append, scanWordsAux_key]
  exact congrArg (List.cons "k") scanWords_longWord

theorem fields_longLeafText : fields longLeafText = ["k", longWord] := by
  show fieldsAux ("k " ++ longWord).data [] = ["k", longWord]
  rw [String.data_append, fieldsAux_key]
  exact congrArg (List.cons "k") fields_longWord

theorem longWord_ne (c : Char) : longWord ≠ String.mk [c] := by
  intro h
  have h2 : (List.replicate MaxScanTokenSize 'a').length = 1 :=
    congrArg (fun s => s.data.length) h
  rw [List.length_replicate] at h2
  exact absurd h2 (by decide)

theorem closesMatched_leaf (w : String) : closesMatched 0 [["k", w]] = true := by
  simp [closesMatched]

theorem closesMatched_word (w : String) (h : w ≠ "\x7d") : closesMatched 0 [[w]] = true := by
  simp [closesMatched, h]

theorem leaf_not_malformed (w : String) (h : w ≠ "\x7d") : ¬ ∃ l ∈ [["k", w]], Malformed l := by
  rintro ⟨l, hl, hm⟩
  rw [List.mem_singleton.mp hl] at hm
  rcases hm with ⟨h1, _⟩ | ⟨_, h2⟩
  · exact absurd h1 (by simp)
  · exact h h2

theorem word_malformed (w : String) (h : w ≠ "\x7d") : ∃ l ∈ [[w]], Malformed l := by
  refine ⟨[w], List.mem_singleton.mpr rfl, Or.inl ⟨rfl, ?_⟩⟩
  intro h2
  exact h (List.cons.inj h2).1

theorem longWord_ne_close : longWord ≠ "\x7d" := longWord_ne _

theorem textLines_longLeafText : textLines longLeafText = [["k", longWord]] := by
  unfold textLines
  rw [stringsSplit_longLeafText]
  simp only [List.map, fields_longLeafText]

theorem textLines_longWord : textLines longWord = [[longWord]] := by
  unfold textLines
  rw [stringsSplit_longWord]
  simp only [List.map, fields_longWord]

theorem parseWords_longLeafText : parseWords longLeafText = ["k", "\n"] := by
  unfold parseWords
  rw [stringsSplit_longLeafText]
  simp only [List.map, scanWords_longLeafText]
  rfl

theorem parseWords_longWord : parseWords longWord = ["\n"] := by
  unfold parseWords
  rw [stringsSplit_longWord]
  simp only [List.map, scanWords_longWord]
  rfl

/-- What `Parse` makes of a text whose words are the single token `k` and the
line end. -/
theorem Parse_single_token (text : String) (h : parseWords text = ["k", "\n"]) :
    Parse text = Except.error (Failure.parseError ["k", "\n"]) := by
  unfold Parse
  rw [h]
  decide

/-- What `Parse` makes of a text whose only word is the line end. -/
theorem Parse_blank (text : String) (h : parseWords text = ["\n"]) :
    Parse text = Except.ok parsedEmpty := by
  unfold Parse
  rw [h]
  decide

/-! ## A leaf line, in a round of the loop and in the parsed tree -/

/-- The path a leaf line adds is among the paths of the text. -/
theorem leafLine_mem_textPaths (text : String) (pre post : List (List String)) (k : String)
    (vs : List String) (hline : lineTokens text = pre ++ (k :: vs) :: post) (hvs : vs ≠ [])
    (h1 : (k :: vs).getLastD "" ≠ "\x7b") (h2 : (k :: vs).getLastD "" ≠ "\x7d") :
    openPath pre ++ [k, stringsJoin vs " "] ∈ textPaths text := by
  have hlen : 2 ≤ (k :: vs).length := by
    have : vs.length ≠ 0 := fun hh => hvs (List.length_eq_zero.mp hh)
    simp only [List.length_cons]
    omega
  unfold textPaths
  rw [hline, addedPaths_append]
  apply List.mem_append_right
  simp only [addedPaths]
  apply List.mem_append_left
  have : linePath (pre.foldl pathStep { cur := [], stack := [] }).cur (k :: vs)
      = some (openPath pre ++ [k, stringsJoin vs " "]) := by
    rw [linePath_leaf _ (k :: vs) hlen h1 h2]
    rfl
  rw [this]
  simp

/-- A round of the loop of `Parse` on a leaf line `k v1 ... vn` (n at least 1,
the last token neither brace), read while the open block `currentNode` has no
child named `k` yet, leaves the open block and the stack as they were and puts
under the open block, in its index and in its child list, a node named `k` that
is a key node whose `Value()` is `v1 ... vn` joined by single spaces. -/
theorem parseStep_leaf_fresh (st : ParseState) (k : String) (vs rest : List String)
    (hwf : HeapWF st.heap) (hcur : st.currentNode < st.heap.length)
    (hvs : vs ≠ []) (hnl : ∀ w ∈ k :: vs, w ≠ "\n")
    (hlast : (k :: vs).getLastD "" ≠ "\x7b" ∧ (k :: vs).getLastD "" ≠ "\x7d")
    (hfresh : getNode st.heap st.currentNode k = none) :
    ∃ st2 kn, parseStep st (k :: vs ++ "\n" :: rest) = Except.ok ((k :: vs).length, st2) ∧
      st2.currentNode = st.currentNode ∧ st2.tstack = st.tstack ∧
      getNode st2.heap st.currentNode k = some kn ∧
      kn ∈ (node st2.heap st.currentNode).children.getD [] ∧
      (node st2.heap kn).name = k ∧
      isKeyNode st2.heap kn = true ∧
      Value st2.heap kn = Except.ok (stringsJoin vs " ") ∧
      HeapWF st2.heap := by
  have h2 : 2 ≤ (k :: vs).length := by
    have : vs.length ≠ 0 := fun hh => hvs (List.length_eq_zero.mp hh)
    simp only [List.length_cons]
    omega
  have hmt := matchToken_leaf (k :: vs) rest hnl h2 hlast.1 hlast.2
  obtain ⟨a1, a2, a3, a4, a5, a6⟩ :=
    addPath_spec st.heap st.currentNode ([k] ++ [stringsJoin vs " "]) hwf hcur
  obtain ⟨kn, f1, f2, f3⟩ := addPath_fresh st.heap st.currentNode [k] (stringsJoin vs " ") hwf hcur
    (Or.inl ⟨by simp, by simp [walk, hfresh]⟩)
  have hg : getNode (VyosConfigTree.addPath st.heap st.currentNode
      ([k] ++ [stringsJoin vs " "])).1 st.currentNode k = some kn := by
    simp only [walk] at f1
    cases hgn : getNode (VyosConfigTree.addPath st.heap st.currentNode
        ([k] ++ [stringsJoin vs " "])).1 st.currentNode k with
    | none => rw [hgn] at f1; cases f1
    | some y => rw [hgn] at f1; rw [← Option.some.inj f1]
  have hsound := getNode_sound _ st.currentNode kn k a1 (Nat.lt_of_lt_of_le hcur a3) hg
  have hval := Value_of_children _ kn _ f2 (by rw [isValueNode, f3]; rfl)
  refine ⟨ParseState.mk (VyosConfigTree.addPath st.heap st.currentNode
      ([k] ++ [stringsJoin vs " "])).1 st.currentNode st.tstack, kn, ?_, rfl, rfl, hg,
    hsound.2.2.2, hsound.2.2.1, ?_, ?_, a1⟩
  · unfold parseStep
    rw [hmt]
    rfl
  · unfold isKeyNode
    simp only
    rw [f2]
    simp only
    rw [isValueNode, f3]
    rfl
  · simp only
    rw [hval, f3]
    rfl

/-! ## The claims -/

/-- C1, as stated, fails: on the tree parsed from the seven-line text there is no
`t` and node `n` such that `Get("nat source rule 1 source address")` finds `n`, a
key node whose `Value()` is `"10.0.0.0/24"`. -/
theorem C1_get_source_address_not_key_node :
    ¬ ∃ t n, Parse natConfigText = Except.ok t ∧
      (t.Get "nat source rule 1 source address").1 = Except.ok (some n) ∧
      isKeyNode (t.Get "nat source rule 1 source address").2.heap n = true ∧
      Value (t.Get "nat source rule 1 source address").2.heap n = Except.ok "10.0.0.0/24" := by
  rintro ⟨t, n, hp, hg, _, _⟩
  have hparse : Parse natConfigText = Except.ok natConfigTree := by decide
  rw [hparse] at hp
  have ht : t = natConfigTree := (Except.ok.inj hp).symm
  subst ht
  have hnone : (natConfigTree.Get "nat source rule 1 source address").1 = Except.ok none := by
    decide
  rw [hnone] at hg
  cases hg

/-- C1, amended: `Parse` of the seven-line text returns a tree on which
`Get("nat source rule 1 source address")` is a normal not-found, and
`Get("nat source rule 1 source")` finds a key node whose `Value()` is
`"address 10.0.0.0/24"`: the tokens after the first of the leaf line, joined. -/
theorem C1_parse_then_get :
    Parse natConfigText = Except.ok natConfigTree ∧
    (natConfigTree.Get "nat source rule 1 source address").1 = Except.ok none ∧
    (natConfigTree.Get "nat source rule 1 source").1 = Except.ok (some 5) ∧
    isKeyNode (natConfigTree.Get "nat source rule 1 source").2.heap 5 = true ∧
    Value (natConfigTree.Get "nat source rule 1 source").2.heap 5 =
      Except.ok "address 10.0.0.0/24" := by
  decide

/-- C2, as stated, fails: `Parse` accepts `shadowedText`, whose leaf line `k v`
is read in the block opened by the two-token line `a` and is the only statement
of that block; yet the node named `k` under `a` in the tree is not a key node and
its `Value()` is fatal, because the earlier line `a k` with the opening brace made
the node `k` under `a` and gave it the child `w`. -/
theorem C2_reused_key_counterexample :
    lineTokens shadowedText =
      [["a", "k", "\x7b"], ["w", "x"], ["\x7d"], ["a", "\x7b"], ["k", "v"], ["\x7d"]] ∧
    openPath [["a", "k", "\x7b"], ["w", "x"], ["\x7d"], ["a", "\x7b"]] = ["a"] ∧
    Parse shadowedText = Except.ok shadowedTree ∧
    walk shadowedTree.heap 0 ["a"] = some 1 ∧
    getNode shadowedTree.heap 1 "k" = some 2 ∧
    (node shadowedTree.heap 2).children = some [3, 5] ∧
    isKeyNode shadowedTree.heap 2 = false ∧
    Value shadowedTree.heap 2 = Except.error (Failure.assertion 2) ∧
    (GetValue shadowedTree "a k").1 = Except.error (Failure.assertion 2) := by
  refine ⟨by decide, by decide, by decide, by decide, by decide, by decide, by decide, by decide,
    by decide⟩

/-- C2, amended: let `Parse` accept a text, let `k v1 ... vn` (n at least 1, the
last token neither brace) be a line of it as `Parse` scans it, and let
`b1 ... bm` be the path of the block that is open where the line stands
(`openPath` of the lines before it).  If every path that a line of the text adds
and that continues `b1 ... bm k` is `b1 ... bm k` followed by `v1 ... vn` joined by
single blanks, then the tree `Parse` returns holds under the node of that block,
in its index and in its child list, a node named `k` that is a key node whose
`Value()` is `v1 ... vn` joined by single blanks. -/
theorem C2_leaf_line_parsed (text : String) (t : VyosConfigTree)
    (pre post : List (List String)) (k : String) (vs : List String)
    (hp : Parse text = Except.ok t)
    (hline : lineTokens text = pre ++ (k :: vs) :: post)
    (hvs : vs ≠ [])
    (hlast : (k :: vs).getLastD "" ≠ "\x7b" ∧ (k :: vs).getLastD "" ≠ "\x7d")
    (honly : ∀ d ∈ textPaths text, (openPath pre ++ [k]) <+: d →
      d = openPath pre ++ [k, stringsJoin vs " "]) :
    ∃ b kn, walk t.heap 0 (openPath pre) = some b ∧
      getNode t.heap b k = some kn ∧
      kn ∈ (node t.heap b).children.getD [] ∧
      (node t.heap kn).name = k ∧
      isKeyNode t.heap kn = true ∧
      Value t.heap kn = Except.ok (stringsJoin vs " ") := by
  have hwf := WF_Parse text t hp
  obtain ⟨hroot, hA, hB, hC⟩ := Parse_paths text t hp
  obtain ⟨⟨r, hr, hl, _⟩, hh⟩ := id hwf
  rw [hroot] at hr
  cases hr
  have hin : (openPath pre ++ [k]) ++ [stringsJoin vs " "] ∈ textPaths text := by
    rw [List.append_assoc]
    exact leafLine_mem_textPaths text pre post k vs hline hvs hlast.1 hlast.2
  obtain ⟨n, hw, hval⟩ := keyNode_of_paths t.heap _ (openPath pre ++ [k]) (stringsJoin vs " ")
    hh hl hA hB hC hin
    (fun d hd hpre => Or.inr (by rw [List.append_assoc]; exact honly d hd hpre))
  rw [walk_snoc] at hw
  cases hb : walk t.heap 0 (openPath pre) with
  | none => rw [hb] at hw; cases hw
  | some b =>
    rw [hb] at hw
    have hg : getNode t.heap b k = some n := hw
    have hblt : b < t.heap.length := walk_lt t.heap 0 b (openPath pre) hh hl hb
    have hs := getNode_sound t.heap b n k hh hblt hg
    obtain ⟨c, hch, hvn, _⟩ := Value_ok t.heap n _ hval
    refine ⟨b, n, rfl, hg, hs.2.2.2, hs.2.2.1, ?_, hval⟩
    unfold isKeyNode
    rw [hch]
    exact hvn

/-- C2 (amended) at `natConfigText` and its leaf line `source address
10.0.0.0/24`, read in the block `nat source rule 1`. -/
theorem C2_leaf_line_parsed_witness :
    ∃ b kn, walk natConfigTree.heap 0
        (openPath [["nat", "\x7b"], ["source", "\x7b"], ["rule", "1", "\x7b"]]) = some b ∧
      getNode natConfigTree.heap b "source" = some kn ∧
      kn ∈ (node natConfigTree.heap b).children.getD [] ∧
      (node natConfigTree.heap kn).name = "source" ∧
      isKeyNode natConfigTree.heap kn = true ∧
      Value natConfigTree.heap kn = Except.ok (stringsJoin ["address", "10.0.0.0/24"] " ") :=
  C2_leaf_line_parsed natConfigText natConfigTree
    [["nat", "\x7b"], ["source", "\x7b"], ["rule", "1", "\x7b"]] [["\x7d"], ["\x7d"], ["\x7d"]]
    "source" ["address", "10.0.0.0/24"] (by decide) (by decide) (by decide) (by decide)
    (by decide)

/-- C3, as stated, fails in both directions at a word of 65536 bytes.  On the
one-line text of the key `k` and such a value no line is malformed, and `Parse`
ends in a `parseError`: the scanner loses the value, and what is left of the
line is the single token `k`.  On the one-line text of such a word alone the
line is malformed (a single token other than the closing brace), and `Parse`
returns a tree: the scanner loses the word, and the line is read as blank. -/
theorem C3_long_word_counterexample :
    byteLen longWord.data = 65536 ∧
    (textLines longLeafText = [["k", longWord]] ∧
      closesMatched 0 (textLines longLeafText) = true ∧
      (¬ ∃ l ∈ textLines longLeafText, Malformed l) ∧
      Parse longLeafText = Except.error (Failure.parseError ["k", "\n"])) ∧
    (textLines longWord = [[longWord]] ∧
      closesMatched 0 (textLines longWord) = true ∧
      (∃ l ∈ textLines longWord, Malformed l) ∧
      Parse longWord = Except.ok parsedEmpty) := by
  refine ⟨byteLen_longWord, ⟨textLines_longLeafText, ?_, ?_, ?_⟩,
    textLines_longWord, ?_, ?_, ?_⟩
  · rw [textLines_longLeafText]
    exact closesMatched_leaf longWord
  · rw [textLines_longLeafText]
    exact leaf_not_malformed longWord longWord_ne_close
  · exact Parse_single_token longLeafText parseWords_longLeafText
  · rw [textLines_longWord]
    exact closesMatched_word longWord longWord_ne_close
  · rw [textLines_longWord]
    exact word_malformed longWord longWord_ne_close
  · exact Parse_blank longWord parseWords_longWord

/-- C3, amended: for a text none of whose words has more than 65533 bytes and in
which every closing-brace line has an open block to close, `Parse` ends in a
`parseError` (and so returns no tree) exactly when some line is malformed (a
single token other than the closing brace, or two or more tokens ending in the
closing brace), and returns a tree exactly when no line is. -/
theorem C3_parse_error_iff (text : String) (hshort : ShortWords (textLines text))
    (hc : closesMatched 0 (textLines text) = true) :
    ((∃ ws, Parse text = Except.error (Failure.parseError ws)) ↔
      ∃ l ∈ textLines text, Malformed l) ∧
    ((∃ t, Parse text = Except.ok t) ↔ ¬ ∃ l ∈ textLines text, Malformed l) := by
  rw [← lineTokens_eq_textLines text hshort] at hc ⊢
  obtain ⟨hbad, hgood⟩ := Parse_outcome text hc
  refine ⟨⟨?_, hbad⟩, ⟨?_, hgood⟩⟩
  · rintro ⟨ws, hws⟩
    by_contra hno
    obtain ⟨t, ht⟩ := hgood hno
    rw [ht] at hws
    cases hws
  · rintro ⟨t, ht⟩ hm
    obtain ⟨ws, hws⟩ := hbad hm
    rw [hws] at ht
    cases ht

/-- C3 at a text whose second line is the single token `foo`. -/
theorem C3_parse_error_iff_witness :
    ShortWords (textLines malformedText) ∧
    closesMatched 0 (textLines malformedText) = true ∧
    ((∃ ws, Parse malformedText = Except.error (Failure.parseError ws)) ↔
      ∃ l ∈ textLines malformedText, Malformed l) ∧
    ((∃ t, Parse malformedText = Except.ok t) ↔
      ¬ ∃ l ∈ textLines malformedText, Malformed l) :=
  ⟨by decide, by decide, C3_parse_error_iff malformedText (by decide) (by decide)⟩

/-- C4, as stated, fails: `a b` and `a c` are distinct full paths, both `Set`
calls return, and in the tree they build from the zero-valued tree `Has("a b")`
is false (the second call overwrote the value of the key `a`). -/
theorem C4_distinct_paths_lose_one :
    ["a b", "a c"].Nodup ∧
    setAll VyosConfigTree.empty ["a b", "a c"] = Except.ok treeABthenAC ∧
    treeABthenAC.Has "a b" = false := by
  decide

/-- C4, amended: `Set` called from the zero-valued tree on N strings of two
tokens or more each, such that the key-path segments of no string are the first
segments of the full path of another: no call panics, and in the tree built
`Has` holds of each string and `Get` of its key-path finds a key node whose
`Value()` is its last token. -/
theorem C4_sets_then_has_get (cs : List String)
    (hlen : ∀ c ∈ cs, 2 ≤ (stringsSplit c ' ').length) (hpw : cs.Pairwise Separated) :
    ∃ t, setAll VyosConfigTree.empty cs = Except.ok t ∧
      ∀ c ∈ cs, t.Has c = true ∧
        ∃ n, (t.Get (VyosConfigTree.keyOf c)).1 = Except.ok (some n) ∧
          Value (t.Get (VyosConfigTree.keyOf c)).2.heap n =
            Except.ok (VyosConfigTree.valueOf c) := by
  cases cs with
  | nil => exact ⟨VyosConfigTree.empty, rfl, fun c hc => absurd hc (List.not_mem_nil c)⟩
  | cons c0 cs0 =>
    obtain ⟨t, hrun, hinv⟩ := setAll_inv (c0 :: cs0) VyosConfigTree.empty.init [] SetInv_empty
      hlen hpw (fun _ _ d hd => absurd hd (List.not_mem_nil d))
    refine ⟨t, ?_, ?_⟩
    · simp only [setAll] at hrun ⊢
      rw [Set_init] at hrun
      exact hrun
    · intro c hc
      exact SetInv_has_get t _ c hinv
        (by rw [List.append_nil]; exact List.mem_reverse.mpr hc) (hlen c hc)

/-- C4 (amended) at the three strings `a b`, `c d e`, `c f g`. -/
theorem C4_sets_then_has_get_witness :
    (∀ c ∈ ["a b", "c d e", "c f g"], 2 ≤ (stringsSplit c ' ').length) ∧
    ["a b", "c d e", "c f g"].Pairwise Separated ∧
    ∃ t, setAll VyosConfigTree.empty ["a b", "c d e", "c f g"] = Except.ok t ∧
      ∀ c ∈ ["a b", "c d e", "c f g"], t.Has c = true ∧
        ∃ n, (t.Get (VyosConfigTree.keyOf c)).1 = Except.ok (some n) ∧
          Value (t.Get (VyosConfigTree.keyOf c)).2.heap n =
            Except.ok (VyosConfigTree.valueOf c) :=
  ⟨by decide, by decide,
    C4_sets_then_has_get ["a b", "c d e", "c f g"] (by decide) (by decide)⟩

/-- C5, as stated, fails: `a c` is absent from the tree holding `a b`, yet the two
calls `Set("a c")`, `Set("a c")` append two entries, `$DELETE a` and `$SET a c`,
not one. -/
theorem C5_absent_path_two_entries :
    treeAB.Has "a c" = false ∧
    ((treeAB.Set "a c").2.Set "a c").2.Commands =
      treeAB.Commands ++ ["$DELETE a", "$SET a c"] ∧
    ¬ (((treeAB.Set "a c").2.Set "a c").2.Commands.length = treeAB.Commands.length + 1) := by
  decide

/-- C5, amended: on a well-formed tree, for a `c` of two tokens or more whose
key-path does not resolve, the first `Set(c)` reports changed and appends
`$SET c`; the second `Set(c)` reports unchanged and returns the very same tree,
so the two calls append exactly one entry in total. -/
theorem C5_set_twice (t : VyosConfigTree) (hwf : WF t) (c : String)
    (hlen : 2 ≤ (stringsSplit c ' ').length)
    (hk : resolve t (VyosConfigTree.keyOf c) = none) :
    (t.Set c).1 = Except.ok true ∧
    (t.Set c).2.Commands = t.Commands ++ ["$SET " ++ c] ∧
    ((t.Set c).2.Set c).1 = Except.ok false ∧
    ((t.Set c).2.Set c).2 = (t.Set c).2 ∧
    ((t.Set c).2.Set c).2.Commands = t.Commands ++ ["$SET " ++ c] := by
  obtain ⟨⟨r, hr, hl, hroot⟩, hh⟩ := id hwf
  have hset := Set_fresh t hwf r hr c hk
  obtain ⟨a1, a2, a3, a4, a5, a6⟩ := addPath_spec t.heap r (stringsSplit c ' ') hh hl
  have hwf2 : WF (t.Set c).2 := by
    rw [hset, ← hr]
    exact WF_of_heap t hwf _ _ a1 a3 (fun m hm => (a6 m hm).2)
  have hkey := stringsSplit_keyOf c hlen
  rcases List.eq_nil_or_concat (stringsSplit c ' ') with hnil | ⟨p0, v, hcs⟩
  · exact absurd hnil (stringsSplit_ne_nil c ' ')
  · rw [List.concat_eq_append] at hcs
    have hdrop : (stringsSplit c ' ').dropLast = p0 := by rw [hcs, List.dropLast_concat]
    have hval : VyosConfigTree.valueOf c = v := by
      unfold VyosConfigTree.valueOf; rw [hcs]; simp
    have hp0 : p0 ≠ [] := by
      intro hnil
      rw [hcs, hnil] at hlen
      simp at hlen
    have hw0 : walk t.heap r p0 = none := by
      unfold resolve at hk
      rw [hr, hkey, hdrop] at hk
      exact hk
    obtain ⟨n, f1, f2, f3⟩ := addPath_fresh t.heap r p0 v hh hl (Or.inl ⟨hp0, hw0⟩)
    rw [← hcs] at f1 f2 f3
    have hres2 : resolve (t.Set c).2 (VyosConfigTree.keyOf c) = some n := by
      rw [hset]
      unfold resolve
      simp only
      rw [hkey, hdrop]
      exact f1
    have hv2 : Value (t.Set c).2.heap n = Except.ok (VyosConfigTree.valueOf c) := by
      rw [hset]
      simp only
      rw [Value_of_children _ n _ f2 (by rw [isValueNode, f3]; rfl), f3, hval]
      rfl
    have hsame := Set_same (t.Set c).2 hwf2 c n hres2 hv2
    have hinit : (t.Set c).2.init = (t.Set c).2 := by
      rw [hset]; rfl
    rw [hinit] at hsame
    refine ⟨?_, ?_, ?_, ?_, ?_⟩
    · rw [hset]
    · rw [hset]; rfl
    · rw [hsame]
    · rw [hsame]
    · rw [hsame, hset]; rfl

/-- C5 (amended) at the tree holding `a b` and `Set("x y")` twice. -/
theorem C5_set_twice_witness :
    WF treeAB ∧ 2 ≤ (stringsSplit "x y" ' ').length ∧
    resolve treeAB (VyosConfigTree.keyOf "x y") = none ∧
    (treeAB.Set "x y").1 = Except.ok true ∧
    (treeAB.Set "x y").2.Commands = treeAB.Commands ++ ["$SET " ++ "x y"] ∧
    ((treeAB.Set "x y").2.Set "x y").1 = Except.ok false ∧
    ((treeAB.Set "x y").2.Set "x y").2 = (treeAB.Set "x y").2 ∧
    ((treeAB.Set "x y").2.Set "x y").2.Commands = treeAB.Commands ++ ["$SET " ++ "x y"] :=
  ⟨WF_treeAB, by decide, by decide,
    C5_set_twice treeAB WF_treeAB "x y" (by decide) (by decide)⟩

/-- C6: on a well-formed tree in which the key-path `k` resolves to a key node
`n` with value `v`, `Set(k + " " + w)` for a single token `w` other than `v`
reports changed, appends exactly `$DELETE k` and then `$SET k w` to the change
log; afterwards `Get(k)` still finds `n`, its `Value()` is `w`, and the old
value child is neither in the index nor in the child list of `n`. -/
theorem C6_set_overwrite (t : VyosConfigTree) (hwf : WF t) (k v w : String) (n : Ptr)
    (hk : resolve t k = some n) (hv : Value t.heap n = Except.ok v)
    (hw : ' ' ∉ w.data) (hne : w ≠ v) :
    (t.Set (k ++ " " ++ w)).1 = Except.ok true ∧
    (t.Set (k ++ " " ++ w)).2.Commands =
      t.Commands ++ ["$DELETE " ++ k, "$SET " ++ (k ++ " " ++ w)] ∧
    ((t.Set (k ++ " " ++ w)).2.Get k).1 = Except.ok (some n) ∧
    Value ((t.Set (k ++ " " ++ w)).2.Get k).2.heap n = Except.ok w ∧
    getNode (t.Set (k ++ " " ++ w)).2.heap n v = none ∧
    (∀ c ∈ (node t.heap n).children.getD [],
      c ∉ (node (t.Set (k ++ " " ++ w)).2.heap n).children.getD []) := by
  obtain ⟨⟨r, hr, hl, hroot⟩, hh⟩ := id hwf
  obtain ⟨c, hch, _, hname⟩ := Value_ok t.heap n v hv
  have hkw := keyOf_append_token k w hw
  have hvw := valueOf_append_token k w hw
  have hres : walk t.heap r (stringsSplit k ' ') = some n := by
    unfold resolve at hk; rw [hr] at hk; exact hk
  have hn : n < t.heap.length := walk_lt t.heap r n _ hh hl hres
  have hset := Set_overwrite t hwf r hr (k ++ " " ++ w) n v (by rw [hkw]; exact hk) hv
    (by rw [hvw]; exact hne)
  rw [hkw, hvw] at hset
  obtain ⟨o1, o2, o3, o4, o5, o6, o7⟩ := overwrite_heap t.heap n c v w hh hn hch hname hne
  have hwf2 : WF (t.Set (k ++ " " ++ w)).2 := by
    rw [hset, ← hr]
    exact WF_of_heap t hwf _ _ o1 (by rw [o2]; exact Nat.le_succ _) o7
  have hres2 : resolve (t.Set (k ++ " " ++ w)).2 k = some n := by
    rw [hset]
    unfold resolve
    simp only
    rw [walk_congr_off_node t.heap _ n o6 r _
      (fun q1 c2 q2 hq => walk_prefix_ne t.heap r n _ q1 q2 c2 hh hl hroot hres hq)]
    exact hres
  have hget := Get_eq _ hwf2 k
  have hheap : ((t.Set (k ++ " " ++ w)).2.Get k).2.heap = (t.Set (k ++ " " ++ w)).2.heap := by
    rw [hget, hset]; rfl
  refine ⟨?_, ?_, ?_, ?_, ?_, ?_⟩
  · rw [hset]
  · rw [hset]; simp [VyosConfigTree.Commands]
  · rw [hget, hres2]
  · rw [hheap, hset]
    simp only
    have := Value_of_children _ n t.heap.length o3 (by rw [isValueNode, o4]; rfl)
    rw [this, o4]; rfl
  · rw [hset]; exact o5
  · intro c2 hc2
    rw [hset]
    simp only
    rw [o3]
    have hc2lt := ((hh n hn).2.2.1 c2 hc2).1
    simp only [Option.getD_some, List.mem_singleton]
    exact Nat.ne_of_lt hc2lt

/-- C6 at the tree holding `a b`, overwritten by `Set("a c")`. -/
theorem C6_set_overwrite_witness :
    WF treeAB ∧ resolve treeAB "a" = some 1 ∧ Value treeAB.heap 1 = Except.ok "b" ∧
    (treeAB.Set ("a" ++ " " ++ "c")).1 = Except.ok true ∧
    (treeAB.Set ("a" ++ " " ++ "c")).2.Commands =
      treeAB.Commands ++ ["$DELETE " ++ "a", "$SET " ++ ("a" ++ " " ++ "c")] ∧
    ((treeAB.Set ("a" ++ " " ++ "c")).2.Get "a").1 = Except.ok (some 1) ∧
    Value ((treeAB.Set ("a" ++ " " ++ "c")).2.Get "a").2.heap 1 = Except.ok "c" ∧
    getNode (treeAB.Set ("a" ++ " " ++ "c")).2.heap 1 "b" = none ∧
    (∀ c ∈ (node treeAB.heap 1).children.getD [],
      c ∉ (node (treeAB.Set ("a" ++ " " ++ "c")).2.heap 1).children.getD []) :=
  ⟨WF_treeAB, by decide, by decide,
    C6_set_overwrite treeAB WF_treeAB "a" "b" "c" 1 (by decide) (by decide) (by decide)
      (by decide)⟩

/-- C7: on a well-formed tree, `Set(c)` for a `c` whose key-path does not resolve
reports changed and appends exactly `$SET c` to the change log; afterwards
`Has(c)` holds, every node along the path of `c` exists, every path that
resolved before resolves to the same node (the nodes that were there are
reused), and the old nodes keep name and parent.  This holds for `c` of any
number of tokens. -/
theorem C7_set_fresh (t : VyosConfigTree) (hwf : WF t) (c : String)
    (hk : resolve t (VyosConfigTree.keyOf c) = none) :
    ∃ r, t.Root = some r ∧
      (t.Set c).1 = Except.ok true ∧
      (t.Set c).2.Commands = t.Commands ++ ["$SET " ++ c] ∧
      (t.Set c).2.Has c = true ∧
      (∀ pre rest, pre ≠ [] → stringsSplit c ' ' = pre ++ rest →
        ∃ x, walk (t.Set c).2.heap r pre = some x) ∧
      (∀ q x, resolve t q = some x → resolve (t.Set c).2 q = some x) ∧
      (∀ q x, (t.Get q).1 = Except.ok (some x) → ((t.Set c).2.Get q).1 = Except.ok (some x)) ∧
      t.heap.length ≤ (t.Set c).2.heap.length ∧
      (∀ m, m < t.heap.length →
        (node (t.Set c).2.heap m).name = (node t.heap m).name ∧
        (node (t.Set c).2.heap m).parent = (node t.heap m).parent) := by
  obtain ⟨⟨r, hr, hl, hroot⟩, hh⟩ := id hwf
  have hset := Set_fresh t hwf r hr c hk
  obtain ⟨a1, a2, a3, a4, a5, a6⟩ := addPath_spec t.heap r (stringsSplit c ' ') hh hl
  have hwf2 : WF (t.Set c).2 := by
    rw [hset, ← hr]
    exact WF_of_heap t hwf _ _ a1 a3 (fun m hm => (a6 m hm).2)
  have hmono : ∀ q x, resolve t q = some x → resolve (t.Set c).2 q = some x := by
    intro q x hq
    rw [hset]
    unfold resolve at hq ⊢
    rw [hr] at hq
    exact walk_mono t.heap _ a5 r x _ hq
  refine ⟨r, hr, ?_, ?_, ?_, ?_, hmono, ?_, ?_, ?_⟩
  · rw [hset]
  · rw [hset]; rfl
  · rw [Has_eq _ hwf2, hset]
    unfold resolve
    simp only
    rw [a4]; rfl
  · intro pre rest _ hsplit
    rw [hset]
    simp only
    rw [hsplit, walk_append] at a4
    rw [hsplit]
    cases hw : walk (VyosConfigTree.addPath t.heap r (pre ++ rest)).1 r pre with
    | none => rw [hw] at a4; cases a4
    | some x => exact ⟨x, rfl⟩
  · intro q x hq
    rw [Get_eq t hwf q] at hq
    rw [Get_eq _ hwf2 q, hmono q x (Except.ok.inj hq)]
  · rw [hset]; exact a3
  · intro m hm
    rw [hset]; exact a6 m hm

/-- C7 at the tree holding `a b` and `Set("x y z")`. -/
theorem C7_set_fresh_witness :
    WF treeAB ∧ resolve treeAB (VyosConfigTree.keyOf "x y z") = none ∧
    ∃ r, treeAB.Root = some r ∧
      (treeAB.Set "x y z").1 = Except.ok true ∧
      (treeAB.Set "x y z").2.Commands = treeAB.Commands ++ ["$SET " ++ "x y z"] ∧
      (treeAB.Set "x y z").2.Has "x y z" = true ∧
      (∀ pre rest, pre ≠ [] → stringsSplit "x y z" ' ' = pre ++ rest →
        ∃ x, walk (treeAB.Set "x y z").2.heap r pre = some x) ∧
      (∀ q x, resolve treeAB q = some x → resolve (treeAB.Set "x y z").2 q = some x) ∧
      (∀ q x, (treeAB.Get q).1 = Except.ok (some x) →
        ((treeAB.Set "x y z").2.Get q).1 = Except.ok (some x)) ∧
      treeAB.heap.length ≤ (treeAB.Set "x y z").2.heap.length ∧
      (∀ m, m < treeAB.heap.length →
        (node (treeAB.Set "x y z").2.heap m).name = (node treeAB.heap m).name ∧
        (node (treeAB.Set "x y z").2.heap m).parent = (node treeAB.heap m).parent) :=
  ⟨WF_treeAB, by decide, C7_set_fresh treeAB WF_treeAB "x y z" (by decide)⟩

/-- C8: `Delete` of a path that does not resolve reports absent (`false`), appends
nothing to the change log and never panics; it leaves the tree as `init` leaves
it, that is with its heap and root untouched when the tree has a root. -/
theorem C8_delete_absent (t : VyosConfigTree) (p : String) (hp : t.Has p = false) :
    (t.Delete p).1 = Except.ok false ∧
    (t.Delete p).2.Commands = t.Commands ∧
    (t.Delete p).2 = t.init ∧
    (t.Root ≠ none → (t.Delete p).2.heap = t.heap ∧ (t.Delete p).2.Root = t.Root) := by
  have hh : t.init.has (stringsSplit p ' ') = false := by
    rw [has_init t _ (stringsSplit_ne_nil p ' ')]
    exact hp
  have hget := Get_of_not_has t p hh
  have hdel : t.Delete p = (Except.ok false, t.init) := by
    unfold VyosConfigTree.Delete
    rw [hget]
  rw [hdel]
  refine ⟨rfl, init_Commands t, rfl, ?_⟩
  intro hroot
  cases hr : t.Root with
  | none => exact absurd hr hroot
  | some r => rw [init_of_root t r hr]; exact ⟨rfl, rfl⟩

/-- C8 at the tree holding `a b` and the absent path `a x`. -/
theorem C8_delete_absent_witness :
    treeAB.Has "a x" = false ∧
    (treeAB.Delete "a x").1 = Except.ok false ∧
    (treeAB.Delete "a x").2.Commands = treeAB.Commands ∧
    (treeAB.Delete "a x").2 = treeAB.init ∧
    (treeAB.Root ≠ none →
      (treeAB.Delete "a x").2.heap = treeAB.heap ∧ (treeAB.Delete "a x").2.Root = treeAB.Root) :=
  ⟨by decide, C8_delete_absent treeAB "a x" (by decide)⟩

/-- C9: on a well-formed tree, `Delete(p)` for a path `p` that resolves to a node
`x` reports deleted and appends exactly `$DELETE p` to the change log.  The node
leaves the index and the child list of its parent `a`, and no other node
changes.  Afterwards `Has(p)` is false, `Has(q)` is false for every `q` whose
segments extend those of `p`, and for every other `q` both `Get(q)` and `Has(q)`
return what they returned before. -/
theorem C9_delete_found (t : VyosConfigTree) (hwf : WF t) (p : String) (x : Ptr)
    (hp : resolve t p = some x) :
    (t.Delete p).1 = Except.ok true ∧
    (t.Delete p).2.Commands = t.Commands ++ ["$DELETE " ++ p] ∧
    (∃ a, (node t.heap x).parent = some a ∧
      getNode t.heap a (node t.heap x).name = some x ∧
      x ∈ (node t.heap a).children.getD [] ∧
      getNode (t.Delete p).2.heap a (node t.heap x).name = none ∧
      x ∉ (node (t.Delete p).2.heap a).children.getD [] ∧
      (∀ m, m ≠ a → node (t.Delete p).2.heap m = node t.heap m)) ∧
    (t.Delete p).2.Has p = false ∧
    (∀ q rest, stringsSplit q ' ' = stringsSplit p ' ' ++ rest → (t.Delete p).2.Has q = false) ∧
    (∀ q, (¬ ∃ rest, stringsSplit q ' ' = stringsSplit p ' ' ++ rest) →
      ((t.Delete p).2.Get q).1 = (t.Get q).1 ∧ (t.Delete p).2.Has q = t.Has q) := by
  obtain ⟨⟨r, hr, hl, hroot⟩, hh⟩ := id hwf
  have hres : walk t.heap r (stringsSplit p ' ') = some x := by
    unfold resolve at hp; rw [hr] at hp; exact hp
  obtain ⟨p0, k, a, hcs, hp0, hg⟩ :=
    walk_last t.heap r x _ (stringsSplit_ne_nil p ' ') hres
  have ha : a < t.heap.length := walk_lt t.heap r a p0 hh hl hp0
  obtain ⟨hx, hpar, hname, hmem⟩ := getNode_sound t.heap a x k hh ha hg
  have hdel := Delete_found t hwf r hr p x a hp hpar
  rw [hname] at hdel
  have hwf2 : WF (t.Delete p).2 := by
    rw [hdel, ← hr]
    exact WF_of_heap t hwf _ _ (HeapWF_deleteNode t.heap a k hh)
      (by rw [deleteNode_length]) (fun m _ => parent_deleteNode t.heap a k m)
  have hidx : ∀ m j, ¬ (m = a ∧ j = k) →
      getNode (deleteNode t.heap a k) m j = getNode t.heap m j := by
    intro m j hmj
    rw [getNode_deleteNode, if_neg hmj]
  have hwp0 : walk (deleteNode t.heap a k) r p0 = some a := by
    rw [walk_congr_off_edge t.heap _ a k hidx r p0
      (fun q1 q2 hq => walk_prefix_ne t.heap r a p0 q1 q2 k hh hl hroot hp0 hq)]
    exact hp0
  have hext : ∀ q rest, stringsSplit q ' ' = stringsSplit p ' ' ++ rest →
      (t.Delete p).2.Has q = false := by
    intro q rest hq
    rw [Has_eq _ hwf2, hdel]
    unfold resolve
    simp only
    rw [hq, hcs, List.append_assoc, walk_append, hwp0]
    have hgone : getNode (deleteNode t.heap a k) a k = none := by
      rw [getNode_deleteNode, if_pos ⟨rfl, rfl⟩]
    simp [walk, hgone]
  have hframe : ∀ q, (¬ ∃ rest, stringsSplit q ' ' = stringsSplit p ' ' ++ rest) →
      resolve (t.Delete p).2 q = resolve t q := by
    intro q hq
    rw [hdel]
    unfold resolve
    rw [hr]
    simp only
    apply walk_congr_off_edge t.heap _ a k hidx r
    intro q1 q2 hsplit hq1
    apply hq
    have := walk_unique t.heap r a p0 q1 hh hl hroot hp0 hq1
    refine ⟨q2, ?_⟩
    rw [hsplit, hcs, this]
    simp
  refine ⟨?_, ?_, ?_, ?_, hext, ?_⟩
  · rw [hdel]
  · rw [hdel]; rfl
  · refine ⟨a, hpar, ?_, hmem, ?_, ?_, ?_⟩
    · rw [hname]; exact hg
    · rw [hdel, hname]
      simp only
      rw [getNode_deleteNode, if_pos ⟨rfl, rfl⟩]
    · rw [hdel]
      simp only
      rw [node_deleteNode_self t.heap a k ha]
      simp only [detach, Option.getD_some, List.mem_filter, not_and]
      intro _
      simp [hname]
    · intro m hm
      rw [hdel]
      exact node_deleteNode_of_ne t.heap a k m hm
  · exact hext p [] (by simp)
  · intro q hq
    rw [Get_eq _ hwf2 q, Get_eq t hwf q, Has_eq _ hwf2, Has_eq t hwf, hframe q hq]
    exact ⟨rfl, rfl⟩

/-- C9 at the tree holding `a b`, for `Delete("a b")`. -/
theorem C9_delete_found_witness :
    WF treeAB ∧ resolve treeAB "a b" = some 2 ∧
    (treeAB.Delete "a b").1 = Except.ok true ∧
    (treeAB.Delete "a b").2.Commands = treeAB.Commands ++ ["$DELETE " ++ "a b"] ∧
    (∃ a, (node treeAB.heap 2).parent = some a ∧
      getNode treeAB.heap a (node treeAB.heap 2).name = some 2 ∧
      2 ∈ (node treeAB.heap a).children.getD [] ∧
      getNode (treeAB.Delete "a b").2.heap a (node treeAB.heap 2).name = none ∧
      2 ∉ (node (treeAB.Delete "a b").2.heap a).children.getD [] ∧
      (∀ m, m ≠ a → node (treeAB.Delete "a b").2.heap m = node treeAB.heap m)) ∧
    (treeAB.Delete "a b").2.Has "a b" = false ∧
    (∀ q rest, stringsSplit q ' ' = stringsSplit "a b" ' ' ++ rest →
      (treeAB.Delete "a b").2.Has q = false) ∧
    (∀ q, (¬ ∃ rest, stringsSplit q ' ' = stringsSplit "a b" ' ' ++ rest) →
      ((treeAB.Delete "a b").2.Get q).1 = (treeAB.Get q).1 ∧
      (treeAB.Delete "a b").2.Has q = treeAB.Has q) :=
  ⟨WF_treeAB, by decide, C9_delete_found treeAB WF_treeAB "a b" 2 (by decide)⟩

/-- C10: on a well-formed tree with root `r`, `Has(p)` is true exactly when the
descent from the root through the child lists finds a child for every segment of
`p`; `Get(p)` never panics and returns what that descent ends at (a node exactly
when `Has(p)` is true, not-found otherwise); `Get` changes neither the heap, nor
the root, nor the change log. -/
theorem C10_has_get_walk (t : VyosConfigTree) (hwf : WF t) (p : String) :
    ∃ r, t.Root = some r ∧
      (t.Has p = true ↔ ∃ n, walkChildren t.heap r (stringsSplit p ' ') = some n) ∧
      (t.Get p).1 = Except.ok (walkChildren t.heap r (stringsSplit p ' ')) ∧
      (t.Has p = true ↔ ∃ n, (t.Get p).1 = Except.ok (some n)) ∧
      (t.Has p = false ↔ (t.Get p).1 = Except.ok none) ∧
      (t.Get p).2.heap = t.heap ∧ (t.Get p).2.Root = t.Root ∧
      (t.Get p).2.Commands = t.Commands := by
  have hget := Get_eq t hwf p
  have hhas := Has_eq t hwf p
  obtain ⟨⟨r, hr, hl, _⟩, hh⟩ := hwf
  have hres : resolve t p = walkChildren t.heap r (stringsSplit p ' ') := by
    unfold resolve
    rw [hr]
    exact walk_eq_walkChildren t.heap r _ hh hl
  rw [hres] at hget hhas
  refine ⟨r, hr, ?_, ?_, ?_, ?_, ?_, ?_, ?_⟩
  · rw [hhas]; exact Option.isSome_iff_exists
  · rw [hget]
  · rw [hhas, hget]
    simp only [Except.ok.injEq]
    exact Option.isSome_iff_exists
  · rw [hhas, hget]
    simp only [Except.ok.injEq]
    cases walkChildren t.heap r (stringsSplit p ' ') <;> simp
  · rw [hget, init_of_root t r hr]
  · rw [hget, init_of_root t r hr, hr]
  · rw [hget]; exact init_Commands t

/-- C10 at the tree holding `a b` and the path `a b`. -/
theorem C10_has_get_walk_witness :
    WF treeAB ∧
    ∃ r, treeAB.Root = some r ∧
      (treeAB.Has "a b" = true ↔
        ∃ n, walkChildren treeAB.heap r (stringsSplit "a b" ' ') = some n) ∧
      (treeAB.Get "a b").1 = Except.ok (walkChildren treeAB.heap r (stringsSplit "a b" ' ')) ∧
      (treeAB.Has "a b" = true ↔ ∃ n, (treeAB.Get "a b").1 = Except.ok (some n)) ∧
      (treeAB.Has "a b" = false ↔ (treeAB.Get "a b").1 = Except.ok none) ∧
      (treeAB.Get "a b").2.heap = treeAB.heap ∧ (treeAB.Get "a b").2.Root = treeAB.Root ∧
      (treeAB.Get "a b").2.Commands = treeAB.Commands :=
  ⟨WF_treeAB, C10_has_get_walk treeAB WF_treeAB "a b"⟩

/-- C11 fails on the tree left by `Set("a b c")` and `Delete("a b c")`: the node
`a` (address 1, found by `Get("a")`) has exactly one child, `b` (address 2), and
`b` has no children, yet `a` is no key node to the code and `Value` on it is
fatal. -/
theorem C11_value_fatal_on_emptied_child :
    Reachable treeEmptied ∧
    (treeEmptied.Get "a").1 = Except.ok (some 1) ∧
    (node treeEmptied.heap 1).children = some [2] ∧
    (node treeEmptied.heap 2).name = "b" ∧
    (node treeEmptied.heap 2).children.getD [] = [] ∧
    isKeyNode treeEmptied.heap 1 = false ∧
    Value treeEmptied.heap 1 = Except.error (Failure.assertion 1) :=
  ⟨Reachable.delete _ _ (Reachable.set _ _ (Reachable.parse "" parsedEmpty (by decide))),
    by decide, by decide, by decide, by decide, by decide, by decide⟩

/-- C12 fails on the tree left by `Set("a b c")` and `Delete("a b c")`: the path
`a b` resolves and ends at a node without children, a leaf of the tree, yet
`String` has no line for it: it returns the empty text. -/
theorem C12_string_omits_emptied_leaf :
    Reachable treeEmptied ∧
    treeEmptied.Has "a b" = true ∧
    (treeEmptied.Get "a b").1 = Except.ok (some 2) ∧
    (node treeEmptied.heap 2).children.getD [] = [] ∧
    treeEmptied.pathLines = [] ∧
    treeEmptied.String = "" :=
  ⟨Reachable.delete _ _ (Reachable.set _ _ (Reachable.parse "" parsedEmpty (by decide))),
    by decide, by decide, by decide, by decide, by decide⟩

/-- C13: in every tree built by `Parse` followed by any calls of `Set`, `Delete`
and `Get`, at every allocated node the index maps a name to a node exactly when
that node is in the child list and has that name, the index lists the children
under their names in the order of the child list, and no two children have the
same name. -/
theorem C13_index_mirrors_children (t : VyosConfigTree) (hr : Reachable t) (n : Ptr)
    (hn : n < t.heap.length) :
    (∀ k c, getNode t.heap n k = some c ↔
      (c ∈ (node t.heap n).children.getD [] ∧ (node t.heap c).name = k)) ∧
    (node t.heap n).childrenIndex.getD [] =
      ((node t.heap n).children.getD []).map (fun c => ((node t.heap c).name, c)) ∧
    (((node t.heap n).children.getD []).map (fun c => (node t.heap c).name)).Nodup := by
  have hwf := WF_of_Reachable t hr
  exact ⟨fun k c => getNode_iff_mem t.heap n c k hwf.2 hn, (hwf.2 n hn).2.1, (hwf.2 n hn).2.2.2⟩

/-- C13 at the node `rule` of the tree parsed from the seven-line text, after
`Set` and `Delete`. -/
theorem C13_index_mirrors_children_witness :
    Reachable ((natConfigTree.Set "nat x y").2.Delete "nat source").2 ∧
    1 < ((natConfigTree.Set "nat x y").2.Delete "nat source").2.heap.length ∧
    (∀ k c, getNode ((natConfigTree.Set "nat x y").2.Delete "nat source").2.heap 1 k = some c ↔
      (c ∈ (node ((natConfigTree.Set "nat x y").2.Delete "nat source").2.heap 1).children.getD [] ∧
        (node ((natConfigTree.Set "nat x y").2.Delete "nat source").2.heap c).name = k)) ∧
    (node ((natConfigTree.Set "nat x y").2.Delete "nat source").2.heap 1).childrenIndex.getD [] =
      ((node ((natConfigTree.Set "nat x y").2.Delete "nat source").2.heap 1).children.getD []).map
        (fun c => ((node ((natConfigTree.Set "nat x y").2.Delete "nat source").2.heap c).name, c)) ∧
    (((node ((natConfigTree.Set "nat x y").2.Delete "nat source").2.heap 1).children.getD []).map
      (fun c => (node ((natConfigTree.Set "nat x y").2.Delete "nat source").2.heap c).name)).Nodup :=
  ⟨Reachable.delete _ _ (Reachable.set _ _ Reachable_natConfigTree), by decide,
    C13_index_mirrors_children _
      (Reachable.delete _ _ (Reachable.set _ _ Reachable_natConfigTree)) 1 (by decide)⟩

end server

namespace zvr

/-- C14: a request to a path registered as asynchronous whose header `callbackurl`
or whose header `taskuuid` is missing (`Get` yields the empty text) is answered by
`dispatch` with the status 400: the wrap registered for the path is not run,
whatever it is, so no command handler sees the request and no callback post is
made, and nothing is raised. -/
theorem C14_missing_header_400 (commandHandlers : List (String × commandHandlerWrap))
    (wrap : commandHandlerWrap) (req : Request) (world : World)
    (hreg : commandHandlers.lookup req.Path = some wrap) (hasync : wrap.async = true)
    (hmiss : req.HeaderGet CALLBACK_URL = "" ∨ req.HeaderGet TASK_UUID = "")
    (hfresh : world.w.status = none) :
    ∃ msg, dispatch commandHandlers req world
      = (none, { w := { status := some StatusBadRequest, body := world.w.body ++ msg },
                 runs := world.runs, posts := world.posts }) := by
  by_cases hcb : req.HeaderGet CALLBACK_URL = ""
  · exact ⟨"no field \x27" ++ CALLBACK_URL ++
        "\x27 found in the HTTP header but the plugin registers the path[" ++ req.Path ++
        "] as an async command",
      by simp [dispatch, hreg, hasync, hcb, Fprint, WriteHeader_fresh _ _ hfresh]⟩
  · have htask : req.HeaderGet TASK_UUID = "" := hmiss.resolve_left hcb
    exact ⟨"no field \x27" ++ TASK_UUID ++
        "\x27 found in the HTTP header but the plugin registers the path[" ++ req.Path ++
        "] as an async command",
      by simp [dispatch, hreg, hasync, hcb, htask, Fprint, WriteHeader_fresh _ _ hfresh]⟩

/-- C14 at a request to `/setsnat` that has no header `taskuuid`. -/
theorem C14_missing_header_400_witness :
    requestNoTask.HeaderGet TASK_UUID = "" ∧
    ∃ msg, dispatch sampleHandlers requestNoTask freshWorld
      = (none, { w := { status := some StatusBadRequest, body := freshWorld.w.body ++ msg },
                 runs := freshWorld.runs, posts := freshWorld.posts }) :=
  ⟨by decide, C14_missing_header_400 sampleHandlers
    (newWrap sampleEnv [] "/setsnat" failingHandler true) requestNoTask freshWorld rfl rfl
    (Or.inr (by decide)) rfl⟩

/-- C15: let a command handler be registered for a path, synchronous or
asynchronous, under interceptors that hand the request on (as `G` makes it), and let
a request be routed to it (for an asynchronous one both headers are there).  If the
handler raises a failure with the message `e`, then `dispatch` returns without
raising anything, and the reply has the status 200 and as its body exactly what
`json.Marshal` makes of `ReplyHeader` with `Success` false and `Error` the message
`e`; no callback post is made. -/
theorem C15_guard_replies_failure (env : Env)
    (interceptors : List (String × List HttpInterceptor))
    (commandHandlers : List (String × commandHandlerWrap)) (chandler : CommandHandler)
    (async : Bool) (G : Request → Request) (req : Request) (world : World) (e body : String)
    (hreg : commandHandlers.lookup req.Path
      = some (newWrap env interceptors req.Path chandler async))
    (hG : ∀ f r w, applyInterceptors interceptors f r w = f (G r) w)
    (hrouted : async = true → req.HeaderGet CALLBACK_URL ≠ "" ∧ req.HeaderGet TASK_UUID ≠ "")
    (hfail : chandler (G req) = .error e)
    (hjson : env.marshalReply { Success := false, Error := e } = .ok body)
    (hfresh : world.w = { status := none, body := "" }) :
    dispatch commandHandlers req world
      = (none, { w := { status := some StatusOK, body := body },
                 runs := world.runs ++ [G req], posts := world.posts }) := by
  cases async with
  | false =>
    rw [dispatch_sync _ _ req world hreg rfl]
    simp [newWrap, guarded, hG, inner_fails _ _ _ _ _ e hfail, hjson, hfresh, Fprint,
      ResponseWriter.WriteHeader]
  | true =>
    obtain ⟨hcb, htask⟩ := hrouted rfl
    rw [dispatch_async _ _ req world hreg rfl hcb htask]
    simp [newWrap, guarded, hG, inner_fails _ _ _ _ _ e hfail, hjson, hfresh, Fprint,
      ResponseWriter.WriteHeader, StatusOK]

/-- C15 at the synchronous command `/sync`, whose handler raises `boom`. -/
theorem C15_guard_replies_failure_witness :
    dispatch sampleHandlers { Path := "/sync", Header := [] } freshWorld
      = (none, { w := { status := some StatusOK,
                        body := "\x7b\"success\":false,\"error\":\"boom\"\x7d" },
                 runs := freshWorld.runs ++ [{ Path := "/sync", Header := [] }],
                 posts := freshWorld.posts }) :=
  C15_guard_replies_failure sampleEnv [] sampleHandlers failingHandler false id
    { Path := "/sync", Header := [] } freshWorld "boom"
    "\x7b\"success\":false,\"error\":\"boom\"\x7d" rfl (fun _ _ _ => rfl)
    (fun h => Bool.noConfusion h) rfl (by decide) rfl

/-- C16, as stated, fails: `failingHandler` is registered as the asynchronous
command `/setsnat`, the request carries both headers, and the body of the reply is
the failure reply, not the empty text (and no callback post is made). -/
theorem C16_async_body_counterexample :
    registerCommandHandler sampleEnv []
        [("/sync", newWrap sampleEnv [] "/sync" failingHandler false)]
        "/setsnat" (some failingHandler) true
      = .ok [("/setsnat", newWrap sampleEnv [] "/setsnat" failingHandler true),
             ("/sync", newWrap sampleEnv [] "/sync" failingHandler false)] ∧
    sampleHandlers.lookup "/setsnat"
      = some (newWrap sampleEnv [] "/setsnat" failingHandler true) ∧
    requestBoth.HeaderGet CALLBACK_URL = "http://mn/cb" ∧
    requestBoth.HeaderGet TASK_UUID = "42" ∧
    dispatch sampleHandlers requestBoth freshWorld
      = (none, { w := { status := some 200,
                        body := "\x7b\"success\":false,\"error\":\"boom\"\x7d" },
                 runs := [requestBoth], posts := [] }) := by
  refine ⟨rfl, rfl, by decide, by decide, by decide⟩

/-- C16, amended: for a request to a path registered as asynchronous (under
interceptors that hand the request on, as `G` makes it) that carries both headers,
`dispatch` raises nothing and the reply has the status 200.  When the handler
returns, the body is empty and its result goes out only in the callback posts of
`Retry`, between one and fifteen attempts, each to the callback URL with the task
identifier.  When the handler raises a failure, the body is the failure reply and
no callback post is made. -/
theorem C16_async_reply (env : Env) (interceptors : List (String × List HttpInterceptor))
    (commandHandlers : List (String × commandHandlerWrap)) (chandler : CommandHandler)
    (G : Request → Request) (req : Request) (world : World)
    (hreg : commandHandlers.lookup req.Path
      = some (newWrap env interceptors req.Path chandler true))
    (hG : ∀ f r w, applyInterceptors interceptors f r w = f (G r) w)
    (hcb : req.HeaderGet CALLBACK_URL ≠ "") (htask : req.HeaderGet TASK_UUID ≠ "")
    (hfresh : world.w = { status := none, body := "" }) :
    (dispatch commandHandlers req world).1 = none ∧
    (dispatch commandHandlers req world).2.w.status = some StatusOK ∧
    (dispatch commandHandlers req world).2.runs = world.runs ++ [G req] ∧
    (∀ rsp, chandler (G req) = .ok rsp →
      (dispatch commandHandlers req world).2.w.body = "" ∧
      ∃ k, 0 < k ∧ k ≤ 15 ∧
        (dispatch commandHandlers req world).2.posts
          = world.posts ++ List.replicate k
              { url := (G req).HeaderGet CALLBACK_URL, taskUuid := (G req).HeaderGet TASK_UUID,
                rsp := rsp }) ∧
    (∀ e body, chandler (G req) = .error e →
      env.marshalReply { Success := false, Error := e } = .ok body →
      (dispatch commandHandlers req world).2.w.body = body ∧
      (dispatch commandHandlers req world).2.posts = world.posts) := by
  rw [dispatch_async _ _ req world hreg rfl hcb htask]
  cases hch : chandler (G req) with
  | ok rsp =>
    have hrun := inner_async_returns env chandler (G req)
      { world with w := Fprint (world.w.WriteHeader StatusOK) "" } rsp hch
    obtain ⟨k, hk, hpos, hr⟩ := Retry_posts env
      { url := (G req).HeaderGet CALLBACK_URL, taskUuid := (G req).HeaderGet TASK_UUID,
        rsp := rsp } 15 0 world.posts
    simp only [newWrap, guarded, hG, hrun]
    refine ⟨trivial, by simp [hfresh, Fprint, ResponseWriter.WriteHeader], trivial, ?_, ?_⟩
    · intro rsp2 h2
      cases h2
      exact ⟨by simp [hfresh, Fprint, ResponseWriter.WriteHeader],
        k, hpos (by omega), hk, hr⟩
    · intro e body h2
      cases h2
  | error e =>
    have hrun := inner_fails env chandler true (G req)
      { world with w := Fprint (world.w.WriteHeader StatusOK) "" } e hch
    cases hj : env.marshalReply { Success := false, Error := e } with
    | error e2 =>
      simp only [newWrap, guarded, hG, hrun, hj]
      refine ⟨trivial, by simp [hfresh, Fprint, ResponseWriter.WriteHeader, StatusOK], trivial,
        ?_, ?_⟩
      · intro rsp h2
        cases h2
      · intro e3 body h2 h3
        cases h2
        cases hj.symm.trans h3
    | ok body =>
      simp only [newWrap, guarded, hG, hrun, hj]
      refine ⟨trivial, by simp [hfresh, Fprint, ResponseWriter.WriteHeader, StatusOK], trivial,
        ?_, ?_⟩
      · intro rsp h2
        cases h2
      · intro e3 body3 h2 h3
        cases h2
        cases hj.symm.trans h3
        exact ⟨by simp [hfresh, Fprint, ResponseWriter.WriteHeader], trivial⟩

/-- C16 (amended) at the asynchronous command `/removesnat`, whose handler returns
nil. -/
theorem C16_async_reply_witness :
    (dispatch sampleHandlers requestRemove freshWorld).1 = none ∧
    (dispatch sampleHandlers requestRemove freshWorld).2.w.status = some StatusOK ∧
    (dispatch sampleHandlers requestRemove freshWorld).2.runs
      = freshWorld.runs ++ [id requestRemove] ∧
    (∀ rsp, returningHandler (id requestRemove) = .ok rsp →
      (dispatch sampleHandlers requestRemove freshWorld).2.w.body = "" ∧
      ∃ k, 0 < k ∧ k ≤ 15 ∧
        (dispatch sampleHandlers requestRemove freshWorld).2.posts
          = freshWorld.posts ++ List.replicate k
              { url := (id requestRemove).HeaderGet CALLBACK_URL,
                taskUuid := (id requestRemove).HeaderGet TASK_UUID, rsp := rsp }) ∧
    (∀ e body, returningHandler (id requestRemove) = .error e →
      sampleEnv.marshalReply { Success := false, Error := e } = .ok body →
      (dispatch sampleHandlers requestRemove freshWorld).2.w.body = body ∧
      (dispatch sampleHandlers requestRemove freshWorld).2.posts = freshWorld.posts) :=
  C16_async_reply sampleEnv [] sampleHandlers returningHandler id requestRemove freshWorld
    rfl (fun _ _ _ => rfl) (by decide) (by decide) rfl

end zvr

namespace server

/-- C17, as stated, fails on the change log of the tree after `Set("a b\nc")` on
the zero-valued tree: the call returns, the change log has the one entry
`$SET a b\nc`, and the script has two lines for it, `$SET a b` and `c`, between
the session setup and `$COMMIT`. -/
theorem C17_entry_with_line_end :
    (VyosConfigTree.empty.Set "a b\nc").1 = Except.ok true ∧
    (VyosConfigTree.empty.Set "a b\nc").2.Commands = ["$SET a b\nc"] ∧
    stringsSplit (vyosScript (VyosConfigTree.empty.Set "a b\nc").2.CommandsAsString) '\n' =
      scriptHeadLines ++ ["$SET a b", "c"] ++ "$COMMIT" :: scriptTailLines := by
  refine ⟨by decide, by decide, ?_⟩
  rw [vyosScript_lines]
  decide

/-- C17, amended: the script rendered for the change log of a tree none of whose entries
holds a line end has, after the lines of the session setup (the last of which
are `$API setupSession` and a blank line), the entries of the change log, one a
line and in the order of the change log (a single blank line when the change log
is empty), then the line `$COMMIT`, the only such line of the template, then the
rest of the template. -/
theorem C17_script_lines (t : VyosConfigTree) (hnl : ∀ e ∈ t.Commands, '\n' ∉ e.data) :
    stringsSplit (vyosScript t.CommandsAsString) '\n' =
      scriptHeadLines ++ (if t.Commands = [] then [""] else t.Commands) ++
        "$COMMIT" :: scriptTailLines ∧
    scriptHeadLines.drop 17 = ["$API setupSession", ""] ∧
    "$COMMIT" ∉ scriptHeadLines ∧ "$COMMIT" ∉ scriptTailLines := by
  refine ⟨?_, by decide, by decide, by decide⟩
  rw [vyosScript_lines]
  unfold VyosConfigTree.CommandsAsString
  by_cases hc : t.Commands = []
  · rw [if_pos hc, hc]
    rfl
  · rw [if_neg hc, stringsSplit_stringsJoin_newline t.Commands hc hnl]

/-- C17 at the tree after `Set("a b")` and `Set("a c")`. -/
theorem C17_script_lines_witness :
    (∀ e ∈ treeABthenAC.Commands, '\n' ∉ e.data) ∧
    stringsSplit (vyosScript treeABthenAC.CommandsAsString) '\n' =
      scriptHeadLines ++ (if treeABthenAC.Commands = [] then [""] else treeABthenAC.Commands) ++
        "$COMMIT" :: scriptTailLines ∧
    scriptHeadLines.drop 17 = ["$API setupSession", ""] ∧
    "$COMMIT" ∉ scriptHeadLines ∧ "$COMMIT" ∉ scriptTailLines :=
  ⟨by decide, C17_script_lines treeABthenAC (by decide)⟩

/-- C18 fails on the script rendered for the change log `$SET a b`: the line that
registers the teardown handler, `trap atexit EXIT SIGHUP SIGINT SIGTERM`, is the
last line of the script, after the entries, after `$COMMIT` and after the
`exit 1` taken on a failed commit. -/
theorem C18_trap_registered_last :
    stringsSplit (vyosScript (stringsJoin logAB "\n")) '\n' =
      scriptHeadLines ++ ["$SET a b", "$COMMIT", "if [ $? -ne 0 ]; then",
        "\techo \"fail to commit\"", "\texit 1", "fi", "", "function atexit() \x7b",
        "    $API teardownSession", "\x7d", "",
        "trap atexit EXIT SIGHUP SIGINT SIGTERM", ""] ∧
    "trap atexit EXIT SIGHUP SIGINT SIGTERM" ∉ scriptHeadLines ∧
    (∀ l ∈ scriptHeadLines, l ≠ "function atexit() \x7b") := by
  refine ⟨?_, by decide, by decide⟩
  rw [vyosScript_lines]
  decide

end server

namespace zvr

/-- C21, as stated, fails: both parsers accept `server.nestedText`, in which the
block `b` stands inside the block `a`; for the key path `a b k` the parser of
`zvr/server` finds the value `v`, the parser of `zvr` finds nothing. -/
theorem C21_nested_block_counterexample :
    VyosParser.Parse server.nestedText = Except.ok nestedParser ∧
    server.Parse server.nestedText = Except.ok server.nestedTree ∧
    server.stringsSplit "a b k" ' ' = ["a", "b", "k"] ∧
    nestedParser.GetValue ["a", "b", "k"] = Except.ok ("", false) ∧
    (server.GetValue server.nestedTree "a b k").1 = Except.ok ("v", true) := by
  refine ⟨by decide, by decide, by decide, by decide, by decide⟩

/-- C21, amended: let no word of a text have more than 65533 bytes, and let the
lines of the text, the blank ones apart, be those of top-level blocks, each opened
by a two-token line and holding two-token leaf lines only, with no block name
twice and no key twice in a block.  Then both parsers accept the text, and for
every key path (a string of segments separated by single blanks, as `GetValue` of
`zvr/server` takes it, and its segments, as `GetValue` of `zvr` takes them) the
one finds a value exactly when the other does, and the same value. -/
theorem C21_flat_texts_agree (text : String) (blocks : List server.Block)
    (hshort : server.ShortWords (server.textLines text))
    (hlines : (server.textLines text).filter (fun l => decide (l ≠ []))
      = server.flatLines blocks)
    (hnames : (blocks.map Prod.fst).Nodup)
    (hkeys : ∀ be ∈ blocks, (be.2.map Prod.fst).Nodup)
    (hvals : ∀ be ∈ blocks, ∀ e ∈ be.2, e.2 ≠ "\x7b" ∧ e.2 ≠ "\x7d") :
    ∃ p t, VyosParser.Parse text = Except.ok p ∧ server.Parse text = Except.ok t ∧
      ∀ key v, p.GetValue (server.stringsSplit key ' ') = Except.ok (v, true) ↔
        (server.GetValue t key).1 = Except.ok (v, true) := by
  rw [← server.lineTokens_eq_textLines text hshort] at hlines
  obtain ⟨t, ht⟩ := server.Parse_flat text blocks hlines hvals
  have htok := server.flat_tokens text blocks hlines
  obtain ⟨st2, hrun, hinv⟩ := blocks_run blocks { heap := [[]], current := none } []
    TopInv_start (by rw [List.nil_append]; exact hnames)
    (fun be hbe => ⟨(htok be hbe).1, fun e he =>
      ⟨((htok be hbe).2 e he).1, ((htok be hbe).2 e he).2,
        (hvals be hbe e he).1, (hvals be hbe e he).2⟩⟩)
  rw [List.nil_append] at hinv
  have hp := Parse_of_runLines text st2 (by rw [hlines]; exact hrun)
  refine ⟨_, t, hp, ht, fun key v => ?_⟩
  rw [GetValue_blocks st2.heap blocks hinv _ v,
    server.GetValue_flat text blocks t ht hlines hnames hkeys hvals key v]

/-- C21 (amended) at `flatText`, the blocks `a` with `k v` and `w x`, and `b` with
`k y`. -/
theorem C21_flat_texts_agree_witness :
    server.ShortWords (server.textLines flatText) ∧
    ∃ p t, VyosParser.Parse flatText = Except.ok p ∧ server.Parse flatText = Except.ok t ∧
      ∀ key v, p.GetValue (server.stringsSplit key ' ') = Except.ok (v, true) ↔
        (server.GetValue t key).1 = Except.ok (v, true) :=
  ⟨by decide, C21_flat_texts_agree flatText [("a", [("k", "v"), ("w", "x")]), ("b", [("k", "y")])]
    (by decide) (by decide) (by decide) (by decide) (by decide)⟩

end zvr

namespace server

/-- C22 fails on the tree left by `Set("a b c")` and `Delete("a b c")`: the
key-path `a` of `a x` resolves to the node at address 1, which has exactly one
child, `b` (address 2), and `b` has no children, so `a` is a key node as the
claim has it; yet `Set("a x")` is fatal, on the assertion about that node. -/
theorem C22_set_fatal_on_emptied_child :
    Reachable treeEmptied ∧
    2 ≤ (stringsSplit "a x" ' ').length ∧
    resolve treeEmptied (VyosConfigTree.keyOf "a x") = some 1 ∧
    (node treeEmptied.heap 1).children = some [2] ∧
    (node treeEmptied.heap 2).children.getD [] = [] ∧
    (treeEmptied.Set "a x").1 = Except.error (Failure.assertion 1) :=
  ⟨Reachable.delete _ _ (Reachable.set _ _ (Reachable.parse "" parsedEmpty (by decide))),
    by decide, by decide, by decide, by decide, by decide⟩

/-- C23, as stated, fails: `Parse` accepts `reopenedText`, whose leaf line `k v`
lies in the block opened by the two-token line `a` and is the only statement of
that block; yet `Set("a k v")` on the parsed tree is fatal, because the later
line `a k` with the opening brace reuses the node `k` and gives it a second
child. -/
theorem C23_reassert_fatal_counterexample :
    lineTokens reopenedText =
      [["a", "\x7b"], ["k", "v"], ["\x7d"], ["a", "k", "\x7b"], ["w", "x"], ["\x7d"]] ∧
    Parse reopenedText = Except.ok reopenedTree ∧
    (reopenedTree.Set "a k v").1 = Except.error (Failure.assertion 2) ∧
    (reopenedTree.Set "a k v").1 ≠ Except.ok false := by
  refine ⟨by decide, by decide, by decide, by decide⟩

/-- C23, amended: let `Parse` accept a text, let `k v` be a two-token leaf line of
it, and let `b1 ... bm` be the path of the block that is open where the line
stands (`openPath` of the lines before it).  If every path that a line of the text
adds and that continues `b1 ... bm k` is `b1 ... bm k v` itself, then
`Set("b1 ... bm k v")` on the parsed tree reports unchanged (`false`), appends
nothing to the change log and leaves the nodes and the root as they are. -/
theorem C23_reassert_parsed (text : String) (t : VyosConfigTree)
    (pre post : List (List String)) (k v : String)
    (hp : Parse text = Except.ok t)
    (hline : lineTokens text = pre ++ [k, v] :: post)
    (hleaf : v ≠ "\x7b" ∧ v ≠ "\x7d")
    (honly : ∀ d ∈ textPaths text, (openPath pre ++ [k]) <+: d → d = openPath pre ++ [k, v]) :
    (t.Set (stringsJoin (openPath pre ++ [k, v]) " ")).1 = Except.ok false ∧
    (t.Set (stringsJoin (openPath pre ++ [k, v]) " ")).2.Commands = t.Commands ∧
    (t.Set (stringsJoin (openPath pre ++ [k, v]) " ")).2.heap = t.heap ∧
    (t.Set (stringsJoin (openPath pre ++ [k, v]) " ")).2.Root = t.Root := by
  have hwf := WF_Parse text t hp
  obtain ⟨hroot, hA, hB, hC⟩ := Parse_paths text t hp
  obtain ⟨⟨r, hr, hl, _⟩, hh⟩ := id hwf
  rw [hroot] at hr
  cases hr
  have hmem : [k, v] ∈ lineTokens text := by
    rw [hline]; exact List.mem_append_right _ (List.mem_cons_self _ _)
  have hk : ' ' ∉ k.data := lineTokens_no_space text _ hmem k (by simp)
  have hv : ' ' ∉ v.data := lineTokens_no_space text _ hmem v (by simp)
  have hP : ∀ w ∈ openPath pre, ' ' ∉ w.data :=
    openPath_tokens (fun w => ' ' ∉ w.data) pre (fun l hl w hw =>
      lineTokens_no_space text l (by rw [hline]; exact List.mem_append_left _ hl) w hw)
  have hin : (openPath pre ++ [k]) ++ [v] ∈ textPaths text := by
    rw [List.append_assoc]
    exact leaf_mem_textPaths text pre post k v hline hleaf.1 hleaf.2
  obtain ⟨n, hw, hval⟩ := keyNode_of_paths t.heap _ (openPath pre ++ [k]) v hh hl hA hB hC hin
    (fun d hd hpre => Or.inr (by rw [List.append_assoc]; exact honly d hd hpre))
  have hc : stringsJoin (openPath pre ++ [k, v]) " "
      = stringsJoin (openPath pre ++ [k]) " " ++ " " ++ v := by
    rw [show openPath pre ++ [k, v] = (openPath pre ++ [k]) ++ [v] by simp]
    exact stringsJoin_append_singleton _ v (by simp)
  have hsplit : stringsSplit (stringsJoin (openPath pre ++ [k]) " ") ' ' = openPath pre ++ [k] :=
    stringsSplit_stringsJoin _ (by simp) (fun w hw => by
      rcases List.mem_append.mp hw with h | h
      · exact hP w h
      · rw [List.mem_singleton.mp h]; exact hk)
  have hres : resolve t (VyosConfigTree.keyOf (stringsJoin (openPath pre ++ [k, v]) " "))
      = some n := by
    rw [hc, keyOf_append_token _ v hv]
    unfold resolve
    rw [hroot]
    simp only
    rw [hsplit]
    exact hw
  have hvalue : Value t.heap n
      = Except.ok (VyosConfigTree.valueOf (stringsJoin (openPath pre ++ [k, v]) " ")) := by
    rw [hc, valueOf_append_token _ v hv]
    exact hval
  rw [Set_same t hwf _ n hres hvalue, init_of_root t 0 hroot]
  exact ⟨rfl, rfl, rfl, hroot.symm⟩

/-- C23 (amended) at `nestedText`, for the leaf line `k v` in the blocks `a`,
`b`. -/
theorem C23_reassert_parsed_witness :
    (nestedTree.Set (stringsJoin (openPath [["a", "\x7b"], ["b", "\x7b"]] ++ ["k", "v"]) " ")).1
      = Except.ok false ∧
    (nestedTree.Set (stringsJoin (openPath [["a", "\x7b"], ["b", "\x7b"]] ++ ["k", "v"]) " ")).2.Commands
      = nestedTree.Commands ∧
    (nestedTree.Set (stringsJoin (openPath [["a", "\x7b"], ["b", "\x7b"]] ++ ["k", "v"]) " ")).2.heap
      = nestedTree.heap ∧
    (nestedTree.Set (stringsJoin (openPath [["a", "\x7b"], ["b", "\x7b"]] ++ ["k", "v"]) " ")).2.Root
      = nestedTree.Root :=
  C23_reassert_parsed nestedText nestedTree [["a", "\x7b"], ["b", "\x7b"]] [["\x7d"], ["\x7d"]]
    "k" "v" (by decide) (by decide) (by decide) (by decide)

/-- C24: `Parse` ends on every text.  Every offset `matchToken` returns is at
least 1, so every round of the loop moves the index on; with `len(words)` rounds
or more the loop comes to the same end, which is the tree or a panic of the code
and never the want of rounds. -/
theorem C24_parse_terminates (text : String) :
    (∀ words o r keys value, matchToken words = Except.ok (o, r, keys, value) → 1 ≤ o) ∧
    (∀ st words o st2, parseStep st words = Except.ok (o, st2) → 1 ≤ o) ∧
    (∀ fuel, (parseWords text).length ≤ fuel →
      parseLoop (parseWords text) fuel 0 parseStart
        = parseLoop (parseWords text) (parseWords text).length 0 parseStart) ∧
    Parse text ≠ Except.error Failure.outOfFuel ∧
    ((∃ t, Parse text = Except.ok t) ∨ (∃ ws, Parse text = Except.error (Failure.parseError ws)) ∨
      Parse text = Except.error Failure.emptyStack) := by
  have hfuel := parseLoop_fuel (parseWords text) (parseWords text).length 0 parseStart
  have hne : Parse text ≠ Except.error Failure.outOfFuel := by
    intro h
    unfold Parse at h
    simp only at h
    cases hl : parseLoop (parseWords text) (parseWords text).length 0 parseStart with
    | error e =>
      rw [hl] at h
      simp only [Except.error.injEq] at h
      rw [h] at hl
      exact (hfuel _ (by omega) (Nat.le_refl _)).2 hl
    | ok st => rw [hl] at h; cases h
  refine ⟨matchToken_offset_pos, fun st words o st2 => parseStep_offset_pos st st2 words o,
    fun fuel hf => (hfuel fuel (by omega) hf).1, hne, ?_⟩
  cases hp : Parse text with
  | ok t => exact Or.inl ⟨t, rfl⟩
  | error e =>
    right
    have hp2 := hp
    unfold Parse at hp2
    simp only at hp2
    cases hl : parseLoop (parseWords text) (parseWords text).length 0 parseStart with
    | ok st => rw [hl] at hp2; cases hp2
    | error e2 =>
      rw [hl] at hp2
      cases hp2
      rcases parseLoop_error _ _ _ _ _ hl with h1 | h1 | h1
      · rw [h1] at hp; exact absurd hp hne
      · obtain ⟨ws, hws⟩ := h1
        exact Or.inl ⟨ws, by rw [hws]⟩
      · exact Or.inr (by rw [h1])

end server
